import Mathlib

/-!
A verification development for the embedded document store used by this
repository (a single-collection NeDB-style engine: indexes with rollback,
append-only persistence with corruption tolerance, a serializing executor,
index-aware candidate selection, TTL expiry, cursors with sort/skip/limit).

The JavaScript sources are shallowly embedded: JS objects holding documents
become association lists, the binary search tree backing an index becomes an
insertion-ordered association map from keys to arrays of documents, thrown
exceptions become explicit `Option DbError` results paired with the state
after the failed call (so that rollback behaviour is observable), and the
asynchronous callback plumbing is flattened into direct state-passing.

Functions of `model.js` (which only has callers in the repository sources)
are modelled from the specification and marked as such in their doc comments.
-/

namespace Nedb

/-- A JS value as stored in a document field: null, boolean, number, string,
date (milliseconds since epoch) or array.  Numbers are embedded as integers
(no claim under verification depends on non-integer arithmetic). -/
inductive Value where
  | null : Value
  | boolean : Bool → Value
  | num : Int → Value
  | str : String → Value
  | date : Int → Value
  | arr : List Value → Value
deriving Repr

mutual

def Value.beq : Value → Value → Bool
  | .null, .null => true
  | .boolean a, .boolean b => a == b
  | .num a, .num b => a == b
  | .str a, .str b => a == b
  | .date a, .date b => a == b
  | .arr a, .arr b => Value.beqList a b
  | _, _ => false

def Value.beqList : List Value → List Value → Bool
  | [], [] => true
  | a :: as_, b :: bs => Value.beq a b && Value.beqList as_ bs
  | _, _ => false

end

mutual

theorem Value.beq_iff : ∀ a b : Value, Value.beq a b = true ↔ a = b
  | .null, .null => by simp [Value.beq]
  | .null, .boolean _ | .null, .num _ | .null, .str _ | .null, .date _ | .null, .arr _ => by
      simp [Value.beq]
  | .boolean _, .null | .boolean _, .num _ | .boolean _, .str _ | .boolean _, .date _
  | .boolean _, .arr _ => by simp [Value.beq]
  | .boolean a, .boolean b => by simp [Value.beq]
  | .num _, .null | .num _, .boolean _ | .num _, .str _ | .num _, .date _ | .num _, .arr _ => by
      simp [Value.beq]
  | .num a, .num b => by simp [Value.beq]
  | .str _, .null | .str _, .boolean _ | .str _, .num _ | .str _, .date _ | .str _, .arr _ => by
      simp [Value.beq]
  | .str a, .str b => by simp [Value.beq]
  | .date _, .null | .date _, .boolean _ | .date _, .num _ | .date _, .str _ | .date _, .arr _ => by
      simp [Value.beq]
  | .date a, .date b => by simp [Value.beq]
  | .arr _, .null | .arr _, .boolean _ | .arr _, .num _ | .arr _, .str _ | .arr _, .date _ => by
      simp [Value.beq]
  | .arr a, .arr b => by
      simp only [Value.beq, Value.beqList_iff a b]
      constructor
      · intro h; rw [h]
      · intro h; cases h; rfl

theorem Value.beqList_iff : ∀ a b : List Value, Value.beqList a b = true ↔ a = b
  | [], [] => by simp [Value.beqList]
  | [], _ :: _ => by simp [Value.beqList]
  | _ :: _, [] => by simp [Value.beqList]
  | a :: as_, b :: bs => by
      simp only [Value.beqList, Bool.and_eq_true, Value.beq_iff a b,
        Value.beqList_iff as_ bs, List.cons.injEq]

end

instance : DecidableEq Value := fun a b =>
  if h : Value.beq a b = true then .isTrue ((Value.beq_iff a b).mp h)
  else .isFalse (fun hab => h ((Value.beq_iff a b).mpr hab))

/-- A document: a JS object embedded as an association list from field names
to values (JS objects preserve key insertion order, which the list order
mirrors). -/
abbrev Doc := List (String × Value)

/-- Modelled from the spec: `model.getDotValue(doc, field)` resolves a field
of a document, returning `undefined` (here `none`) when missing.  `model.js`
is not among the repository sources; dot-paths are flattened to plain field
names, which is all the claims under verification exercise. -/
def getDotValue (doc : Doc) (field : String) : Option Value :=
  doc.lookup field

/-- `projectForUnique` from `indexes.js`: type-aware projection used to
deduplicate the keys of an array-valued field.  Scalar values project to a
tagged string; arrays keep structural identity (in JS they are compared by
pointer; in a deserialized store structurally distinct arrays are exactly the
pointer-distinct ones relevant here). -/
def projectForUnique : Value → String ⊕ Value
  | .null => .inl "$null"
  | .str s => .inl ("$string" ++ s)
  | .boolean b => .inl ("$boolean" ++ toString b)
  | .num n => .inl ("$number" ++ toString n)
  | .date t => .inl ("$date" ++ toString t)
  | v => .inr v

/-- `uniq` from `utils.js` applied with an iterator: deduplicate a list by a
key function, keeping the position of the first occurrence of each key. -/
def uniqBy (key : Value → String ⊕ Value) : List Value → List Value
  | [] => []
  | v :: vs => v :: (uniqBy key (vs.filter (fun w => key w ≠ key v)))
termination_by l => l.length
decreasing_by
  simp only [List.length_cons]
  exact Nat.lt_succ_of_le (List.length_filter_le _ _)

/-- The error kinds surfaced by the embedded engine. -/
inductive DbError where
  | uniqueViolated : Option Value → DbError
  | missingFieldName : DbError
  | corruptedData : DbError
  | cantMixModifiers : DbError
  | invalidFieldName : DbError
deriving DecidableEq, Repr

/-- An index key: `none` embeds the JS `undefined` key under which documents
missing the field are stored by a non-sparse index. -/
abbrev Key := Option Value

/-- The binary search tree backing an index (`@seald-io/binary-search-tree`,
an external dependency), embedded as an insertion-ordered association map
from keys to the arrays of documents stored at each key.  Tree balancing and
in-order traversal order are not modelled; no claim under verification
references key-traversal order. -/
abbrev Tree := List (Key × List Doc)

/-- `tree.search(key)`: the documents stored at a key ([] when absent). -/
def treeSearch (t : Tree) (k : Key) : List Doc :=
  match t.lookup k with
  | some ds => ds
  | none => []

/-- `tree.insert(key, doc)`: appends the document at the key, throwing a
unique-constraint violation (with no mutation) when the tree is unique and
the key is already present.  Returned as (state after, error). -/
def treeInsert (unique : Bool) (t : Tree) (k : Key) (d : Doc) : Tree × Option DbError :=
  match t with
  | [] => ([(k, [d])], none)
  | (k', ds) :: rest =>
      if k' = k then
        if unique then ((k', ds) :: rest, some (.uniqueViolated k))
        else ((k', ds ++ [d]) :: rest, none)
      else
        match treeInsert unique rest k d with
        | (rest', e) => ((k', ds) :: rest', e)

/-- `tree.delete(key, doc)`: removes every entry at the key whose stored
document is (pointer-)equal to `doc`, dropping the key when its array
empties. -/
def treeDelete (t : Tree) (k : Key) (d : Doc) : Tree :=
  match t with
  | [] => []
  | (k', ds) :: rest =>
      if k' = k then
        match ds.filter (fun d' => d' ≠ d) with
        | [] => rest
        | ds' => (k', ds') :: rest
      else (k', ds) :: treeDelete rest k d

/-- All documents of the tree, flattened.  The source traverses the BST in
key order, so its `getAll` is key-sorted; this embedding flattens the
entry list as built, a simplification no claim verdict rests on — order-
sensitive statements are made only about the per-key document lists
(`node.data`), whose order the source does preserve as insertion order. -/
def treeGetAll (t : Tree) : List Doc :=
  t.flatMap (fun e => e.2)

/-- The type rank used by the total order on values. -/
def rank : Value → Int
  | .null => 1
  | .boolean _ => 2
  | .num _ => 3
  | .str _ => 4
  | .date _ => 5
  | .arr _ => 6

/-- Three-way comparison on integers, as -1 / 0 / 1. -/
def cmpInt (a b : Int) : Int :=
  if a < b then -1 else if a = b then 0 else 1

/-- Three-way comparison on strings (default JS `<`/`>` string ordering,
embedded as Lean's lexicographic string order). -/
def cmpStr (a b : String) : Int :=
  if a < b then -1 else if a = b then 0 else 1

/-- Three-way comparison on booleans (false < true, as JS comparison of
booleans behaves). -/
def cmpBool (a b : Bool) : Int :=
  cmpInt (if a then 1 else 0) (if b then 1 else 0)

mutual

/-- Modelled from the spec: `model.compareThings` (in `model.js`, absent from
the repository sources) — a total order across mixed types using the fixed
type rank null < boolean < number < string < date < array; same-type values
compare by value, arrays lexicographically element by element with the
shorter array first at a tie. -/
def cmpV : Value → Value → Int
  | .null, .null => 0
  | .boolean a, .boolean b => cmpBool a b
  | .num a, .num b => cmpInt a b
  | .str a, .str b => cmpStr a b
  | .date a, .date b => cmpInt a b
  | .arr a, .arr b => cmpVList a b
  | a, b => cmpInt (rank a) (rank b)

def cmpVList : List Value → List Value → Int
  | [], [] => 0
  | [], _ :: _ => -1
  | _ :: _, [] => 1
  | a :: as_, b :: bs => if cmpV a b ≠ 0 then cmpV a b else cmpVList as_ bs

end

/-- Comparison on index keys: the `undefined` key (`none`) sorts below every
defined value. -/
def cmpKey : Key → Key → Int
  | none, none => 0
  | none, some _ => -1
  | some _, none => 1
  | some a, some b => cmpV a b

/-- An index of the store (`indexes.js`): a field name, the unique/sparse
flags and the backing tree. -/
structure Index where
  fieldName : String
  unique : Bool
  sparse : Bool
  tree : Tree
deriving DecidableEq, Repr

/-- `new Index(options)` / `Index.reset()`: a fresh empty index. -/
def Index.mkIndex (fieldName : String) (unique sparse : Bool) : Index :=
  ⟨fieldName, unique, sparse, []⟩

/-- The key-insertion loop of `Index.insert` for an array-valued field:
insert the document under each key in turn; at the first failure, stop and
report the error together with the prefix of keys already applied (the
source's `keys[0..failingIndex-1]`). -/
def insertKeysGo (unique : Bool) (d : Doc) (t : Tree) (applied : List Value) :
    List Value → Tree × Option (DbError × List Value)
  | [] => (t, none)
  | k :: ks =>
      match treeInsert unique t (some k) d with
      | (t', none) => insertKeysGo unique d t' (applied ++ [k]) ks
      | (t', some e) => (t', some (e, applied))

/-- `Index.insert(doc)` for a single document: skip when sparse and the field
is missing; for an array-valued field insert once per `projectForUnique`-
distinct element, rolling back the already-inserted keys (in forward order,
as the source does) if one insertion violates the unique constraint;
otherwise insert under the scalar (possibly `undefined`) key. -/
def Index.insertDoc (idx : Index) (d : Doc) : Index × Option DbError :=
  let key := getDotValue d idx.fieldName
  if key = none ∧ idx.sparse then (idx, none)
  else
    match key with
    | some (.arr l) =>
        let keys := uniqBy projectForUnique l
        match insertKeysGo idx.unique d idx.tree [] keys with
        | (t', none) => ({ idx with tree := t' }, none)
        | (t', some (e, applied)) =>
            ({ idx with tree := applied.foldl (fun t k => treeDelete t (some k) d) t' }, some e)
    | k =>
        match treeInsert idx.unique idx.tree k d with
        | (t', e) => ({ idx with tree := t' }, e)

/-- `Index.remove(doc)` for a single document. -/
def Index.removeDoc (idx : Index) (d : Doc) : Index :=
  let key := getDotValue d idx.fieldName
  if key = none ∧ idx.sparse then idx
  else
    match key with
    | some (.arr l) =>
        { idx with
          tree := (uniqBy projectForUnique l).foldl (fun t k => treeDelete t (some k) d) idx.tree }
    | k => { idx with tree := treeDelete idx.tree k d }

/-- The document-insertion loop of `Index.insertMultipleDocs`: insert each
document in turn; at the first failure, stop and report the error together
with the prefix of documents already inserted. -/
def insertDocsGo (idx : Index) (applied : List Doc) :
    List Doc → Index × Option (DbError × List Doc)
  | [] => (idx, none)
  | d :: ds =>
      match idx.insertDoc d with
      | (idx', none) => insertDocsGo idx' (applied ++ [d]) ds
      | (idx', some e) => (idx', some (e, applied))

/-- `Index.insertMultipleDocs(docs)` (the array case of `Index.insert`): if
one insertion fails, remove the already-inserted documents (forward order)
and surface the error. -/
def Index.insertList (idx : Index) (ds : List Doc) : Index × Option DbError :=
  match insertDocsGo idx [] ds with
  | (idx', none) => (idx', none)
  | (idx', some (e, applied)) =>
      (applied.foldl (fun i d => i.removeDoc d) idx', some e)

/-- `Index.update(oldDoc, newDoc)` for a single pair: remove the old
document, insert the new one, and on failure re-insert the old document
before surfacing the error (an error during the restore itself would
propagate instead, as in the source). -/
def Index.updateDoc (idx : Index) (oldDoc newDoc : Doc) : Index × Option DbError :=
  let idx1 := idx.removeDoc oldDoc
  match idx1.insertDoc newDoc with
  | (idx2, none) => (idx2, none)
  | (idx2, some e) =>
      match idx2.insertDoc oldDoc with
      | (idx3, none) => (idx3, some e)
      | (idx3, some e2) => (idx3, some e2)

/-- An old/new document pair, as passed to `Index.updateMultipleDocs`. -/
structure UpdatePair where
  oldDoc : Doc
  newDoc : Doc
deriving DecidableEq, Repr

/-- The restore loop of `Index.updateMultipleDocs`: re-insert documents one
by one; an error aborts the loop and propagates (as the unprotected `insert`
calls of the source would). -/
def reinsertAll (idx : Index) : List Doc → Index × Option DbError
  | [] => (idx, none)
  | d :: ds =>
      match idx.insertDoc d with
      | (idx', none) => reinsertAll idx' ds
      | (idx', some e) => (idx', some e)

/-- `Index.updateMultipleDocs(pairs)`: remove every old document, insert the
new ones one by one; if one insertion fails, remove the already-inserted new
documents and re-insert every old document before surfacing the error. -/
def Index.updateMultipleDocs (idx : Index) (pairs : List UpdatePair) :
    Index × Option DbError :=
  let idx1 := pairs.foldl (fun i p => i.removeDoc p.oldDoc) idx
  match insertDocsGo idx1 [] (pairs.map (fun p => p.newDoc)) with
  | (idx2, none) => (idx2, none)
  | (idx2, some (e, applied)) =>
      let idx3 := applied.foldl (fun i d => i.removeDoc d) idx2
      match reinsertAll idx3 (pairs.map (fun p => p.oldDoc)) with
      | (idx4, none) => (idx4, some e)
      | (idx4, some e2) => (idx4, some e2)

/-- `Index.revertUpdate(oldDoc, newDoc)` for a single pair: the reverse
update. -/
def Index.revertUpdateDoc (idx : Index) (oldDoc newDoc : Doc) : Index × Option DbError :=
  idx.updateDoc newDoc oldDoc

/-- `Index.revertUpdate(pairs)` for an array of pairs: update with every pair
swapped. -/
def Index.revertUpdateMulti (idx : Index) (pairs : List UpdatePair) :
    Index × Option DbError :=
  idx.updateMultipleDocs (pairs.map (fun p => ⟨p.newDoc, p.oldDoc⟩))

/-- `Index.getMatching(value)` for a scalar value. -/
def Index.getMatchingOne (idx : Index) (v : Value) : List Doc :=
  treeSearch idx.tree (some v)

/-- The `_id`-keyed deduplication of `Index.getMatching(array)`: keep, for
each `_id`, the document at the position of its first occurrence (the JS
object used as the accumulator preserves first-insertion key order). -/
def dedupByIdGo (seen : List (Option Value)) : List Doc → List Doc
  | [] => []
  | d :: ds =>
      if getDotValue d "_id" ∈ seen then dedupByIdGo seen ds
      else d :: dedupByIdGo (seen ++ [getDotValue d "_id"]) ds

/-- `Index.getMatching(value)` for an array of values: concatenate the
per-value matches and deduplicate by `_id`. -/
def Index.getMatchingList (idx : Index) (vs : List Value) : List Doc :=
  dedupByIdGo [] (vs.flatMap (fun v => idx.getMatchingOne v))

/-- The range bounds carried by a comparison query (`$gt`/`$gte`/`$lt`/
`$lte`, each optional). -/
structure Bounds where
  gtB : Option Value := none
  gteB : Option Value := none
  ltB : Option Value := none
  lteB : Option Value := none
deriving DecidableEq, Repr

/-- Whether a key satisfies every present bound (the bound matchers built by
the tree's `betweenBounds`, an external dependency, modelled as the
conjunction of the present bounds). -/
def keyInBounds (b : Bounds) (k : Key) : Bool :=
  (match b.gtB with | some v => cmpKey k (some v) > 0 | none => true) &&
  (match b.gteB with | some v => cmpKey k (some v) ≥ 0 | none => true) &&
  (match b.ltB with | some v => cmpKey k (some v) < 0 | none => true) &&
  (match b.lteB with | some v => cmpKey k (some v) ≤ 0 | none => true)

/-- `Index.getBetweenBounds(query)`: the documents whose key lies within the
bounds (the source returns them sorted by key; traversal order is not
modelled and no claim references it). -/
def Index.getBetweenBounds (idx : Index) (b : Bounds) : List Doc :=
  treeGetAll (idx.tree.filter (fun e => keyInBounds b e.1))

/-- `Index.getAll()`. -/
def Index.getAll (idx : Index) : List Doc :=
  treeGetAll idx.tree

/-- `Index.getMatching(value)`: dispatch on whether the value is an array. -/
def Index.getMatchingVal (idx : Index) : Value → List Doc
  | .arr l => idx.getMatchingList l
  | v => idx.getMatchingOne v

/-- The value at a key of a query: a scalar, or an operator object such as
`\x7b $in: [...] \x7d` (embedded, like documents, as an association list). -/
inductive QueryVal where
  | scalar : Value → QueryVal
  | qobj : List (String × Value) → QueryVal
deriving DecidableEq, Repr

/-- A query object. -/
abbrev Query := List (String × QueryVal)

/-- The basic-match usability test of `getCandidates`: the query value is a
string, number, boolean, date or null (arrays and operator objects are not
usable for a basic index match). -/
def isScalarUsable : QueryVal → Bool
  | .scalar .null => true
  | .scalar (.boolean _) => true
  | .scalar (.num _) => true
  | .scalar (.str _) => true
  | .scalar (.date _) => true
  | _ => false

/-- Whether a query value is an (always truthy) operator object carrying the
given operator key (`hasOwnProperty` in the source). -/
def hasOp (op : String) : QueryVal → Bool
  | .qobj l => (l.lookup op).isSome
  | _ => false

/-- The comparison-match usability test of `getCandidates`. -/
def isComparisonUsable (v : QueryVal) : Bool :=
  hasOp "$lt" v || hasOp "$lte" v || hasOp "$gt" v || hasOp "$gte" v

/-- The bounds object handed to `getBetweenBounds` by `getCandidates`: the
comparison operators present on the query value. -/
def boundsOfOps (l : List (String × Value)) : Bounds :=
  { gtB := l.lookup "$gt", gteB := l.lookup "$gte",
    ltB := l.lookup "$lt", lteB := l.lookup "$lte" }

/-- Whether two values are of comparable type for the `$lt`-family operators
(same type rank; only scalar-on-scalar comparisons succeed). -/
def comparableVals (a b : Value) : Bool :=
  rank a = rank b

/-- Modelled from the spec: a single comparison-operator criterion of
`model.match` applied to a resolved document field (`model.js` is absent
from the repository sources).  Array fields match when any element satisfies
the scalar criterion. -/
def opMatches (dv : Option Value) : String × Value → Bool
  | ("$in", .arr vs) =>
      match dv with
      | some (.arr l) => l.any (fun x => vs.contains x)
      | some w => vs.contains w
      | none => false
  | ("$lt", v) =>
      match dv with
      | some (.arr l) => l.any (fun x => comparableVals x v && cmpV x v < 0)
      | some w => comparableVals w v && cmpV w v < 0
      | none => false
  | ("$lte", v) =>
      match dv with
      | some (.arr l) => l.any (fun x => comparableVals x v && cmpV x v ≤ 0)
      | some w => comparableVals w v && cmpV w v ≤ 0
      | none => false
  | ("$gt", v) =>
      match dv with
      | some (.arr l) => l.any (fun x => comparableVals x v && cmpV x v > 0)
      | some w => comparableVals w v && cmpV w v > 0
      | none => false
  | ("$gte", v) =>
      match dv with
      | some (.arr l) => l.any (fun x => comparableVals x v && cmpV x v ≥ 0)
      | some w => comparableVals w v && cmpV w v ≥ 0
      | none => false
  | _ => false

/-- Modelled from the spec: one key's criterion of `model.match` — equality
by default (an array field matches when any element equals the scalar), and
the conjunction of the operators for an operator object. -/
def valueMatches (dv : Option Value) : QueryVal → Bool
  | .scalar v =>
      match dv with
      | some (.arr l) => l.contains v
      | some w => w = v
      | none => false
  | .qobj ops => ops.all (fun op => opMatches dv op)

/-- Modelled from the spec: `model.match(doc, query)` — every query key's
criterion holds of the document. -/
def matchQuery (d : Doc) (q : Query) : Bool :=
  q.all (fun kv => valueMatches (getDotValue d kv.1) kv.2)

/-- A line of the append-only log, as handed to `persistNewState`: a
document, a tombstone, or an index creation/removal marker. -/
inductive LogEntry where
  | docLine : Doc → LogEntry
  | tombstone : Option Value → LogEntry
  | indexCreatedMarker : String → Bool → Bool → Option Int → LogEntry
  | indexRemovedMarker : String → LogEntry
deriving DecidableEq, Repr

/-- The options object passed to `ensureIndex` (`fieldName` of `none` or `""`
is the falsy case the source rejects). -/
structure IndexOptions where
  fieldName : Option String := none
  unique : Bool := false
  sparse : Bool := false
  expireAfterSeconds : Option Int := none
deriving DecidableEq, Repr

/-- JS object assignment `o[k] = v` on an association list: replace in place
when the key is present (JS objects keep the original position of a
re-assigned key), append otherwise. -/
def setAssoc {κ α : Type} [DecidableEq κ] : List (κ × α) → κ → α → List (κ × α)
  | [], k, v => [(k, v)]
  | (k', v') :: rest, k, v =>
      if k' = k then (k, v) :: rest else (k', v') :: setAssoc rest k v

/-- JS `delete o[k]` on an association list. -/
def eraseAssoc {κ α : Type} [DecidableEq κ] : List (κ × α) → κ → List (κ × α)
  | [], _ => []
  | (k', v') :: rest, k =>
      if k' = k then eraseAssoc rest k else (k', v') :: eraseAssoc rest k

/-- The Datastore state the claims reference: the indexes (an insertion-
ordered mapping whose first entry is normally the implicit `_id` index), the
TTL registrations, and the entries appended to the on-disk log by
`persistNewState` (persistence I/O errors are not modelled). -/
structure Datastore where
  indexes : List (String × Index)
  ttlIndexes : List (String × Int)
  committedLog : List LogEntry
  timestampData : Bool := false
deriving DecidableEq, Repr

/-- `Datastore.getAllData()`: the contents of the `_id` index. -/
def Datastore.getAllData (db : Datastore) : List Doc :=
  match db.indexes.lookup "_id" with
  | some idx => idx.getAll
  | none => []

/-- The field names carrying an index (`Object.keys(this.indexes)`). -/
def Datastore.indexNames (db : Datastore) : List String :=
  db.indexes.map Prod.fst

/-- The index stored at a field name (only meaningful when present). -/
def Datastore.getIndex (db : Datastore) (f : String) : Index :=
  match db.indexes.lookup f with
  | some i => i
  | none => Index.mkIndex f false false

/-- The loop of `Datastore.addToIndexes`: insert the document into each index
in turn; at the first failure, roll the insert back on the already-updated
prefix (forward order) and surface the error. -/
def addToIndexesGo (d : Doc) (acc : List (String × Index)) :
    List (String × Index) → List (String × Index) × Option DbError
  | [] => (acc, none)
  | (f, idx) :: rest =>
      match idx.insertDoc d with
      | (idx', none) => addToIndexesGo d (acc ++ [(f, idx')]) rest
      | (idx', some e) =>
          (acc.map (fun p => (p.1, p.2.removeDoc d)) ++ (f, idx') :: rest, some e)

/-- `Datastore.addToIndexes(doc)` for a single document. -/
def Datastore.addToIndexes (db : Datastore) (d : Doc) : Datastore × Option DbError :=
  match addToIndexesGo d [] db.indexes with
  | (idxs, e) => ({ db with indexes := idxs }, e)

/-- `Datastore.removeFromIndexes(doc)`. -/
def Datastore.removeFromIndexes (db : Datastore) (d : Doc) : Datastore :=
  { db with indexes := db.indexes.map (fun p => (p.1, p.2.removeDoc d)) }

/-- The rollback loop of `Datastore.updateIndexes` (array-of-pairs form):
revert the update on each already-updated index; an error raised by a revert
aborts the loop and propagates, as the unprotected calls of the source
would. -/
def revertMultiGo (pairs : List UpdatePair) :
    List (String × Index) → List (String × Index) × Option DbError
  | [] => ([], none)
  | (f, idx) :: rest =>
      match idx.revertUpdateMulti pairs with
      | (idx', none) =>
          match revertMultiGo pairs rest with
          | (rest', e) => ((f, idx') :: rest', e)
      | (idx', some e) => ((f, idx') :: rest, some e)

/-- The loop of `Datastore.updateIndexes` for an array of old/new pairs. -/
def updateIndexesGo (pairs : List UpdatePair) (acc : List (String × Index)) :
    List (String × Index) → List (String × Index) × Option DbError
  | [] => (acc, none)
  | (f, idx) :: rest =>
      match idx.updateMultipleDocs pairs with
      | (idx', none) => updateIndexesGo pairs (acc ++ [(f, idx')]) rest
      | (idx', some e) =>
          match revertMultiGo pairs acc with
          | (acc', none) => (acc' ++ (f, idx') :: rest, some e)
          | (acc', some e2) => (acc' ++ (f, idx') :: rest, some e2)

/-- `Datastore.updateIndexes(pairs)`: update every index with the whole batch
of old/new pairs; a failure reverts the already-updated indexes before
surfacing the error. -/
def Datastore.updateIndexes (db : Datastore) (pairs : List UpdatePair) :
    Datastore × Option DbError :=
  match updateIndexesGo pairs [] db.indexes with
  | (idxs, e) => ({ db with indexes := idxs }, e)

/-- The rollback loop of `Datastore.updateIndexes` (single-pair form). -/
def revertSingleGo (oldDoc newDoc : Doc) :
    List (String × Index) → List (String × Index) × Option DbError
  | [] => ([], none)
  | (f, idx) :: rest =>
      match idx.revertUpdateDoc oldDoc newDoc with
      | (idx', none) =>
          match revertSingleGo oldDoc newDoc rest with
          | (rest', e) => ((f, idx') :: rest', e)
      | (idx', some e) => ((f, idx') :: rest, some e)

/-- The loop of `Datastore.updateIndexes(oldDoc, newDoc)` for a single
pair. -/
def updateIndexesSingleGo (oldDoc newDoc : Doc) (acc : List (String × Index)) :
    List (String × Index) → List (String × Index) × Option DbError
  | [] => (acc, none)
  | (f, idx) :: rest =>
      match idx.updateDoc oldDoc newDoc with
      | (idx', none) => updateIndexesSingleGo oldDoc newDoc (acc ++ [(f, idx')]) rest
      | (idx', some e) =>
          match revertSingleGo oldDoc newDoc acc with
          | (acc', none) => (acc' ++ (f, idx') :: rest, some e)
          | (acc', some e2) => (acc' ++ (f, idx') :: rest, some e2)

/-- `Datastore.updateIndexes(oldDoc, newDoc)` for a single pair. -/
def Datastore.updateIndexesSingle (db : Datastore) (oldDoc newDoc : Doc) :
    Datastore × Option DbError :=
  match updateIndexesSingleGo oldDoc newDoc [] db.indexes with
  | (idxs, e) => ({ db with indexes := idxs }, e)

/-- The loop of `Datastore._insertMultipleDocsInCache`: add each document to
every index; at the first failure, remove the already-inserted documents
from every index (forward order) and surface the error. -/
def insertMultipleGo (db : Datastore) (applied : List Doc) :
    List Doc → Datastore × Option DbError
  | [] => (db, none)
  | d :: ds =>
      match db.addToIndexes d with
      | (db', none) => insertMultipleGo db' (applied ++ [d]) ds
      | (db', some e) =>
          (applied.foldl (fun s x => s.removeFromIndexes x) db', some e)

/-- `Datastore._insertMultipleDocsInCache(preparedDocs)`. -/
def Datastore.insertMultipleDocsInCache (db : Datastore) (ds : List Doc) :
    Datastore × Option DbError :=
  insertMultipleGo db [] ds

/-- `Datastore.ensureIndex(options)`: reject a falsy field name; succeed
without any effect when the field is already indexed; otherwise create the
index (and the TTL registration when `expireAfterSeconds` is given), fill it
with all current data — deleting it again if a constraint is violated (the
TTL registration, as in the source, is not undone) — and persist an
index-creation marker. -/
def Datastore.ensureIndex (db : Datastore) (opts : IndexOptions) :
    Datastore × Option DbError :=
  match opts.fieldName with
  | none => (db, some .missingFieldName)
  | some fn =>
      if fn = "" then (db, some .missingFieldName)
      else if (db.indexes.lookup fn).isSome then (db, none)
      else
        let newIdx := Index.mkIndex fn opts.unique opts.sparse
        let db1 : Datastore :=
          { db with
            indexes := setAssoc db.indexes fn newIdx,
            ttlIndexes :=
              match opts.expireAfterSeconds with
              | some s => setAssoc db.ttlIndexes fn s
              | none => db.ttlIndexes }
        match newIdx.insertList db.getAllData with
        | (idx', none) =>
            ({ db1 with
               indexes := setAssoc db1.indexes fn idx',
               committedLog := db1.committedLog ++
                 [LogEntry.indexCreatedMarker fn opts.unique opts.sparse
                   opts.expireAfterSeconds] }, none)
        | (_, some e) =>
            ({ db1 with indexes := eraseAssoc db1.indexes fn }, some e)

/-- `Datastore.removeIndex(fieldName)`: drop the index and persist a removal
marker. -/
def Datastore.removeIndex (db : Datastore) (fieldName : String) : Datastore :=
  { db with
    indexes := eraseAssoc db.indexes fieldName,
    committedLog := db.committedLog ++ [LogEntry.indexRemovedMarker fieldName] }

/-- The first query key usable under a given test: collect the keys whose
value passes the test, keep the indexed ones, take the head (the source's
collect-then-filter `usableQueryKeys[0]`). -/
def firstUsable (q : Query) (names : List String) (p : QueryVal → Bool) : Option String :=
  (((q.filter (fun kv => p kv.2)).map Prod.fst).filter (fun k => names.contains k)).head?

/-- STEP 1 of `Datastore.getCandidates`: try a basic indexed match, then an
indexed `$in` match, then an indexed comparison match, and fall back to the
whole dataset. -/
def Datastore.getCandidatesStep1 (db : Datastore) (q : Query) : List Doc :=
  let names := db.indexNames
  match firstUsable q names isScalarUsable with
  | some k =>
      match q.lookup k with
      | some (.scalar v) => (db.getIndex k).getMatchingVal v
      | _ => []
  | none =>
      match firstUsable q names (hasOp "$in") with
      | some k =>
          match q.lookup k with
          | some (.qobj l) =>
              match l.lookup "$in" with
              | some v => (db.getIndex k).getMatchingVal v
              | none => []
          | _ => []
      | none =>
          match firstUsable q names isComparisonUsable with
          | some k =>
              match q.lookup k with
              | some (.qobj l) => (db.getIndex k).getBetweenBounds (boundsOfOps l)
              | _ => []
          | none => db.getAllData

/-- The candidate loop of `Datastore._remove`: remove every matching
candidate (at most one unless `multi`) from all indexes, collecting a
tombstone per removed document. -/
def removeLoop (q : Query) (multi : Bool) :
    Datastore → List LogEntry → Nat → List Doc → Datastore × List LogEntry × Nat
  | db, tombs, numRemoved, [] => (db, tombs, numRemoved)
  | db, tombs, numRemoved, d :: ds =>
      if matchQuery d q ∧ (multi ∨ numRemoved = 0) then
        removeLoop q multi (db.removeFromIndexes d)
          (tombs ++ [LogEntry.tombstone (getDotValue d "_id")]) (numRemoved + 1) ds
      else removeLoop q multi db tombs numRemoved ds

/-- `Datastore._remove(query, options)`: candidates are fetched with TTL
expiry suppressed (`dontExpireStaleDocs = true`, so STEP 2 of
`getCandidates` is skipped and only STEP 1 runs); matching candidates are
removed from every index and a tombstone per removal is persisted. -/
def Datastore.removeModel (db : Datastore) (q : Query) (multi : Bool) : Datastore × Nat :=
  let cands := db.getCandidatesStep1 q
  match removeLoop q multi db [] 0 cands with
  | (db', tombs, n) => ({ db' with committedLog := db'.committedLog ++ tombs }, n)

/-- The staleness test of `getCandidates` STEP 2: some TTL-registered field
is present on the document, holds a date, and `now` is strictly past the
date plus `expireAfterSeconds` seconds. -/
def isStale (ttl : List (String × Int)) (now : Int) (d : Doc) : Bool :=
  ttl.any (fun p =>
    match d.lookup p.1 with
    | some (.date t) => now > t + p.2 * 1000
    | _ => false)

/-- The query `\x7b _id: id \x7d` used by STEP 2 of `getCandidates` to remove
an expired document (a document of the store always carries an `_id`; the
`none` case never arises there). -/
def idQuery : Option Value → Query
  | some v => [("_id", QueryVal.scalar v)]
  | none => [("_id", QueryVal.scalar .null)]

/-- `Datastore.getCandidates(query, dontExpireStaleDocs)`: STEP 1 selects
the candidates through the best usable index; unless expiry is suppressed,
STEP 2 partitions them by staleness, removes every stale candidate from the
store (via `_remove` on its `_id`) and returns only the valid ones. -/
def Datastore.getCandidates (db : Datastore) (q : Query) (dontExpireStaleDocs : Bool)
    (now : Int) : Datastore × List Doc :=
  let docs := db.getCandidatesStep1 q
  if dontExpireStaleDocs then (db, docs)
  else
    let validDocs := docs.filter (fun d => ¬ isStale db.ttlIndexes now d)
    let expiredIds := (docs.filter (fun d => isStale db.ttlIndexes now d)).map
      (fun d => getDotValue d "_id")
    let db' := expiredIds.foldl (fun s idv => (s.removeModel (idQuery idv) false).1) db
    (db', validDocs)

/-- Modelled from the spec: `model.checkObject(doc)` — fails when any field
name begins with `$` or contains `.`. -/
def checkDoc (d : Doc) : Option DbError :=
  if d.any (fun kv => decide (kv.1.data.head? = some '$' ∨ '.' ∈ kv.1.data)) then
    some .invalidFieldName
  else none

/-- `Datastore.prepareDocumentForInsertion` for one document: copy, assign a
fresh `_id` when absent (the random unused id generated by `createNewId` is
supplied as a parameter), add timestamps when configured, and validate the
field names. -/
def Datastore.prepareDocumentForInsertion (db : Datastore) (freshId : Value) (now : Int)
    (d : Doc) : Doc × Option DbError :=
  let d1 := if (d.lookup "_id").isSome then d else d ++ [("_id", freshId)]
  let d2 :=
    if db.timestampData ∧ (d1.lookup "createdAt") = none then d1 ++ [("createdAt", .date now)]
    else d1
  let d3 :=
    if db.timestampData ∧ (d2.lookup "updatedAt") = none then d2 ++ [("updatedAt", .date now)]
    else d2
  (d3, checkDoc d3)

/-- `Datastore._insert(newDoc)` for a single document: prepare it, add it to
every index (transactionally), persist it, and return the stored document
(`model.deepCopy` is the structural identity in this embedding). -/
def Datastore.insertModel (db : Datastore) (freshId : Value) (now : Int) (d : Doc) :
    Datastore × Except DbError Doc :=
  match db.prepareDocumentForInsertion freshId now d with
  | (_, some e) => (db, .error e)
  | (prepared, none) =>
      match db.addToIndexes prepared with
      | (db', some e) => (db', .error e)
      | (db', none) =>
          ({ db' with committedLog := db'.committedLog ++ [.docLine prepared] }, .ok prepared)

/-- One key of an update query: a plain field, a `$set` object or a `$unset`
object (the two update operators the specification evidences). -/
inductive UpdateKV where
  | plain : String → Value → UpdateKV
  | setOp : List (String × Value) → UpdateKV
  | unsetOp : List String → UpdateKV
deriving DecidableEq, Repr

/-- An update query object. -/
abbrev UpdateQuery := List UpdateKV

/-- Modelled from the spec: `model.checkObject(updateQuery)` — fails exactly
when an operator key (beginning with `$`) or a dotted plain key is
present. -/
def checkUpdateQuery (uq : UpdateQuery) : Option DbError :=
  if uq.any (fun kv =>
      match kv with
      | .plain k _ => decide (k.data.head? = some '$' ∨ '.' ∈ k.data)
      | _ => true) then
    some .invalidFieldName
  else none

/-- The plain fields of an update query, as a document. -/
def updateQueryAsDoc (uq : UpdateQuery) : Doc :=
  uq.filterMap (fun kv =>
    match kv with
    | .plain k v => some (k, v)
    | _ => none)

/-- Modelled from the spec: `model.modify(doc, updateQuery)` — wholesale
replacement preserving `_id` when the update query carries no operator, the
application of `$set`/`$unset` when it carries only operators, and an error
when plain fields and operators are mixed. -/
def modifyDoc (base : Doc) (uq : UpdateQuery) : Except DbError Doc :=
  let hasMod := uq.any (fun kv => match kv with | .plain _ _ => false | _ => true)
  let hasPlain := uq.any (fun kv => match kv with | .plain _ _ => true | _ => false)
  if ¬ hasMod then
    .ok (match base.lookup "_id" with
      | some idv => setAssoc (updateQueryAsDoc uq) "_id" idv
      | none => updateQueryAsDoc uq)
  else if hasPlain then .error .cantMixModifiers
  else
    .ok (uq.foldl
      (fun acc kv =>
        match kv with
        | .setOp l => l.foldl (fun a p => setAssoc a p.1 p.2) acc
        | .unsetOp l => l.foldl (fun a k => eraseAssoc a k) acc
        | .plain _ _ => acc) base)

/-- Modelled from the spec: the upsert base document, "a copy of the query
stripped of operator keys" (`model.deepCopy(query, true)` in the source). -/
def stripQuery (q : Query) : Doc :=
  q.filterMap (fun kv =>
    match kv with
    | (k, .scalar v) => if k.data.head? = some '$' then none else some (k, v)
    | _ => none)

/-- The outcome `_update` delivers to its callback (the
`returnUpdatedDocs` variants, which only change the third callback argument,
are not modelled — no claim references them). -/
inductive UpdateResult where
  | failed : DbError → UpdateResult
  | upserted : Nat → Doc → UpdateResult
  | replaced : Nat → UpdateResult
deriving DecidableEq, Repr

/-- The modification-building loop of `_update`: apply `modify` to every
matching candidate (at most one unless `multi`), preserving `createdAt` and
stamping `updatedAt` when timestamping is configured; an error leaves
neither the indexes nor the log affected. -/
def buildModsGo (tsData : Bool) (q : Query) (uq : UpdateQuery) (multi : Bool)
    (now : Int) :
    Nat → List UpdatePair → List Doc → Except DbError (Nat × List UpdatePair)
  | numReplaced, mods, [] => .ok (numReplaced, mods)
  | numReplaced, mods, c :: cs =>
      if matchQuery c q ∧ (multi ∨ numReplaced = 0) then
        match modifyDoc c uq with
        | .error e => .error e
        | .ok m =>
            let m' :=
              if tsData then
                setAssoc
                  (match c.lookup "createdAt" with
                    | some v => setAssoc m "createdAt" v
                    | none => eraseAssoc m "createdAt")
                  "updatedAt" (Value.date now)
              else m
            buildModsGo tsData q uq multi now (numReplaced + 1) (mods ++ [⟨c, m'⟩]) cs
      else buildModsGo tsData q uq multi now numReplaced mods cs

/-- The non-upsert body of `Datastore._update` (the `returnUpdatedDocs:
false` reporting path): fetch candidates (with TTL expiry), build the
modifications, update every index transactionally, persist the new
documents. -/
def Datastore.updatePerform (db : Datastore) (q : Query) (uq : UpdateQuery)
    (multi : Bool) (now : Int) : Datastore × UpdateResult :=
  let res := db.getCandidates q false now
  let db1 := res.1
  match buildModsGo db1.timestampData q uq multi now 0 [] res.2 with
  | .error e => (db1, .failed e)
  | .ok (numReplaced, mods) =>
      match db1.updateIndexes mods with
      | (db2, some e) => (db2, .failed e)
      | (db2, none) =>
          ({ db2 with
             committedLog := db2.committedLog ++ mods.map (fun p => .docLine p.newDoc) },
           .replaced numReplaced)

/-- The candidate loop of `Cursor._exec`: keep the matching candidates; when
no sort is requested, apply skip while iterating and stop as soon as the
limit is reached (a skip or limit of 0 is falsy in the source and
ignored). -/
def execLoop (qr : Query) (hasSort : Bool) (lim skp : Option Nat) :
    Nat → Nat → List Doc → List Doc → List Doc
  | _, _, res, [] => res
  | added, skipped, res, c :: cs =>
      if matchQuery c qr then
        if hasSort then execLoop qr hasSort lim skp added skipped (res ++ [c]) cs
        else
          if (match skp with | some s => decide (s ≠ 0 ∧ skipped < s) | none => false) then
            execLoop qr hasSort lim skp added (skipped + 1) res cs
          else
            let res' := res ++ [c]
            if (match lim with | some l => decide (l ≠ 0 ∧ l ≤ added + 1) | none => false) then res'
            else execLoop qr hasSort lim skp (added + 1) skipped res' cs
      else execLoop qr hasSort lim skp added skipped res cs

/-- The multi-key comparator built by `Cursor._exec` from the sort
specification: first-to-last over the criteria, each key's comparison
multiplied by its direction, ties broken by the next key. -/
def sortCmp (criteria : List (String × Int)) (a b : Doc) : Int :=
  match criteria with
  | [] => 0
  | (k, dir) :: rest =>
      if dir * cmpKey (getDotValue a k) (getDotValue b k) ≠ 0 then
        dir * cmpKey (getDotValue a k) (getDotValue b k)
      else sortCmp rest a b

/-- The stable sort `Array.prototype.sort` guarantees (ES2019), embedded as
a stable insertion sort on the non-strict comparator order: documents
comparing equal keep their original relative order. -/
def sortDocs (cmp : Doc → Doc → Int) (l : List Doc) : List Doc :=
  List.insertionSort (fun a b => cmp a b ≤ 0) l

/-- The deferred options of a cursor (`limit`, `skip`, `sort`); projections
are not modelled (no claim references them, and `find` passes `\x7b\x7d`). -/
structure CursorOpts where
  limitN : Option Nat := none
  skipN : Option Nat := none
  sortQ : Option (List (String × Int)) := none
deriving DecidableEq, Repr

/-- `Cursor._exec`: fetch candidates (running TTL expiry), filter by the
query; without a sort, skip and limit are applied while iterating; with a
sort, every match is collected, fully sorted, and only then sliced by skip
and limit (`res.slice(skip, skip + limit)`). -/
def cursorExec (db : Datastore) (q : Query) (opts : CursorOpts) (now : Int) :
    Datastore × List Doc :=
  let res := db.getCandidates q false now
  let db' := res.1
  match opts.sortQ with
  | none => (db', execLoop q false opts.limitN opts.skipN 0 0 [] res.2)
  | some criteria =>
      let matched := execLoop q true opts.limitN opts.skipN 0 0 [] res.2
      let sorted := sortDocs (sortCmp criteria) matched
      let lim :=
        match opts.limitN with
        | some l => if l = 0 then sorted.length else l
        | none => sorted.length
      let skp :=
        match opts.skipN with
        | some s => s
        | none => 0
      (db', (sorted.drop skp).take lim)

/-- `Datastore._update(query, updateQuery, options)`: when `upsert` is set
and an internal limit-1 cursor finds no match, synthesize the document to
insert — the update query itself when it carries no operator, otherwise the
update operators applied to the stripped query — insert it, and report the
insert as an upsert `(1, newDoc, true)`; otherwise perform a regular
update. -/
def Datastore.updateModel (db : Datastore) (q : Query) (uq : UpdateQuery)
    (multi upsert : Bool) (freshId : Value) (now : Int) : Datastore × UpdateResult :=
  if upsert then
    let found := cursorExec db q { limitN := some 1 } now
    let db1 := found.1
    let docs := found.2
    if docs.length = 1 then db1.updatePerform q uq multi now
    else
      let toBeInserted :=
        match checkUpdateQuery uq with
        | none => Except.ok (updateQueryAsDoc uq)
        | some _ => modifyDoc (stripQuery q) uq
      match toBeInserted with
      | .error e => (db1, .failed e)
      | .ok tbi =>
          match db1.insertModel freshId now tbi with
          | (db2, .error e) => (db2, .failed e)
          | (db2, .ok newDoc) => (db2, .upserted 1 newDoc)
  else db.updatePerform q uq multi now

/-- JS truthiness of a possibly-absent value (the `if (doc._id)` test of
`treatRawData`). -/
def truthy : Option Value → Bool
  | none => false
  | some .null => false
  | some (.boolean b) => b
  | some (.num n) => n ≠ 0
  | some (.str s) => s ≠ ""
  | some (.date _) => true
  | some (.arr _) => true

/-- The payload of a `$$indexCreated` marker (`fieldName` of `none` embeds a
null or absent field name, which the source skips). -/
structure IndexMarker where
  fieldName : Option String := none
  unique : Bool := false
  sparse : Bool := false
deriving DecidableEq, Repr

/-- A successfully deserialized log line, as `treatRawData` inspects it: the
`_id` property, whether `$$deleted === true`, an optional `$$indexCreated`
payload, an optional (string-valued) `$$indexRemoved` field, and the
document body. -/
structure RawDoc where
  idVal : Option Value := none
  deletedFlag : Bool := false
  created : Option IndexMarker := none
  removedF : Option String := none
  body : Doc := []
deriving DecidableEq, Repr

/-- One line of the raw datafile after deserialization: `none` embeds a line
on which `model.deserialize` (together with the `beforeDeserialization`
hook) threw — a corrupt line. -/
abbrev RawLine := Option RawDoc

/-- The per-line dispatch of `treatRawData` on the accumulated
`(dataById, indexes)` state: a truthy `_id` makes the line a document
(deleted when `$$deleted === true`, otherwise stored, a later line
overwriting an earlier one in place); otherwise a `$$indexCreated` payload
with a non-null field name defines an index, and failing that a string
`$$indexRemoved` deletes one. -/
def treatLine (acc : List (Value × Doc) × List (String × IndexMarker)) (line : RawLine) :
    List (Value × Doc) × List (String × IndexMarker) :=
  match line with
  | none => acc
  | some rd =>
      if truthy rd.idVal then
        match rd.idVal with
        | some idv =>
            if rd.deletedFlag then (eraseAssoc acc.1 idv, acc.2)
            else (setAssoc acc.1 idv rd.body, acc.2)
        | none => acc
      else
        if (match rd.created with
            | some mk => mk.fieldName.isSome
            | none => false) then
          match rd.created with
          | some mk =>
              match mk.fieldName with
              | some fn => (acc.1, setAssoc acc.2 fn mk)
              | none => acc
          | none => acc
        else
          match rd.removedF with
          | some fn => (acc.1, eraseAssoc acc.2 fn)
          | none => acc

/-- The result of `treatRawData`: the reconstructed document set
(`Object.values(dataById)`) and the folded index definitions. -/
structure TreatedData where
  data : List Doc
  indexDefs : List (String × IndexMarker)
deriving DecidableEq, Repr

/-- The corrupt-line count of `treatRawData`: it starts at -1 (offsetting
the final empty line that splitting a newline-terminated file always
produces) and each line whose deserialization throws adds one. -/
def corruptItems (lines : List RawLine) : Int :=
  -1 + (lines.filter (fun l => l = none)).length

/-- The corruption threshold, an exact rational `num / den` with `den > 0`
(`0.1`, that is `1 / 10`, by default). -/
structure Threshold where
  num : Int
  den : Int
deriving DecidableEq, Repr

/-- The default `corruptAlertThreshold` of `0.1`. -/
def defaultThreshold : Threshold := ⟨1, 10⟩

/-- `corruptItems / totalLines > threshold`, embedded by cross-multiplication
(exact for the rational values involved; the source compares IEEE floats,
whose rounding plays no role at these magnitudes). -/
def overThreshold (θ : Threshold) (corrupt : Int) (total : Nat) : Bool :=
  corrupt * θ.den > θ.num * (total : Int)

/-- `Persistence.treatRawData(rawData)` after the split into lines: fold
every line into the document map and the index-definition map, and fail
with a corruption error when `corruptItems / totalLines` exceeds the
threshold (`0.1` by default). -/
def treatRawData (θ : Threshold) (lines : List RawLine) : Except DbError TreatedData :=
  let folded := lines.foldl treatLine ([], [])
  if lines.length > 0 ∧ overThreshold θ (corruptItems lines) lines.length then
    .error .corruptedData
  else .ok ⟨folded.1.map Prod.snd, folded.2⟩

/-- The state of the `Executor`: the pre-ready buffer, the `async.queue`
contents (tasks not yet started; exactly one task is ever executing), and
the ready flag.  Tasks are identified by numbers. -/
structure ExecutorState where
  buffer : List Nat
  queue : List Nat
  ready : Bool
deriving DecidableEq, Repr

/-- `new Executor()`. -/
def ExecutorState.initial : ExecutorState := ⟨[], [], false⟩

/-- `Executor.push(task, forceQueuing)`: queue the task when ready or when
admission is forced, buffer it otherwise. -/
def ExecutorState.push (s : ExecutorState) (t : Nat) (forceQueuing : Bool) : ExecutorState :=
  if s.ready || forceQueuing then { s with queue := s.queue ++ [t] }
  else { s with buffer := s.buffer ++ [t] }

/-- `Executor.processBuffer()`: mark the executor ready and enqueue every
buffered task in arrival order. -/
def ExecutorState.processBuffer (s : ExecutorState) : ExecutorState :=
  { s with ready := true, queue := s.queue ++ s.buffer, buffer := [] }

/-- An external event on the executor. -/
inductive ExecEvent where
  | pushEv : Nat → Bool → ExecEvent
  | processBufferEv : ExecEvent
deriving DecidableEq, Repr

/-- Apply one event. -/
def applyEvent (s : ExecutorState) : ExecEvent → ExecutorState
  | .pushEv t force => s.push t force
  | .processBufferEv => s.processBuffer

/-- Fold a sequence of events over the executor state. -/
def runEvents (s : ExecutorState) (evs : List ExecEvent) : ExecutorState :=
  evs.foldl applyEvent s

/-- One execution step of the single-concurrency `async.queue`: when ready
and a task is pending, exactly the head task runs (a task completes — its
callback fires — before the next is started). -/
def execStep (s : ExecutorState) : Option (Nat × ExecutorState) :=
  if s.ready then
    match s.queue with
    | [] => none
    | t :: rest => some (t, { s with queue := rest })
  else none

/-- The order in which the queue's tasks execute, one at a time. -/
def execOrderGo : List Nat → Bool → List Nat
  | _, false => []
  | [], true => []
  | t :: rest, true => t :: execOrderGo rest true

/-- The complete execution order from a state: iterate `execStep`. -/
def execOrder (s : ExecutorState) : List Nat :=
  execOrderGo s.queue s.ready

/-- The tasks pushed without forced admission in a list of events, in
order. -/
def bufferedOf (evs : List ExecEvent) : List Nat :=
  evs.filterMap (fun e =>
    match e with
    | .pushEv t false => some t
    | _ => none)

/-- The tasks pushed with forced admission in a list of events, in order. -/
def forcedOf (evs : List ExecEvent) : List Nat :=
  evs.filterMap (fun e =>
    match e with
    | .pushEv t true => some t
    | _ => none)

/-- Every pushed task in a list of events, in order. -/
def pushedOf (evs : List ExecEvent) : List Nat :=
  evs.filterMap (fun e =>
    match e with
    | .pushEv t _ => some t
    | _ => none)

/-- Whether a list of events contains no `processBuffer` call. -/
def noProcessBuffer (evs : List ExecEvent) : Bool :=
  evs.all (fun e =>
    match e with
    | .processBufferEv => false
    | _ => true)

/-- Whether a raw line passes the `$$indexCreated` guard (present payload
with a non-null field name). -/
def isCreatedValid (rd : RawDoc) : Bool :=
  match rd.created with
  | some mk => mk.fieldName.isSome
  | none => false

/-- The effect of one raw line on the document with a given `_id`, if any:
`some none` is a deletion, `some (some d)` stores `d`, `none` leaves it
untouched.  Specification-side view used to state the last-wins fold of
`treatRawData`. -/
def docAction (idv : Value) (l : RawLine) : Option (Option Doc) :=
  match l with
  | none => none
  | some rd =>
      if truthy rd.idVal ∧ rd.idVal = some idv then
        some (if rd.deletedFlag then none else some rd.body)
      else none

/-- The document the log's last relevant line leaves under a given `_id`
(the spec's "a tombstone entry deletes, a later document entry overwrites an
earlier one"). -/
def lastDocFor (lines : List RawLine) (idv : Value) : Option Doc :=
  (lines.reverse.findSome? (docAction idv)).join

/-- The effect of one raw line on the index definition for a given field:
`some (some mk)` defines it, `some none` removes it, `none` leaves it
untouched. -/
def markerAction (fn : String) (l : RawLine) : Option (Option IndexMarker) :=
  match l with
  | none => none
  | some rd =>
      if truthy rd.idVal then none
      else if isCreatedValid rd then
        match rd.created with
        | some mk => if mk.fieldName = some fn then some (some mk) else none
        | none => none
      else
        match rd.removedF with
        | some f => if f = fn then some none else none
        | none => none

/-- The index definition the log's last relevant marker leaves for a field
(the spec's "a later create for the same field overrides an earlier one and
a removal marker deletes the definition"). -/
def lastIndexDefFor (lines : List RawLine) (fn : String) : Option IndexMarker :=
  (lines.reverse.findSome? (markerAction fn)).join

/-- The document map built by the fold of `treatRawData` (its `dataById`). -/
def byIdMap (lines : List RawLine) : List (Value × Doc) :=
  (lines.foldl treatLine ([], [])).1

/-- The index-definition map built by the fold of `treatRawData`. -/
def defsMap (lines : List RawLine) : List (String × IndexMarker) :=
  (lines.foldl treatLine ([], [])).2

/-- The candidate-selection strategy as the specification words it: the
first query key that is an indexed field under the given test. -/
def claimFirstKey (q : Query) (names : List String) (p : QueryVal → Bool) :
    Option (String × QueryVal) :=
  q.find? (fun kv => p kv.2 && names.contains kv.1)

/-- The candidate-selection strategy as the specification words it (the
refinement target for `getCandidatesStep1`): (a) the first query key that is
an indexed field compared by plain scalar equality, else (b) the first
indexed key carrying `$in`, else (c) the first indexed key carrying a
comparison operator, resolved through range bounds, else (d) the full
document set; a single index at most. -/
def specCandidates (db : Datastore) (q : Query) : List Doc :=
  match claimFirstKey q db.indexNames isScalarUsable with
  | some (k, .scalar v) => (db.getIndex k).getMatchingVal v
  | some (_, .qobj _) => []
  | none =>
      match claimFirstKey q db.indexNames (hasOp "$in") with
      | some (k, .qobj l) =>
          match l.lookup "$in" with
          | some v => (db.getIndex k).getMatchingVal v
          | none => []
      | some (_, .scalar _) => []
      | none =>
          match claimFirstKey q db.indexNames isComparisonUsable with
          | some (k, .qobj l) => (db.getIndex k).getBetweenBounds (boundsOfOps l)
          | some (_, .scalar _) => []
          | none => db.getAllData

/-- The keys under which an index stores a document: none when sparse and
the field is missing, one tree key per `projectForUnique`-distinct element
for an array-valued field, and the scalar (possibly `undefined`) key
otherwise. -/
def Index.docKeys (idx : Index) (d : Doc) : List Key :=
  let key := getDotValue d idx.fieldName
  if key = none ∧ idx.sparse then []
  else
    match key with
    | some (.arr l) => (uniqBy projectForUnique l).map some
    | k => [k]

/-- The observable content of an index at a key. -/
def Index.search (idx : Index) (k : Key) : List Doc :=
  treeSearch idx.tree k

/-- A tree's keys are pairwise distinct (every tree the engine builds
satisfies this). -/
def TreeNoDup (t : Tree) : Prop :=
  (t.map Prod.fst).Nodup

/-- A document is absent from every entry of a tree (freshness of a
newly-inserted document). -/
def DocFresh (d : Doc) (t : Tree) : Prop :=
  ∀ e ∈ t, d ∉ e.2

/-- Well-formedness of an index: distinct tree keys, at most one document
per key when unique, no empty entry, and every stored document listed only
under its own keys. -/
def IndexWF (idx : Index) : Prop :=
  TreeNoDup idx.tree ∧
  (idx.unique = true → ∀ e ∈ idx.tree, e.2.length ≤ 1) ∧
  (∀ e ∈ idx.tree, e.2 ≠ []) ∧
  (∀ e ∈ idx.tree, ∀ d ∈ e.2, e.1 ∈ idx.docKeys d)

/-- The sorted pipeline the specification describes for a cursor with a
sort: sort every matched document, then apply skip and limit to the sorted
sequence (a limit of 0 is falsy and means no limit). -/
def specSortedOutput (crit : List (String × Int)) (lim skp : Option Nat)
    (matched : List Doc) : List Doc :=
  let sorted := sortDocs (sortCmp crit) matched
  let l :=
    match lim with
    | some l => if l = 0 then sorted.length else l
    | none => sorted.length
  let s :=
    match skp with
    | some s => s
    | none => 0
  (sorted.drop s).take l

/-- One tree erodes into another: every entry's documents form a sublist of
the documents at the same key of the other, and the key list is a sublist
(deletions only remove). -/
def Erodes (t t' : Tree) : Prop :=
  (∀ e ∈ t, ∃ e' ∈ t', e.1 = e'.1 ∧ e.2.Sublist e'.2) ∧
  (t.map Prod.fst).Sublist (t'.map Prod.fst)

/-- Whether an `_id` value is a usable scalar key: present and not an
array. -/
def keyOkB : Option Value → Bool
  | some (.arr _) => false
  | some _ => true
  | none => false

/-- The invariant of the implicit `_id` index of a live store: it exists, is
non-sparse and keyed on the field `_id`, its tree keys are pairwise
distinct, each key holds at most one document (`_id` is unique), and every
stored document sits under its own scalar `_id` value. -/
def IdIndexWF (db : Datastore) : Prop :=
  ∃ idx, db.indexes.lookup "_id" = some idx ∧ idx.fieldName = "_id" ∧
    idx.sparse = false ∧ TreeNoDup idx.tree ∧
    (∀ e ∈ idx.tree, e.2.length ≤ 1) ∧
    (∀ e ∈ idx.tree, ∀ d ∈ e.2,
      e.1 = getDotValue d "_id" ∧ keyOkB (getDotValue d "_id") = true)

/-! ### Association-list lemmas -/

theorem lookup_setAssoc_self {κ α : Type} [DecidableEq κ] (l : List (κ × α)) (k : κ) (v : α) :
    (setAssoc l k v).lookup k = some v := by
  induction l with
  | nil => simp [setAssoc]
  | cons p rest ih =>
      obtain ⟨k', v'⟩ := p
      by_cases h : k' = k
      · subst h
        simp [setAssoc]
      · simp [setAssoc, h, List.lookup, ih, beq_false_of_ne (Ne.symm h)]

theorem lookup_setAssoc_ne {κ α : Type} [DecidableEq κ] (l : List (κ × α)) (k k' : κ) (v : α)
    (h : k' ≠ k) : (setAssoc l k v).lookup k' = l.lookup k' := by
  induction l with
  | nil => simp [setAssoc, List.lookup, beq_false_of_ne h]
  | cons p rest ih =>
      obtain ⟨k0, v0⟩ := p
      by_cases hk : k0 = k
      · subst hk
        simp [setAssoc, List.lookup, beq_false_of_ne h]
      · simp [setAssoc, hk, List.lookup, ih]

theorem lookup_eraseAssoc_self {κ α : Type} [DecidableEq κ] (l : List (κ × α)) (k : κ) :
    (eraseAssoc l k).lookup k = none := by
  induction l with
  | nil => simp [eraseAssoc]
  | cons p rest ih =>
      obtain ⟨k0, v0⟩ := p
      by_cases hk : k0 = k
      · simpa [eraseAssoc, hk] using ih
      · simpa [eraseAssoc, hk, List.lookup, beq_false_of_ne (Ne.symm hk)] using ih

theorem lookup_eraseAssoc_ne {κ α : Type} [DecidableEq κ] (l : List (κ × α)) (k k' : κ)
    (h : k' ≠ k) : (eraseAssoc l k).lookup k' = l.lookup k' := by
  induction l with
  | nil => simp [eraseAssoc]
  | cons p rest ih =>
      obtain ⟨k0, v0⟩ := p
      by_cases hk : k0 = k
      · subst hk
        simpa [eraseAssoc, List.lookup, beq_false_of_ne h] using ih
      · by_cases hk' : k0 = k'
        · subst hk'
          simp [eraseAssoc, hk, List.lookup]
        · simp [eraseAssoc, hk, List.lookup, beq_false_of_ne (Ne.symm hk'), ih]

theorem eraseAssoc_setAssoc_of_lookup_none {κ α : Type} [DecidableEq κ]
    (l : List (κ × α)) (k : κ) (v : α) (h : l.lookup k = none) :
    eraseAssoc (setAssoc l k v) k = l := by
  induction l with
  | nil => simp [setAssoc, eraseAssoc]
  | cons p rest ih =>
      obtain ⟨k0, v0⟩ := p
      by_cases hk : k0 = k
      · exfalso
        rw [hk] at h
        have hv : List.lookup k ((k, v0) :: rest) = some v0 := by
          simp [List.lookup]
        rw [hv] at h
        exact Option.some_ne_none v0 h
      · have h' : rest.lookup k = none := by
          have hb : (k == k0) = false := beq_false_of_ne (Ne.symm hk)
          simpa [List.lookup, hb] using h
        simp [setAssoc, eraseAssoc, hk, ih h']

/-! ### Executor lemmas -/

theorem runEvents_cons (s : ExecutorState) (e : ExecEvent) (rest : List ExecEvent) :
    runEvents s (e :: rest) = runEvents (applyEvent s e) rest := rfl

theorem noProcessBuffer_cons_push (t : Nat) (force : Bool) (rest : List ExecEvent)
    (h : noProcessBuffer (ExecEvent.pushEv t force :: rest) = true) :
    noProcessBuffer rest = true := by
  simpa [noProcessBuffer] using h

theorem runEvents_notReady (s : ExecutorState) (evs : List ExecEvent)
    (hready : s.ready = false) (hnpb : noProcessBuffer evs = true) :
    runEvents s evs = ⟨s.buffer ++ bufferedOf evs, s.queue ++ forcedOf evs, false⟩ := by
  induction evs generalizing s with
  | nil =>
      cases s
      simp_all [runEvents, bufferedOf, forcedOf]
  | cons e rest ih =>
      cases e with
      | pushEv t force =>
          have hnpb' : noProcessBuffer rest = true :=
            noProcessBuffer_cons_push t force rest hnpb
          cases force
          · rw [runEvents_cons]
            have hstep : applyEvent s (.pushEv t false) =
                { s with buffer := s.buffer ++ [t] } := by
              simp [applyEvent, ExecutorState.push, hready]
            rw [hstep, ih _ (by simpa using hready) hnpb']
            simp [bufferedOf, forcedOf]
          · rw [runEvents_cons]
            have hstep : applyEvent s (.pushEv t true) =
                { s with queue := s.queue ++ [t] } := by
              simp [applyEvent, ExecutorState.push]
            rw [hstep, ih _ (by simpa using hready) hnpb']
            simp [bufferedOf, forcedOf]
      | processBufferEv =>
          simp [noProcessBuffer] at hnpb

theorem runEvents_ready (s : ExecutorState) (evs : List ExecEvent)
    (hready : s.ready = true) (hnpb : noProcessBuffer evs = true) :
    runEvents s evs = ⟨s.buffer, s.queue ++ pushedOf evs, true⟩ := by
  induction evs generalizing s with
  | nil =>
      cases s
      simp_all [runEvents, pushedOf]
  | cons e rest ih =>
      cases e with
      | pushEv t force =>
          have hnpb' : noProcessBuffer rest = true :=
            noProcessBuffer_cons_push t force rest hnpb
          rw [runEvents_cons]
          have hstep : applyEvent s (.pushEv t force) =
              { s with queue := s.queue ++ [t] } := by
            simp [applyEvent, ExecutorState.push, hready]
          rw [hstep, ih _ (by simpa using hready) hnpb']
          simp [pushedOf]
      | processBufferEv =>
          simp [noProcessBuffer] at hnpb

theorem execOrder_of_ready (s : ExecutorState) (h : s.ready = true) :
    execOrder s = s.queue := by
  unfold execOrder
  rw [h]
  induction s.queue with
  | nil => rfl
  | cons t rest ih => simpa [execOrderGo] using ih

/-- C7: while the executor is not ready, a task pushed without forced
admission is buffered and not executed; a forced push is queued even while
not ready; `processBuffer` marks the executor ready and enqueues the
buffered tasks in arrival order; and for any event sequence around a single
`processBuffer`, the resulting execution order is the forced tasks, then the
buffered tasks, then the post-ready tasks — each group in submission order,
executed strictly one at a time from the head of the queue. -/
theorem executor_buffering_and_fifo :
    (∀ (s : ExecutorState) (t : Nat), s.ready = false →
        s.push t false = { s with buffer := s.buffer ++ [t] } ∧
        execOrder (s.push t false) = []) ∧
    (∀ (s : ExecutorState) (t : Nat),
        s.push t true = { s with queue := s.queue ++ [t] }) ∧
    (∀ s : ExecutorState,
        s.processBuffer = ⟨[], s.queue ++ s.buffer, true⟩) ∧
    (∀ before after : List ExecEvent,
        noProcessBuffer before = true → noProcessBuffer after = true →
        runEvents ExecutorState.initial (before ++ ExecEvent.processBufferEv :: after) =
          ⟨[], forcedOf before ++ bufferedOf before ++ pushedOf after, true⟩ ∧
        execOrder
            (runEvents ExecutorState.initial (before ++ ExecEvent.processBufferEv :: after)) =
          forcedOf before ++ bufferedOf before ++ pushedOf after) := by
  refine ⟨?_, ?_, ?_, ?_⟩
  · intro s t h
    constructor
    · simp [ExecutorState.push, h]
    · simp [ExecutorState.push, h, execOrder, execOrderGo]
  · intro s t
    simp [ExecutorState.push]
  · intro s
    cases s
    simp [ExecutorState.processBuffer]
  · intro before after hb ha
    have h1 : runEvents ExecutorState.initial before =
        ⟨bufferedOf before, forcedOf before, false⟩ := by
      simpa [ExecutorState.initial] using
        runEvents_notReady ExecutorState.initial before rfl hb
    have h2 : runEvents ExecutorState.initial (before ++ ExecEvent.processBufferEv :: after) =
        ⟨[], forcedOf before ++ bufferedOf before ++ pushedOf after, true⟩ := by
      have : runEvents ExecutorState.initial (before ++ ExecEvent.processBufferEv :: after) =
          runEvents (applyEvent (runEvents ExecutorState.initial before)
            ExecEvent.processBufferEv) after := by
        simp [runEvents, List.foldl_append]
      rw [this, h1]
      have hpb : applyEvent (⟨bufferedOf before, forcedOf before, false⟩ : ExecutorState)
          ExecEvent.processBufferEv =
          ⟨[], forcedOf before ++ bufferedOf before, true⟩ := by
        simp [applyEvent, ExecutorState.processBuffer]
      rw [hpb, runEvents_ready _ after rfl ha]
    refine ⟨h2, ?_⟩
    rw [h2, execOrder_of_ready _ rfl]

/-- C7 witness: a concrete run — tasks 1 and 2 pushed unforced before
readiness are buffered, task 0 is force-queued (the load), task 3 arrives
after `processBuffer`; execution order is 0, 1, 2, 3. -/
theorem executor_buffering_and_fifo_witness :
    runEvents ExecutorState.initial
        ([ExecEvent.pushEv 1 false, ExecEvent.pushEv 0 true, ExecEvent.pushEv 2 false] ++
          ExecEvent.processBufferEv :: [ExecEvent.pushEv 3 false]) =
      ⟨[], [0, 1, 2, 3], true⟩ ∧
    execOrder
        (runEvents ExecutorState.initial
          ([ExecEvent.pushEv 1 false, ExecEvent.pushEv 0 true, ExecEvent.pushEv 2 false] ++
            ExecEvent.processBufferEv :: [ExecEvent.pushEv 3 false])) =
      [0, 1, 2, 3] := by
  have h := executor_buffering_and_fifo.2.2.2
    [ExecEvent.pushEv 1 false, ExecEvent.pushEv 0 true, ExecEvent.pushEv 2 false]
    [ExecEvent.pushEv 3 false] (by decide) (by decide)
  exact h

/-! ### C10: ensureIndex on an already-indexed field -/

/-- C10: an `ensureIndex` call for a field that already has an index returns
success immediately and changes nothing at all — the stored index (with its
original options), the TTL registrations and the persisted log are exactly
those of the state before the call, whatever options the call passes. -/
theorem ensureIndex_existing_is_noop (db : Datastore) (opts : IndexOptions) (fn : String)
    (hfn : opts.fieldName = some fn) (hne : fn ≠ "")
    (hex : (db.indexes.lookup fn).isSome = true) :
    db.ensureIndex opts = (db, none) := by
  unfold Datastore.ensureIndex
  rw [hfn]
  simp [hne, hex]

/-- C10 witness: re-ensuring the `line` index with different options
(unique, a TTL) on a store that already has it changes nothing. -/
theorem ensureIndex_existing_is_noop_witness :
    Datastore.ensureIndex
        ⟨[("_id", Index.mkIndex "_id" true false), ("line", Index.mkIndex "line" false false)],
          [], [], false⟩
        { fieldName := some "line", unique := true, expireAfterSeconds := some 5 } =
      (⟨[("_id", Index.mkIndex "_id" true false), ("line", Index.mkIndex "line" false false)],
          [], [], false⟩, none) :=
  ensureIndex_existing_is_noop _ _ "line" rfl (by decide) (by decide)

/-! ### C5: the corruption threshold -/

/-- C5 counterexample: a datafile consisting of one corrupt line.  The ratio
of corrupt lines to total lines is 1/1, strictly over the default threshold
of 1/10, so the claim requires loading to fail; the code counts corrupt
lines starting from -1, computes a ratio of 0, and succeeds (with an empty
dataset). -/
theorem corruption_threshold_counterexample :
    treatRawData defaultThreshold [none] = .ok ⟨[], []⟩ ∧
    overThreshold defaultThreshold ((([] : List RawLine) ++ [none]).filter
      (fun l => l = none)).length 1 = true := by
  constructor
  · rfl
  · decide

/-- C5 (amended): the corrupt count is the number of lines failing to
deserialize minus one (offsetting the empty line a newline-terminated file
yields after splitting); loading fails exactly when this count over the
total line count strictly exceeds the threshold, corrupt lines never affect
the fold, and a successful load returns exactly the folded documents and
index definitions. -/
theorem corruption_threshold_amended (θ : Threshold) (lines : List RawLine) :
    (corruptItems lines = (lines.filter (fun l => l = none)).length - 1) ∧
    ((∃ e, treatRawData θ lines = .error e) ↔
      (0 < lines.length ∧ overThreshold θ (corruptItems lines) lines.length = true)) ∧
    (lines.foldl treatLine ([], []) =
      (lines.filter (fun l => l.isSome)).foldl treatLine ([], [])) ∧
    (∀ td, treatRawData θ lines = .ok td →
      td = ⟨(byIdMap lines).map Prod.snd, defsMap lines⟩) := by
  refine ⟨?_, ?_, ?_, ?_⟩
  · simp [corruptItems]
    ring
  · unfold treatRawData
    by_cases h : 0 < lines.length ∧ overThreshold θ (corruptItems lines) lines.length = true
    · simp [h]
    · simp [h]
  · have aux : ∀ (ls : List RawLine) (acc : List (Value × Doc) × List (String × IndexMarker)),
        ls.foldl treatLine acc = (ls.filter (fun l => l.isSome)).foldl treatLine acc := by
      intro ls
      induction ls with
      | nil => intro acc; rfl
      | cons l rest ih =>
          intro acc
          cases l with
          | none =>
              have h1 : List.foldl treatLine acc (none :: rest) =
                  List.foldl treatLine acc rest := by
                simp [treatLine]
              have h2 : (none :: rest).filter (fun l : RawLine => l.isSome) =
                  rest.filter (fun l => l.isSome) := by simp
              rw [h1, h2, ih acc]
          | some rd =>
              have h2 : ((some rd) :: rest).filter (fun l : RawLine => l.isSome) =
                  (some rd) :: rest.filter (fun l => l.isSome) := by simp
              rw [h2]
              simp only [List.foldl_cons]
              exact ih (treatLine acc (some rd))
    exact aux lines ([], [])
  · intro td h
    unfold treatRawData at h
    by_cases hc : 0 < lines.length ∧ overThreshold θ (corruptItems lines) lines.length = true
    · simp [hc] at h
    · simp [hc] at h
      rw [← h]
      rfl

/-- C5 witness: a two-line file (one good document line, one corrupt line)
is below threshold and loads exactly the folded document set. -/
theorem corruption_threshold_amended_witness :
    (⟨[[("_id", Value.str "a")]], []⟩ : TreatedData) =
      ⟨(byIdMap [some ⟨some (.str "a"), false, none, none, [("_id", Value.str "a")]⟩,
            none]).map Prod.snd,
        defsMap [some ⟨some (.str "a"), false, none, none, [("_id", Value.str "a")]⟩,
            none]⟩ :=
  (corruption_threshold_amended defaultThreshold
      [some ⟨some (.str "a"), false, none, none, [("_id", Value.str "a")]⟩, none]).2.2.2
    ⟨[[("_id", Value.str "a")]], []⟩ rfl

/-! ### C2: log replay folds by `_id` and by field name -/

theorem keys_setAssoc_subset {κ α : Type} [DecidableEq κ] (l : List (κ × α)) (k : κ) (v : α) :
    ∀ x ∈ (setAssoc l k v).map Prod.fst, x = k ∨ x ∈ l.map Prod.fst := by
  induction l with
  | nil =>
      intro x hx
      simp [setAssoc] at hx
      exact Or.inl hx
  | cons p rest ih =>
      obtain ⟨k0, v0⟩ := p
      unfold setAssoc
      by_cases hk : k0 = k
      · rw [if_pos hk]
        intro x hx
        rw [List.map_cons, List.mem_cons] at hx
        rcases hx with h1 | h1
        · exact Or.inl h1
        · right
          rw [List.map_cons, List.mem_cons]
          exact Or.inr h1
      · rw [if_neg hk]
        intro x hx
        rw [List.map_cons, List.mem_cons] at hx
        rcases hx with h1 | h1
        · right
          rw [List.map_cons, List.mem_cons]
          exact Or.inl h1
        · rcases ih x h1 with h2 | h2
          · exact Or.inl h2
          · right
            rw [List.map_cons, List.mem_cons]
            exact Or.inr h2

theorem nodupKeys_setAssoc {κ α : Type} [DecidableEq κ] (l : List (κ × α)) (k : κ) (v : α)
    (h : (l.map Prod.fst).Nodup) : ((setAssoc l k v).map Prod.fst).Nodup := by
  induction l with
  | nil => simp [setAssoc]
  | cons p rest ih =>
      obtain ⟨k0, v0⟩ := p
      rw [List.map_cons, List.nodup_cons] at h
      unfold setAssoc
      by_cases hk : k0 = k
      · rw [if_pos hk]
        rw [List.map_cons, List.nodup_cons]
        exact ⟨hk ▸ h.1, h.2⟩
      · rw [if_neg hk]
        rw [List.map_cons, List.nodup_cons]
        refine ⟨?_, ih h.2⟩
        intro hx
        rcases keys_setAssoc_subset rest k v k0 hx with h1 | h1
        · exact hk h1
        · exact h.1 h1

theorem eraseAssoc_sublist {κ α : Type} [DecidableEq κ] (l : List (κ × α)) (k : κ) :
    (eraseAssoc l k).Sublist l := by
  induction l with
  | nil => simp [eraseAssoc]
  | cons p rest ih =>
      obtain ⟨k0, v0⟩ := p
      unfold eraseAssoc
      by_cases hk : k0 = k
      · rw [if_pos hk]
        exact ih.cons _
      · rw [if_neg hk]
        exact ih.cons₂ _

theorem nodupKeys_eraseAssoc {κ α : Type} [DecidableEq κ] (l : List (κ × α)) (k : κ)
    (h : (l.map Prod.fst).Nodup) : ((eraseAssoc l k).map Prod.fst).Nodup :=
  ((eraseAssoc_sublist l k).map Prod.fst).nodup h

theorem lookup_eq_some_of_mem_nodup {κ α : Type} [DecidableEq κ] (l : List (κ × α))
    (k : κ) (v : α) (hnd : (l.map Prod.fst).Nodup) (hm : (k, v) ∈ l) :
    l.lookup k = some v := by
  induction l with
  | nil => simp at hm
  | cons p rest ih =>
      obtain ⟨k0, v0⟩ := p
      rw [List.map_cons, List.nodup_cons] at hnd
      rw [List.mem_cons] at hm
      rcases hm with hm | hm
      · injection hm with h1 h2
        subst h1
        subst h2
        simp [List.lookup]
      · have hk : k0 ≠ k := by
          intro hkk
          apply hnd.1
          rw [hkk]
          exact List.mem_map.mpr ⟨(k, v), hm, rfl⟩
        rw [List.lookup]
        rw [show (k == k0) = false from beq_false_of_ne (Ne.symm hk)]
        exact ih hnd.2 hm

theorem mem_of_lookup_eq_some {κ α : Type} [DecidableEq κ] (l : List (κ × α))
    (k : κ) (v : α) (h : l.lookup k = some v) : (k, v) ∈ l := by
  induction l with
  | nil => simp [List.lookup] at h
  | cons p rest ih =>
      obtain ⟨k0, v0⟩ := p
      by_cases hk : k = k0
      · subst hk
        simp [List.lookup] at h
        simp [h]
      · simp [List.lookup, beq_false_of_ne hk] at h
        exact List.mem_cons_of_mem _ (ih h)

theorem byIdMap_append_single (ls : List RawLine) (l : RawLine) :
    byIdMap (ls ++ [l]) = (treatLine (ls.foldl treatLine ([], [])) l).1 := by
  simp [byIdMap, List.foldl_append]

theorem defsMap_append_single (ls : List RawLine) (l : RawLine) :
    defsMap (ls ++ [l]) = (treatLine (ls.foldl treatLine ([], [])) l).2 := by
  simp [defsMap, List.foldl_append]

theorem lastDocFor_append_single (ls : List RawLine) (l : RawLine) (idv : Value) :
    lastDocFor (ls ++ [l]) idv =
      match docAction idv l with
      | some r => r
      | none => lastDocFor ls idv := by
  unfold lastDocFor
  rw [List.reverse_append]
  simp only [List.reverse_singleton, List.singleton_append, List.findSome?_cons]
  cases h : docAction idv l <;> simp [h]

theorem lastIndexDefFor_append_single (ls : List RawLine) (l : RawLine) (fn : String) :
    lastIndexDefFor (ls ++ [l]) fn =
      match markerAction fn l with
      | some r => r
      | none => lastIndexDefFor ls fn := by
  unfold lastIndexDefFor
  rw [List.reverse_append]
  simp only [List.reverse_singleton, List.singleton_append, List.findSome?_cons]
  cases h : markerAction fn l <;> simp [h]

theorem treatLine_fst_not_truthy (acc : List (Value × Doc) × List (String × IndexMarker))
    (rd : RawDoc) (ht : ¬ truthy rd.idVal = true) :
    (treatLine acc (some rd)).1 = acc.1 := by
  unfold treatLine
  dsimp only
  rw [if_neg ht]
  by_cases hc : (match rd.created with
      | some mk => mk.fieldName.isSome
      | none => false) = true
  · rw [if_pos hc]
    cases hcr : rd.created with
    | none => simp [hcr]
    | some mk =>
        cases hfn : mk.fieldName with
        | none => simp [hcr, hfn]
        | some fn => simp [hcr, hfn]
  · rw [if_neg hc]
    cases hrm : rd.removedF <;> simp [hrm]

theorem treatLine_fst_delete (acc : List (Value × Doc) × List (String × IndexMarker))
    (rd : RawDoc) (idv0 : Value) (hid : rd.idVal = some idv0)
    (htr : truthy (some idv0) = true) (hdel : rd.deletedFlag = true) :
    (treatLine acc (some rd)).1 = eraseAssoc acc.1 idv0 := by
  unfold treatLine
  dsimp only
  rw [hid, if_pos htr]
  simp [hdel]

theorem treatLine_fst_set (acc : List (Value × Doc) × List (String × IndexMarker))
    (rd : RawDoc) (idv0 : Value) (hid : rd.idVal = some idv0)
    (htr : truthy (some idv0) = true) (hdel : rd.deletedFlag = false) :
    (treatLine acc (some rd)).1 = setAssoc acc.1 idv0 rd.body := by
  unfold treatLine
  dsimp only
  rw [hid, if_pos htr]
  simp [hdel]

theorem treatLine_snd_truthy (acc : List (Value × Doc) × List (String × IndexMarker))
    (rd : RawDoc) (ht : truthy rd.idVal = true) :
    (treatLine acc (some rd)).2 = acc.2 := by
  unfold treatLine
  dsimp only
  rw [if_pos ht]
  cases hid : rd.idVal with
  | none => simp
  | some v => by_cases hdel : rd.deletedFlag = true <;> simp [hdel]

theorem treatLine_snd_created (acc : List (Value × Doc) × List (String × IndexMarker))
    (rd : RawDoc) (mk : IndexMarker) (fn0 : String) (ht : ¬ truthy rd.idVal = true)
    (hcr : rd.created = some mk) (hfn : mk.fieldName = some fn0) :
    (treatLine acc (some rd)).2 = setAssoc acc.2 fn0 mk := by
  unfold treatLine
  dsimp only
  rw [if_neg ht, if_pos (by simp [hcr, hfn])]
  simp [hcr, hfn]

theorem treatLine_snd_removed (acc : List (Value × Doc) × List (String × IndexMarker))
    (rd : RawDoc) (fn0 : String) (ht : ¬ truthy rd.idVal = true)
    (hnc : ¬ isCreatedValid rd = true) (hrm : rd.removedF = some fn0) :
    (treatLine acc (some rd)).2 = eraseAssoc acc.2 fn0 := by
  unfold treatLine
  dsimp only
  rw [if_neg ht, if_neg (by simpa [isCreatedValid] using hnc)]
  simp [hrm]

theorem treatLine_snd_skip (acc : List (Value × Doc) × List (String × IndexMarker))
    (rd : RawDoc) (ht : ¬ truthy rd.idVal = true)
    (hnc : ¬ isCreatedValid rd = true) (hrm : rd.removedF = none) :
    (treatLine acc (some rd)).2 = acc.2 := by
  unfold treatLine
  dsimp only
  rw [if_neg ht, if_neg (by simpa [isCreatedValid] using hnc)]
  simp [hrm]

theorem byIdMap_lookup_eq_lastDocFor (lines : List RawLine) (idv : Value) :
    (byIdMap lines).lookup idv = lastDocFor lines idv := by
  induction lines using List.reverseRecOn with
  | nil => rfl
  | append_singleton ls l ih =>
      rw [byIdMap_append_single, lastDocFor_append_single]
      cases l with
      | none => simpa [treatLine, docAction, byIdMap] using ih
      | some rd =>
          by_cases ht : truthy rd.idVal = true
          · cases hid : rd.idVal with
            | none => rw [hid] at ht; simp [truthy] at ht
            | some idv0 =>
                rw [hid] at ht
                by_cases hsame : idv0 = idv
                · subst hsame
                  by_cases hdel : rd.deletedFlag = true
                  · rw [treatLine_fst_delete _ rd idv0 hid ht hdel]
                    simp [docAction, hid, ht, hdel, byIdMap, lookup_eraseAssoc_self]
                  · simp only [Bool.not_eq_true] at hdel
                    rw [treatLine_fst_set _ rd idv0 hid ht hdel]
                    simp [docAction, hid, ht, hdel, byIdMap, lookup_setAssoc_self]
                · have hne : ¬ (truthy rd.idVal = true ∧ rd.idVal = some idv) := by
                    intro hcon
                    rw [hid] at hcon
                    exact hsame (Option.some.inj hcon.2)
                  have hact : docAction idv (some rd) = none := by
                    simp only [docAction]
                    rw [if_neg hne]
                  rw [hact]
                  by_cases hdel : rd.deletedFlag = true
                  · rw [treatLine_fst_delete _ rd idv0 hid ht hdel]
                    rw [show (List.foldl treatLine ([], []) ls).1 = byIdMap ls from rfl]
                    rw [lookup_eraseAssoc_ne _ _ _ (fun hc => hsame hc.symm)]
                    exact ih
                  · simp only [Bool.not_eq_true] at hdel
                    rw [treatLine_fst_set _ rd idv0 hid ht hdel]
                    rw [show (List.foldl treatLine ([], []) ls).1 = byIdMap ls from rfl]
                    rw [lookup_setAssoc_ne _ _ _ _ (fun hc => hsame hc.symm)]
                    exact ih
          · rw [treatLine_fst_not_truthy _ rd ht]
            have hact : docAction idv (some rd) = none := by
              simp only [docAction]
              rw [if_neg (fun hcon => ht hcon.1)]
            rw [hact]
            exact ih

theorem defsMap_lookup_eq_lastIndexDefFor (lines : List RawLine) (fn : String) :
    (defsMap lines).lookup fn = lastIndexDefFor lines fn := by
  induction lines using List.reverseRecOn with
  | nil => rfl
  | append_singleton ls l ih =>
      rw [defsMap_append_single, lastIndexDefFor_append_single]
      cases l with
      | none => simpa [treatLine, markerAction, defsMap] using ih
      | some rd =>
          by_cases ht : truthy rd.idVal = true
          · rw [treatLine_snd_truthy _ rd ht]
            have hact : markerAction fn (some rd) = none := by
              simp only [markerAction]
              rw [if_pos ht]
            rw [hact]
            exact ih
          · by_cases hc : isCreatedValid rd = true
            · cases hcr : rd.created with
              | none =>
                  exfalso
                  simp [isCreatedValid, hcr] at hc
              | some mk =>
                  cases hfn : mk.fieldName with
                  | none =>
                      exfalso
                      simp [isCreatedValid, hcr, hfn] at hc
                  | some fn0 =>
                      rw [treatLine_snd_created _ rd mk fn0 ht hcr hfn]
                      have hcv : isCreatedValid rd = true := hc
                      by_cases hsame : fn0 = fn
                      · subst hsame
                        have hact : markerAction fn0 (some rd) = some (some mk) := by
                          simp only [markerAction]
                          rw [if_neg ht, if_pos hcv]
                          simp [hcr, hfn]
                        rw [hact]
                        rw [show (List.foldl treatLine ([], []) ls).2 = defsMap ls from rfl]
                        exact lookup_setAssoc_self _ _ _
                      · have hact : markerAction fn (some rd) = none := by
                          simp only [markerAction]
                          rw [if_neg ht, if_pos hcv]
                          simp only [hcr, hfn]
                          rw [if_neg (by simpa using hsame)]
                        rw [hact]
                        rw [show (List.foldl treatLine ([], []) ls).2 = defsMap ls from rfl]
                        rw [lookup_setAssoc_ne _ _ _ _ (fun hcc => hsame hcc.symm)]
                        exact ih
            · cases hrm : rd.removedF with
              | none =>
                  rw [treatLine_snd_skip _ rd ht hc hrm]
                  have hact : markerAction fn (some rd) = none := by
                    simp only [markerAction]
                    rw [if_neg ht, if_neg hc, hrm]
                  rw [hact]
                  exact ih
              | some fn0 =>
                  rw [treatLine_snd_removed _ rd fn0 ht hc hrm]
                  by_cases hsame : fn0 = fn
                  · subst hsame
                    have hact : markerAction fn0 (some rd) = some none := by
                      simp only [markerAction]
                      rw [if_neg ht, if_neg hc, hrm]
                      simp
                    rw [hact]
                    rw [show (List.foldl treatLine ([], []) ls).2 = defsMap ls from rfl]
                    exact lookup_eraseAssoc_self _ _
                  · have hact : markerAction fn (some rd) = none := by
                      simp only [markerAction]
                      rw [if_neg ht, if_neg hc, hrm]
                      simp [hsame]
                    rw [hact]
                    rw [show (List.foldl treatLine ([], []) ls).2 = defsMap ls from rfl]
                    rw [lookup_eraseAssoc_ne _ _ _ (fun hcc => hsame hcc.symm)]
                    exact ih

theorem nodupKeys_byIdMap (lines : List RawLine) :
    ((byIdMap lines).map Prod.fst).Nodup := by
  induction lines using List.reverseRecOn with
  | nil => simp [byIdMap]
  | append_singleton ls l ih =>
      rw [byIdMap_append_single]
      cases l with
      | none => simpa [treatLine, byIdMap] using ih
      | some rd =>
          by_cases ht : truthy rd.idVal = true
          · cases hid : rd.idVal with
            | none => rw [hid] at ht; simp [truthy] at ht
            | some idv0 =>
                rw [hid] at ht
                by_cases hdel : rd.deletedFlag = true
                · rw [treatLine_fst_delete _ rd idv0 hid ht hdel]
                  exact nodupKeys_eraseAssoc _ _ ih
                · simp only [Bool.not_eq_true] at hdel
                  rw [treatLine_fst_set _ rd idv0 hid ht hdel]
                  exact nodupKeys_setAssoc _ _ _ ih
          · rw [treatLine_fst_not_truthy _ rd ht]
            exact ih


/-- C2: replaying a log folds in file order keyed by `_id` — for every id,
the folded map holds exactly what the last relevant line leaves (a tombstone
deletes, a later document overwrites an earlier one), index markers fold
separately by field name (a later create overrides, a removal deletes), and
a successful load returns exactly the documents of the folded map: a
document is in the loaded dataset iff it is the last surviving entry for
some id. -/
theorem treatRawData_replay (θ : Threshold) (lines : List RawLine) (td : TreatedData)
    (h : treatRawData θ lines = .ok td) :
    (∀ idv : Value, (byIdMap lines).lookup idv = lastDocFor lines idv) ∧
    (∀ fn : String, (defsMap lines).lookup fn = lastIndexDefFor lines fn) ∧
    td.data = (byIdMap lines).map Prod.snd ∧
    td.indexDefs = defsMap lines ∧
    (∀ d : Doc, d ∈ td.data ↔ ∃ idv : Value, lastDocFor lines idv = some d) := by
  have hok : td = ⟨(byIdMap lines).map Prod.snd, defsMap lines⟩ :=
    (corruption_threshold_amended θ lines).2.2.2 td h
  subst hok
  refine ⟨byIdMap_lookup_eq_lastDocFor lines, defsMap_lookup_eq_lastIndexDefFor lines,
    rfl, rfl, ?_⟩
  intro d
  constructor
  · intro hd
    simp only [List.mem_map] at hd
    obtain ⟨⟨idv, d'⟩, hmem, hd'⟩ := hd
    cases hd'
    refine ⟨idv, ?_⟩
    rw [← byIdMap_lookup_eq_lastDocFor]
    exact lookup_eq_some_of_mem_nodup _ _ _ (nodupKeys_byIdMap lines) hmem
  · rintro ⟨idv, hidv⟩
    rw [← byIdMap_lookup_eq_lastDocFor] at hidv
    have := mem_of_lookup_eq_some _ _ _ hidv
    simp only [List.mem_map]
    exact ⟨(idv, d), this, rfl⟩

/-- C2 witness: a five-line log — document `a`, document `b`, a tombstone
for `b`, an overwrite of `a`, and an index marker for `f` later removed —
loads exactly the final version of `a` and no index definition. -/
theorem treatRawData_replay_witness :
    ([[("_id", Value.str "a"), ("v", Value.num 2)]] : List Doc) =
      (byIdMap
        [some ⟨some (.str "a"), false, none, none, [("_id", Value.str "a"), ("v", Value.num 1)]⟩,
          some ⟨some (.str "b"), false, none, none, [("_id", Value.str "b")]⟩,
          some ⟨some (.str "b"), true, none, none, [("_id", Value.str "b")]⟩,
          some ⟨some (.str "a"), false, none, none,
            [("_id", Value.str "a"), ("v", Value.num 2)]⟩,
          some ⟨none, false, some ⟨some "f", true, false⟩, none, []⟩,
          some ⟨none, false, none, some "f", []⟩]).map Prod.snd :=
  (treatRawData_replay defaultThreshold
      [some ⟨some (.str "a"), false, none, none, [("_id", Value.str "a"), ("v", Value.num 1)]⟩,
        some ⟨some (.str "b"), false, none, none, [("_id", Value.str "b")]⟩,
        some ⟨some (.str "b"), true, none, none, [("_id", Value.str "b")]⟩,
        some ⟨some (.str "a"), false, none, none,
          [("_id", Value.str "a"), ("v", Value.num 2)]⟩,
        some ⟨none, false, some ⟨some "f", true, false⟩, none, []⟩,
        some ⟨none, false, none, some "f", []⟩]
      ⟨[[("_id", Value.str "a"), ("v", Value.num 2)]], []⟩ rfl).2.2.1


/-! ### Lawfulness of the value comparator -/

theorem cmpInt_eq_zero_iff (a b : Int) : cmpInt a b = 0 ↔ a = b := by
  unfold cmpInt
  split
  · omega
  · split <;> omega

theorem cmpInt_lt_zero_iff (a b : Int) : cmpInt a b < 0 ↔ a < b := by
  unfold cmpInt
  split
  · omega
  · split <;> omega

theorem cmpInt_swap (a b : Int) : cmpInt a b = -(cmpInt b a) := by
  unfold cmpInt
  split
  · split
    · omega
    · split <;> omega
  · split
    · omega
    · split <;> omega

theorem cmpStr_eq_zero_iff (a b : String) : cmpStr a b = 0 ↔ a = b := by
  unfold cmpStr
  rcases lt_trichotomy a b with h | h | h
  · rw [if_pos h]
    exact iff_of_false (by decide) (ne_of_lt h)
  · rw [if_neg (by rw [h]; exact lt_irrefl b), if_pos h]
    exact iff_of_true rfl h
  · rw [if_neg (lt_asymm h), if_neg (ne_of_gt h)]
    exact iff_of_false (by decide) (ne_of_gt h)

theorem cmpStr_lt_zero_iff (a b : String) : cmpStr a b < 0 ↔ a < b := by
  unfold cmpStr
  rcases lt_trichotomy a b with h | h | h
  · rw [if_pos h]
    exact iff_of_true (by decide) h
  · rw [if_neg (by rw [h]; exact lt_irrefl b), if_pos h]
    exact iff_of_false (by decide) (by rw [h]; exact lt_irrefl b)
  · rw [if_neg (lt_asymm h), if_neg (ne_of_gt h)]
    exact iff_of_false (by decide) (lt_asymm h)

theorem cmpStr_swap (a b : String) : cmpStr a b = -(cmpStr b a) := by
  unfold cmpStr
  rcases lt_trichotomy a b with h | h | h
  · rw [if_pos h, if_neg (lt_asymm h), if_neg (ne_of_gt (by exact h))]
  · rw [if_neg (by rw [h]; exact lt_irrefl b), if_pos h,
      if_neg (by rw [h]; exact lt_irrefl b), if_pos h.symm]
    decide
  · rw [if_neg (lt_asymm h), if_neg (ne_of_gt h), if_pos h]
    decide

theorem cmpBool_eq_zero_iff (a b : Bool) : cmpBool a b = 0 ↔ a = b := by
  cases a <;> cases b <;> decide

theorem cmpBool_swap (a b : Bool) : cmpBool a b = -(cmpBool b a) := by
  cases a <;> cases b <;> decide

mutual

theorem cmpV_eq_zero_iff : ∀ a b : Value, cmpV a b = 0 ↔ a = b
  | .null, .null => by simp [cmpV]
  | .boolean x, .boolean y => by
      rw [show cmpV (.boolean x) (.boolean y) = cmpBool x y from rfl, cmpBool_eq_zero_iff]
      simp
  | .num x, .num y => by
      rw [show cmpV (.num x) (.num y) = cmpInt x y from rfl, cmpInt_eq_zero_iff]
      simp
  | .str x, .str y => by
      rw [show cmpV (.str x) (.str y) = cmpStr x y from rfl, cmpStr_eq_zero_iff]
      simp
  | .date x, .date y => by
      rw [show cmpV (.date x) (.date y) = cmpInt x y from rfl, cmpInt_eq_zero_iff]
      simp
  | .arr x, .arr y => by
      rw [show cmpV (.arr x) (.arr y) = cmpVList x y from rfl, cmpVList_eq_zero_iff x y]
      simp
  | .null, .boolean _ | .null, .num _ | .null, .str _ | .null, .date _ | .null, .arr _
  | .boolean _, .null | .boolean _, .num _ | .boolean _, .str _ | .boolean _, .date _
  | .boolean _, .arr _
  | .num _, .null | .num _, .boolean _ | .num _, .str _ | .num _, .date _ | .num _, .arr _
  | .str _, .null | .str _, .boolean _ | .str _, .num _ | .str _, .date _ | .str _, .arr _
  | .date _, .null | .date _, .boolean _ | .date _, .num _ | .date _, .str _
  | .date _, .arr _
  | .arr _, .null | .arr _, .boolean _ | .arr _, .num _ | .arr _, .str _
  | .arr _, .date _ => by
      refine iff_of_false ?_ (fun hc => ?_)
      · norm_num [cmpV, rank, cmpInt]
      · cases hc

theorem cmpVList_eq_zero_iff : ∀ x y : List Value, cmpVList x y = 0 ↔ x = y
  | [], [] => by simp [cmpVList]
  | [], _ :: _ => iff_of_false (by norm_num [cmpVList]) (by simp)
  | _ :: _, [] => iff_of_false (by norm_num [cmpVList]) (by simp)
  | x :: xs, y :: ys => by
      by_cases h : cmpV x y = 0
      · have hxy : x = y := (cmpV_eq_zero_iff x y).mp h
        subst hxy
        rw [show cmpVList (x :: xs) (x :: ys) = cmpVList xs ys from by
          simp [cmpVList, h]]
        rw [cmpVList_eq_zero_iff xs ys]
        simp
      · have hxy : x ≠ y := fun hh => h ((cmpV_eq_zero_iff x y).mpr hh)
        rw [show cmpVList (x :: xs) (y :: ys) = cmpV x y from by simp [cmpVList, h]]
        exact iff_of_false h (by simp [hxy])

end

mutual

theorem cmpV_swap : ∀ a b : Value, cmpV a b = -(cmpV b a)
  | .null, .null => by decide
  | .boolean x, .boolean y => cmpBool_swap x y
  | .num x, .num y => cmpInt_swap x y
  | .str x, .str y => cmpStr_swap x y
  | .date x, .date y => cmpInt_swap x y
  | .arr x, .arr y => cmpVList_swap x y
  | .null, .boolean _ | .null, .num _ | .null, .str _ | .null, .date _ | .null, .arr _
  | .boolean _, .null | .boolean _, .num _ | .boolean _, .str _ | .boolean _, .date _
  | .boolean _, .arr _
  | .num _, .null | .num _, .boolean _ | .num _, .str _ | .num _, .date _ | .num _, .arr _
  | .str _, .null | .str _, .boolean _ | .str _, .num _ | .str _, .date _ | .str _, .arr _
  | .date _, .null | .date _, .boolean _ | .date _, .num _ | .date _, .str _
  | .date _, .arr _
  | .arr _, .null | .arr _, .boolean _ | .arr _, .num _ | .arr _, .str _
  | .arr _, .date _ => cmpInt_swap _ _
termination_by a b => sizeOf a + sizeOf b

theorem cmpVList_swap : ∀ x y : List Value, cmpVList x y = -(cmpVList y x)
  | [], [] => by decide
  | [], _ :: _ => by norm_num [cmpVList]
  | _ :: _, [] => by norm_num [cmpVList]
  | x :: xs, y :: ys => by
      by_cases h : cmpV x y = 0
      · have h' : cmpV y x = 0 := by
          rw [cmpV_swap y x, h]
          rfl
        rw [show cmpVList (x :: xs) (y :: ys) = cmpVList xs ys from by simp [cmpVList, h]]
        rw [show cmpVList (y :: ys) (x :: xs) = cmpVList ys xs from by simp [cmpVList, h']]
        exact cmpVList_swap xs ys
      · have h' : cmpV y x ≠ 0 := by
          rw [cmpV_swap y x]
          simpa using h
        rw [show cmpVList (x :: xs) (y :: ys) = cmpV x y from by simp [cmpVList, h]]
        rw [show cmpVList (y :: ys) (x :: xs) = cmpV y x from by simp [cmpVList, h']]
        exact cmpV_swap x y
termination_by x y => sizeOf x + sizeOf y

end

theorem cmpV_of_rank_ne : ∀ a b : Value, rank a ≠ rank b → cmpV a b = cmpInt (rank a) (rank b) := by
  intro a b h
  cases a <;> cases b <;> first | rfl | (exact absurd rfl h)

theorem eq_null_of_rank_eq (a : Value) (h : rank a = 1) : a = .null := by
  cases a <;> first | rfl | (exfalso; norm_num [rank] at h)

theorem exists_boolean_of_rank_eq (a : Value) (h : rank a = 2) : ∃ x, a = .boolean x := by
  cases a <;> first | exact ⟨_, rfl⟩ | (exfalso; norm_num [rank] at h)

theorem exists_num_of_rank_eq (a : Value) (h : rank a = 3) : ∃ x, a = .num x := by
  cases a <;> first | exact ⟨_, rfl⟩ | (exfalso; norm_num [rank] at h)

theorem exists_str_of_rank_eq (a : Value) (h : rank a = 4) : ∃ x, a = .str x := by
  cases a <;> first | exact ⟨_, rfl⟩ | (exfalso; norm_num [rank] at h)

theorem exists_date_of_rank_eq (a : Value) (h : rank a = 5) : ∃ x, a = .date x := by
  cases a <;> first | exact ⟨_, rfl⟩ | (exfalso; norm_num [rank] at h)

theorem exists_arr_of_rank_eq (a : Value) (h : rank a = 6) : ∃ x, a = .arr x := by
  cases a <;> first | exact ⟨_, rfl⟩ | (exfalso; norm_num [rank] at h)

theorem rank_lt_of_cmpV_neg (a b : Value) (hr : rank a ≠ rank b) (h : cmpV a b < 0) :
    rank a < rank b := by
  rw [cmpV_of_rank_ne a b hr] at h
  exact (cmpInt_lt_zero_iff _ _).mp h

theorem cmpV_neg_of_rank_lt (a b : Value) (h : rank a < rank b) : cmpV a b < 0 := by
  rw [cmpV_of_rank_ne a b (ne_of_lt h)]
  exact (cmpInt_lt_zero_iff _ _).mpr h

mutual

theorem cmpV_lt_trans : ∀ a b c : Value, cmpV a b < 0 → cmpV b c < 0 → cmpV a c < 0
  | a, b, c, h1, h2 => by
      by_cases hab : rank a = rank b
      · by_cases hbc : rank b = rank c
        · cases a with
          | null =>
              have hb := eq_null_of_rank_eq b (by rw [← hab]; rfl)
              subst hb
              norm_num [cmpV] at h1
          | boolean x =>
              obtain ⟨y, hy⟩ := exists_boolean_of_rank_eq b (by rw [← hab]; rfl)
              subst hy
              obtain ⟨z, hz⟩ := exists_boolean_of_rank_eq c (by rw [← hbc]; rfl)
              subst hz
              revert h1 h2
              show cmpBool x y < 0 → cmpBool y z < 0 → cmpBool x z < 0
              cases x <;> cases y <;> cases z <;> decide
          | num x =>
              obtain ⟨y, hy⟩ := exists_num_of_rank_eq b (by rw [← hab]; rfl)
              subst hy
              obtain ⟨z, hz⟩ := exists_num_of_rank_eq c (by rw [← hbc]; rfl)
              subst hz
              have g1 := (cmpInt_lt_zero_iff x y).mp h1
              have g2 := (cmpInt_lt_zero_iff y z).mp h2
              exact (cmpInt_lt_zero_iff x z).mpr (lt_trans g1 g2)
          | str x =>
              obtain ⟨y, hy⟩ := exists_str_of_rank_eq b (by rw [← hab]; rfl)
              subst hy
              obtain ⟨z, hz⟩ := exists_str_of_rank_eq c (by rw [← hbc]; rfl)
              subst hz
              have g1 := (cmpStr_lt_zero_iff x y).mp h1
              have g2 := (cmpStr_lt_zero_iff y z).mp h2
              exact (cmpStr_lt_zero_iff x z).mpr (lt_trans g1 g2)
          | date x =>
              obtain ⟨y, hy⟩ := exists_date_of_rank_eq b (by rw [← hab]; rfl)
              subst hy
              obtain ⟨z, hz⟩ := exists_date_of_rank_eq c (by rw [← hbc]; rfl)
              subst hz
              have g1 := (cmpInt_lt_zero_iff x y).mp h1
              have g2 := (cmpInt_lt_zero_iff y z).mp h2
              exact (cmpInt_lt_zero_iff x z).mpr (lt_trans g1 g2)
          | arr x =>
              obtain ⟨y, hy⟩ := exists_arr_of_rank_eq b (by rw [← hab]; rfl)
              subst hy
              obtain ⟨z, hz⟩ := exists_arr_of_rank_eq c (by rw [← hbc]; rfl)
              subst hz
              exact cmpVList_lt_trans x y z h1 h2
        · have hrbc : rank b < rank c := rank_lt_of_cmpV_neg b c hbc h2
          exact cmpV_neg_of_rank_lt a c (by rw [hab]; exact hrbc)
      · have hrab : rank a < rank b := rank_lt_of_cmpV_neg a b hab h1
        by_cases hbc : rank b = rank c
        · exact cmpV_neg_of_rank_lt a c (by rw [← hbc]; exact hrab)
        · have hrbc : rank b < rank c := rank_lt_of_cmpV_neg b c hbc h2
          exact cmpV_neg_of_rank_lt a c (lt_trans hrab hrbc)
termination_by a b c => sizeOf a + sizeOf b + sizeOf c

theorem cmpVList_lt_trans :
    ∀ x y z : List Value, cmpVList x y < 0 → cmpVList y z < 0 → cmpVList x z < 0
  | [], [], _, h1, _ => by norm_num [cmpVList] at h1
  | [], _ :: _, [], _, h2 => by norm_num [cmpVList] at h2
  | [], _ :: _, _ :: _, _, _ => by norm_num [cmpVList]
  | _ :: _, [], _, h1, _ => by norm_num [cmpVList] at h1
  | _ :: _, _ :: _, [], _, h2 => by norm_num [cmpVList] at h2
  | x :: xs, y :: ys, z :: zs, h1, h2 => by
      by_cases hxy : cmpV x y = 0
      · have hx : x = y := (cmpV_eq_zero_iff x y).mp hxy
        subst hx
        rw [show cmpVList (x :: xs) (x :: ys) = cmpVList xs ys from by
          simp [cmpVList, hxy]] at h1
        by_cases hxz : cmpV x z = 0
        · have hz2 : x = z := (cmpV_eq_zero_iff x z).mp hxz
          subst hz2
          rw [show cmpVList (x :: ys) (x :: zs) = cmpVList ys zs from by
            simp [cmpVList, hxz]] at h2
          rw [show cmpVList (x :: xs) (x :: zs) = cmpVList xs zs from by
            simp [cmpVList, hxz]]
          exact cmpVList_lt_trans xs ys zs h1 h2
        · rw [show cmpVList (x :: ys) (z :: zs) = cmpV x z from by
            simp [cmpVList, hxz]] at h2
          rw [show cmpVList (x :: xs) (z :: zs) = cmpV x z from by
            simp [cmpVList, hxz]]
          exact h2
      · rw [show cmpVList (x :: xs) (y :: ys) = cmpV x y from by
          simp [cmpVList, hxy]] at h1
        by_cases hyz : cmpV y z = 0
        · have hz2 : y = z := (cmpV_eq_zero_iff y z).mp hyz
          subst hz2
          rw [show cmpVList (x :: xs) (y :: zs) = cmpV x y from by
            simp [cmpVList, hxy]]
          exact h1
        · rw [show cmpVList (y :: ys) (z :: zs) = cmpV y z from by
            simp [cmpVList, hyz]] at h2
          have hxz2 : cmpV x z < 0 := cmpV_lt_trans x y z h1 h2
          rw [show cmpVList (x :: xs) (z :: zs) = cmpV x z from by
            simp [cmpVList, ne_of_lt hxz2]]
          exact hxz2
termination_by x y z => sizeOf x + sizeOf y + sizeOf z

end

/-! ### C3: candidate-set selection strategy -/

theorem firstUsable_eq_claimFirstKey (q : Query) (names : List String) (p : QueryVal → Bool) :
    firstUsable q names p = (claimFirstKey q names p).map Prod.fst := by
  induction q with
  | nil => rfl
  | cons kv rest ih =>
      obtain ⟨k0, v0⟩ := kv
      by_cases hp : p v0 = true
      · by_cases hn : k0 ∈ names
        · simp [firstUsable, claimFirstKey, List.filter_cons, List.find?_cons, hp, hn]
        · simp [firstUsable, claimFirstKey, List.filter_cons, List.find?_cons, hp, hn, ih]
      · simp [firstUsable, claimFirstKey, List.filter_cons, List.find?_cons, hp, ih]

theorem claimFirstKey_lookup (q : Query) (names : List String) (p : QueryVal → Bool)
    (k : String) (v : QueryVal) (hnd : (q.map Prod.fst).Nodup)
    (h : claimFirstKey q names p = some (k, v)) :
    q.lookup k = some v ∧ p v = true ∧ names.contains k = true := by
  have hmem : (k, v) ∈ q := List.mem_of_find?_eq_some h
  have hpred := List.find?_some h
  simp only [Bool.and_eq_true] at hpred
  exact ⟨lookup_eq_some_of_mem_nodup q k v hnd hmem, hpred.1, hpred.2⟩

/-- C3: the candidate set is chosen by trying, in this exact order, (a) the
first query key that is an indexed field compared by plain scalar equality,
(b) the first indexed key carrying `$in`, (c) the first indexed key carrying
a comparison operator resolved via range bounds, and (d) the full document
set — at most one indexed key, never an intersection: `getCandidates`
STEP 1 equals this specification function. -/
theorem getCandidates_selection_strategy (db : Datastore) (q : Query)
    (hnd : (q.map Prod.fst).Nodup) :
    db.getCandidatesStep1 q = specCandidates db q := by
  simp only [Datastore.getCandidatesStep1, specCandidates]
  rw [firstUsable_eq_claimFirstKey, firstUsable_eq_claimFirstKey,
    firstUsable_eq_claimFirstKey]
  cases h1 : claimFirstKey q db.indexNames isScalarUsable with
  | some kv =>
      obtain ⟨k, v⟩ := kv
      obtain ⟨hlk, hp, _⟩ := claimFirstKey_lookup q _ _ k v hnd h1
      cases v with
      | scalar v' => simp [hlk]
      | qobj l => simp [isScalarUsable] at hp
  | none =>
      simp only [Option.map_none]
      cases h2 : claimFirstKey q db.indexNames (hasOp "$in") with
      | some kv =>
          obtain ⟨k, v⟩ := kv
          obtain ⟨hlk, hp, _⟩ := claimFirstKey_lookup q _ _ k v hnd h2
          cases v with
          | scalar v' => simp [hasOp] at hp
          | qobj l => simp [hlk]
      | none =>
          simp only [Option.map_none]
          cases h3 : claimFirstKey q db.indexNames isComparisonUsable with
          | some kv =>
              obtain ⟨k, v⟩ := kv
              obtain ⟨hlk, hp, _⟩ := claimFirstKey_lookup q _ _ k v hnd h3
              cases v with
              | scalar v' => simp [isComparisonUsable, hasOp] at hp
              | qobj l => simp [hlk]
          | none => simp

/-- C3 witness: a query carrying an unindexed scalar key, an indexed `$in`
key and an indexed comparison key selects through the `$in` index. -/
theorem getCandidates_selection_strategy_witness :
    Datastore.getCandidatesStep1
        ⟨[("_id", Index.mkIndex "_id" true false), ("a", Index.mkIndex "a" false false),
            ("b", Index.mkIndex "b" false false)], [], [], false⟩
        [("z", QueryVal.scalar (Value.num 1)),
          ("a", QueryVal.qobj [("$in", Value.arr [Value.num 1])]),
          ("b", QueryVal.qobj [("$lt", Value.num 5)])] =
      specCandidates
        ⟨[("_id", Index.mkIndex "_id" true false), ("a", Index.mkIndex "a" false false),
            ("b", Index.mkIndex "b" false false)], [], [], false⟩
        [("z", QueryVal.scalar (Value.num 1)),
          ("a", QueryVal.qobj [("$in", Value.arr [Value.num 1])]),
          ("b", QueryVal.qobj [("$lt", Value.num 5)])] :=
  getCandidates_selection_strategy _ _ (by decide)

/-! ### C8: cursor sort, skip and limit -/

theorem cmpKey_eq_zero_iff : ∀ k1 k2 : Key, cmpKey k1 k2 = 0 ↔ k1 = k2
  | none, none => by simp [cmpKey]
  | none, some b => iff_of_false (by norm_num [cmpKey]) (by simp)
  | some a, none => iff_of_false (by norm_num [cmpKey]) (by simp)
  | some a, some b => by
      rw [show cmpKey (some a) (some b) = cmpV a b from rfl, cmpV_eq_zero_iff]
      simp

theorem cmpKey_swap : ∀ k1 k2 : Key, cmpKey k1 k2 = -(cmpKey k2 k1)
  | none, none => by decide
  | none, some b => by norm_num [cmpKey]
  | some a, none => by norm_num [cmpKey]
  | some a, some b => cmpV_swap a b

theorem cmpKey_lt_trans :
    ∀ k1 k2 k3 : Key, cmpKey k1 k2 < 0 → cmpKey k2 k3 < 0 → cmpKey k1 k3 < 0
  | none, none, _, h1, _ => by norm_num [cmpKey] at h1
  | none, some _, none, _, h2 => by norm_num [cmpKey] at h2
  | none, some _, some _, _, _ => by norm_num [cmpKey]
  | some _, none, _, h1, _ => by norm_num [cmpKey] at h1
  | some _, some _, none, _, h2 => by norm_num [cmpKey] at h2
  | some a, some b, some c, h1, h2 => cmpV_lt_trans a b c h1 h2

theorem sortCmp_swap : ∀ (crit : List (String × Int)) (a b : Doc),
    sortCmp crit a b = -(sortCmp crit b a)
  | [], a, b => by simp [sortCmp]
  | (k, dir) :: rest, a, b => by
      simp only [sortCmp]
      rw [cmpKey_swap (getDotValue b k) (getDotValue a k), mul_neg]
      by_cases h : dir * cmpKey (getDotValue a k) (getDotValue b k) = 0
      · rw [if_neg (not_ne_iff.mpr h), if_neg (not_ne_iff.mpr (by rw [h, neg_zero]))]
        exact sortCmp_swap rest a b
      · rw [if_pos h, if_pos (neg_ne_zero.mpr h)]
        exact (neg_neg _).symm

theorem sortCmp_le_trans : ∀ (crit : List (String × Int)) (a b c : Doc),
    sortCmp crit a b ≤ 0 → sortCmp crit b c ≤ 0 → sortCmp crit a c ≤ 0
  | [], a, b, c, _, _ => by simp [sortCmp]
  | (k, dir) :: rest, a, b, c, h1, h2 => by
      simp only [sortCmp] at h1 h2 ⊢
      generalize hka : getDotValue a k = ka at h1 h2 ⊢
      generalize hkb : getDotValue b k = kb at h1 h2 ⊢
      generalize hkc : getDotValue c k = kc at h1 h2 ⊢
      by_cases hab : dir * cmpKey ka kb = 0
      · by_cases hbc : dir * cmpKey kb kc = 0
        · rw [if_neg (not_ne_iff.mpr hab)] at h1
          rw [if_neg (not_ne_iff.mpr hbc)] at h2
          by_cases hdir : dir = 0
          · rw [if_neg (not_ne_iff.mpr (by rw [hdir, zero_mul]))]
            exact sortCmp_le_trans rest a b c h1 h2
          · have hk1 : cmpKey ka kb = 0 := by
              rcases mul_eq_zero.mp hab with h | h
              · exact absurd h hdir
              · exact h
            have hk2 : cmpKey kb kc = 0 := by
              rcases mul_eq_zero.mp hbc with h | h
              · exact absurd h hdir
              · exact h
            have he1 : ka = kb := (cmpKey_eq_zero_iff ka kb).mp hk1
            have he2 : kb = kc := (cmpKey_eq_zero_iff kb kc).mp hk2
            have hac : cmpKey ka kc = 0 := by
              rw [he1, he2]
              exact (cmpKey_eq_zero_iff kc kc).mpr rfl
            rw [if_neg (not_ne_iff.mpr (by rw [hac, mul_zero]))]
            exact sortCmp_le_trans rest a b c h1 h2
        · have hdir : dir ≠ 0 := fun h => hbc (by simp [h])
          have hk1 : cmpKey ka kb = 0 := by
            rcases mul_eq_zero.mp hab with h | h
            · exact absurd h hdir
            · exact h
          have he1 : ka = kb := (cmpKey_eq_zero_iff ka kb).mp hk1
          rw [if_pos hbc] at h2
          have hne : dir * cmpKey ka kc ≠ 0 := by
            rw [he1]
            exact hbc
          rw [if_pos hne, he1]
          exact h2
      · have hdir : dir ≠ 0 := fun h => hab (by simp [h])
        rw [if_pos hab] at h1
        by_cases hbc : dir * cmpKey kb kc = 0
        · have hk2 : cmpKey kb kc = 0 := by
            rcases mul_eq_zero.mp hbc with h | h
            · exact absurd h hdir
            · exact h
          have he2 : kb = kc := (cmpKey_eq_zero_iff kb kc).mp hk2
          have hne : dir * cmpKey ka kc ≠ 0 := by
            rw [← he2]
            exact hab
          rw [if_pos hne, ← he2]
          exact h1
        · rw [if_pos hbc] at h2
          have h1' : dir * cmpKey ka kb < 0 := lt_of_le_of_ne h1 hab
          have h2' : dir * cmpKey kb kc < 0 := lt_of_le_of_ne h2 hbc
          rcases lt_trichotomy dir 0 with hd | hd | hd
          · have k1 : 0 < cmpKey ka kb := by nlinarith
            have k2 : 0 < cmpKey kb kc := by nlinarith
            have s1 : cmpKey kb ka < 0 := by
              rw [cmpKey_swap kb ka]
              omega
            have s2 : cmpKey kc kb < 0 := by
              rw [cmpKey_swap kc kb]
              omega
            have s3 : cmpKey kc ka < 0 := cmpKey_lt_trans kc kb ka s2 s1
            have k3 : 0 < cmpKey ka kc := by
              rw [cmpKey_swap ka kc]
              omega
            have hac : dir * cmpKey ka kc < 0 := by nlinarith
            rw [if_pos (ne_of_lt hac)]
            exact le_of_lt hac
          · exact absurd hd hdir
          · have k1 : cmpKey ka kb < 0 := by nlinarith
            have k2 : cmpKey kb kc < 0 := by nlinarith
            have k3 : cmpKey ka kc < 0 := cmpKey_lt_trans ka kb kc k1 k2
            have hac : dir * cmpKey ka kc < 0 := by nlinarith
            rw [if_pos (ne_of_lt hac)]
            exact le_of_lt hac

theorem sortCmp_total (crit : List (String × Int)) (a b : Doc) :
    sortCmp crit a b ≤ 0 ∨ sortCmp crit b a ≤ 0 := by
  rcases le_or_lt (sortCmp crit a b) 0 with h | h
  · exact Or.inl h
  · right
    rw [sortCmp_swap crit b a]
    omega

theorem eq_of_perm_of_sorted_antisymm (r : Doc → Doc → Prop) :
    ∀ (l1 l2 : List Doc), l1.Perm l2 → l1.Sorted r → l2.Sorted r →
      (∀ a ∈ l1, ∀ b ∈ l1, r a b → r b a → a = b) → l1 = l2
  | [], l2, hp, _, _, _ => hp.nil_eq
  | a :: t1, [], hp, _, _, _ => by cases hp.symm.nil_eq
  | a :: t1, b :: t2, hp, hs1, hs2, hanti => by
      have hab : a = b := by
        by_cases h : a = b
        · exact h
        · have hbmem : b ∈ a :: t1 := hp.symm.subset (List.mem_cons_self b t2)
          have hamem : a ∈ b :: t2 := hp.subset (List.mem_cons_self a t1)
          have hbt1 : b ∈ t1 := by
            rcases List.mem_cons.mp hbmem with h' | h'
            · exact absurd h'.symm h
            · exact h'
          have hat2 : a ∈ t2 := by
            rcases List.mem_cons.mp hamem with h' | h'
            · exact absurd h' h
            · exact h'
          have hr1 : r a b := (List.sorted_cons.mp hs1).1 b hbt1
          have hr2 : r b a := (List.sorted_cons.mp hs2).1 a hat2
          exact hanti a (List.mem_cons_self a t1) b hbmem hr1 hr2
      subst hab
      have ht : t1.Perm t2 := hp.cons_inv
      have hrec := eq_of_perm_of_sorted_antisymm r t1 t2 ht (List.sorted_cons.mp hs1).2
        (List.sorted_cons.mp hs2).2
        (fun x hx y hy hxy hyx =>
          hanti x (List.mem_cons_of_mem a hx) y (List.mem_cons_of_mem a hy) hxy hyx)
      rw [hrec]

theorem sortDocs_perm_invariant (crit : List (String × Int)) (l1 l2 : List Doc)
    (hp : l1.Perm l2)
    (hanti : ∀ a ∈ l1, ∀ b ∈ l1, sortCmp crit a b = 0 → a = b) :
    sortDocs (sortCmp crit) l1 = sortDocs (sortCmp crit) l2 := by
  letI : IsTotal Doc (fun a b => sortCmp crit a b ≤ 0) := ⟨fun a b => sortCmp_total crit a b⟩
  letI : IsTrans Doc (fun a b => sortCmp crit a b ≤ 0) :=
    ⟨fun a b c => sortCmp_le_trans crit a b c⟩
  apply eq_of_perm_of_sorted_antisymm (fun a b => sortCmp crit a b ≤ 0)
  · exact (List.perm_insertionSort _ l1).trans (hp.trans (List.perm_insertionSort _ l2).symm)
  · exact List.sorted_insertionSort _ l1
  · exact List.sorted_insertionSort _ l2
  · intro a ha b hb hab hba
    have ha' : a ∈ l1 := (List.perm_insertionSort _ l1).subset ha
    have hb' : b ∈ l1 := (List.perm_insertionSort _ l1).subset hb
    have hs := sortCmp_swap crit a b
    have h0 : sortCmp crit a b = 0 := by omega
    exact hanti a ha' b hb' h0

theorem execLoop_sort_collects (q : Query) (lim skp : Option Nat) :
    ∀ (cands : List Doc) (added skipped : Nat) (res : List Doc),
      execLoop q true lim skp added skipped res cands =
        res ++ cands.filter (fun d => matchQuery d q) := by
  intro cands
  induction cands with
  | nil =>
      intro added skipped res
      simp [execLoop]
  | cons c cs ih =>
      intro added skipped res
      by_cases h : matchQuery c q = true
      · rw [show execLoop q true lim skp added skipped res (c :: cs) =
            execLoop q true lim skp added skipped (res ++ [c]) cs from by
            simp [execLoop, h]]
        rw [ih added skipped (res ++ [c])]
        simp [List.filter_cons, h]
      · rw [show execLoop q true lim skp added skipped res (c :: cs) =
            execLoop q true lim skp added skipped res cs from by
            simp [execLoop, h]]
        rw [ih added skipped res]
        simp [List.filter_cons, h]

theorem getCandidates_of_no_ttl (db : Datastore) (q : Query) (now : Int)
    (h : db.ttlIndexes = []) :
    db.getCandidates q false now = (db, db.getCandidatesStep1 q) := by
  simp [Datastore.getCandidates, isStale, h]

/-- C8 counterexample: two stores holding the same two documents — the
`_id` indexes are identical (so the stores' full document sets, and full
scans, coincide) — that differ only in the order of the two documents
inside the `f` index's document list at key 1.  That per-key list
(`node.data`) is kept in insertion order by the source, so the two stores
are what inserting the documents in opposite orders produces.  The
documents tie on both sort keys (`f` ascending, `g` descending), and a
find on `f = 1` with that sort returns them in their per-key candidate
order: the outputs differ with insertion order, refuting the claim's
insertion-order independence. -/
theorem cursor_sort_insertion_order_counterexample :
    (cursorExec
        ⟨[("_id", ⟨"_id", true, false,
            [(some (Value.str "1"),
               [[("_id", Value.str "1"), ("f", Value.num 1), ("g", Value.num 1),
                 ("x", Value.num 1)]]),
             (some (Value.str "2"),
               [[("_id", Value.str "2"), ("f", Value.num 1), ("g", Value.num 1),
                 ("x", Value.num 2)]])]⟩),
          ("f", ⟨"f", false, false,
            [(some (Value.num 1),
               [[("_id", Value.str "1"), ("f", Value.num 1), ("g", Value.num 1),
                 ("x", Value.num 1)],
                [("_id", Value.str "2"), ("f", Value.num 1), ("g", Value.num 1),
                 ("x", Value.num 2)]])]⟩)], [], [], false⟩
        [("f", QueryVal.scalar (Value.num 1))]
        ⟨none, none, some [("f", 1), ("g", -1)]⟩ 0).2 =
      [[("_id", Value.str "1"), ("f", Value.num 1), ("g", Value.num 1), ("x", Value.num 1)],
        [("_id", Value.str "2"), ("f", Value.num 1), ("g", Value.num 1), ("x", Value.num 2)]] ∧
    (cursorExec
        ⟨[("_id", ⟨"_id", true, false,
            [(some (Value.str "1"),
               [[("_id", Value.str "1"), ("f", Value.num 1), ("g", Value.num 1),
                 ("x", Value.num 1)]]),
             (some (Value.str "2"),
               [[("_id", Value.str "2"), ("f", Value.num 1), ("g", Value.num 1),
                 ("x", Value.num 2)]])]⟩),
          ("f", ⟨"f", false, false,
            [(some (Value.num 1),
               [[("_id", Value.str "2"), ("f", Value.num 1), ("g", Value.num 1),
                 ("x", Value.num 2)],
                [("_id", Value.str "1"), ("f", Value.num 1), ("g", Value.num 1),
                 ("x", Value.num 1)]])]⟩)], [], [], false⟩
        [("f", QueryVal.scalar (Value.num 1))]
        ⟨none, none, some [("f", 1), ("g", -1)]⟩ 0).2 =
      [[("_id", Value.str "2"), ("f", Value.num 1), ("g", Value.num 1), ("x", Value.num 2)],
        [("_id", Value.str "1"), ("f", Value.num 1), ("g", Value.num 1), ("x", Value.num 1)]] ∧
    Datastore.getAllData
        ⟨[("_id", ⟨"_id", true, false,
            [(some (Value.str "1"),
               [[("_id", Value.str "1"), ("f", Value.num 1), ("g", Value.num 1),
                 ("x", Value.num 1)]]),
             (some (Value.str "2"),
               [[("_id", Value.str "2"), ("f", Value.num 1), ("g", Value.num 1),
                 ("x", Value.num 2)]])]⟩),
          ("f", ⟨"f", false, false,
            [(some (Value.num 1),
               [[("_id", Value.str "1"), ("f", Value.num 1), ("g", Value.num 1),
                 ("x", Value.num 1)],
                [("_id", Value.str "2"), ("f", Value.num 1), ("g", Value.num 1),
                 ("x", Value.num 2)]])]⟩)], [], [], false⟩ =
      Datastore.getAllData
        ⟨[("_id", ⟨"_id", true, false,
            [(some (Value.str "1"),
               [[("_id", Value.str "1"), ("f", Value.num 1), ("g", Value.num 1),
                 ("x", Value.num 1)]]),
             (some (Value.str "2"),
               [[("_id", Value.str "2"), ("f", Value.num 1), ("g", Value.num 1),
                 ("x", Value.num 2)]])]⟩),
          ("f", ⟨"f", false, false,
            [(some (Value.num 1),
               [[("_id", Value.str "2"), ("f", Value.num 1), ("g", Value.num 1),
                 ("x", Value.num 2)],
                [("_id", Value.str "1"), ("f", Value.num 1), ("g", Value.num 1),
                 ("x", Value.num 1)]])]⟩)], [], [], false⟩ ∧
    (treeSearch
        (⟨"f", false, false,
          [(some (Value.num 1),
             [[("_id", Value.str "1"), ("f", Value.num 1), ("g", Value.num 1),
               ("x", Value.num 1)],
              [("_id", Value.str "2"), ("f", Value.num 1), ("g", Value.num 1),
               ("x", Value.num 2)]])]⟩ : Index).tree (some (Value.num 1))).Perm
      (treeSearch
        (⟨"f", false, false,
          [(some (Value.num 1),
             [[("_id", Value.str "2"), ("f", Value.num 1), ("g", Value.num 1),
               ("x", Value.num 2)],
              [("_id", Value.str "1"), ("f", Value.num 1), ("g", Value.num 1),
               ("x", Value.num 1)]])]⟩ : Index).tree (some (Value.num 1))) ∧
    ([("_id", Value.str "1"), ("f", Value.num 1), ("g", Value.num 1), ("x", Value.num 1)] :
        Doc) ≠
      [("_id", Value.str "2"), ("f", Value.num 1), ("g", Value.num 1), ("x", Value.num 2)] := by
  refine ⟨by decide, by decide, by decide, ?_, by decide⟩
  decide

/-- C8 (amended): with a sort specification, the matched documents are first
fully sorted by the sort keys in first-to-last order (ties broken by the
next key) and only then are skip and limit applied to the sorted sequence;
and the output is independent of insertion order provided no two matched
documents tie on every sort key.  Fully tied documents keep their stable
candidate order, and candidate order does depend on insertion order when
the candidates are read from a non-unique index's per-key document list
(`node.data`, insertion-ordered in the source) — the counterexample's
route. -/
theorem cursor_sort_then_skip_limit :
    (∀ (db : Datastore) (q : Query) (lim skp : Option Nat)
        (crit : List (String × Int)) (now : Int),
      (cursorExec db q ⟨lim, skp, some crit⟩ now).2 =
        specSortedOutput crit lim skp
          (((db.getCandidates q false now).2).filter (fun d => matchQuery d q))) ∧
    (∀ (q : Query) (lim skp : Option Nat) (crit : List (String × Int)) (now : Int)
        (db1 db2 : Datastore),
      db1.ttlIndexes = [] → db2.ttlIndexes = [] →
      (db1.getCandidatesStep1 q).Perm (db2.getCandidatesStep1 q) →
      (∀ a ∈ (db1.getCandidatesStep1 q).filter (fun d => matchQuery d q),
        ∀ b ∈ (db1.getCandidatesStep1 q).filter (fun d => matchQuery d q),
          sortCmp crit a b = 0 → a = b) →
      (cursorExec db1 q ⟨lim, skp, some crit⟩ now).2 =
        (cursorExec db2 q ⟨lim, skp, some crit⟩ now).2) := by
  have hmain : ∀ (db : Datastore) (q : Query) (lim skp : Option Nat)
      (crit : List (String × Int)) (now : Int),
      (cursorExec db q ⟨lim, skp, some crit⟩ now).2 =
        specSortedOutput crit lim skp
          (((db.getCandidates q false now).2).filter (fun d => matchQuery d q)) := by
    intro db q lim skp crit now
    simp only [cursorExec, specSortedOutput]
    rw [execLoop_sort_collects q lim skp]
    simp
  refine ⟨hmain, ?_⟩
  intro q lim skp crit now db1 db2 h1 h2 hperm hanti
  rw [hmain, hmain]
  rw [getCandidates_of_no_ttl db1 q now h1, getCandidates_of_no_ttl db2 q now h2]
  have hpf : ((db1.getCandidatesStep1 q).filter (fun d => matchQuery d q)).Perm
      ((db2.getCandidatesStep1 q).filter (fun d => matchQuery d q)) :=
    hperm.filter _
  have hsorted := sortDocs_perm_invariant crit _ _ hpf hanti
  simp only [specSortedOutput]
  rw [hsorted]

/-- C8 witness: two stores with the same two documents (distinct values on
the single sort key `f`) inserted in opposite orders produce the same sorted
output. -/
theorem cursor_sort_then_skip_limit_witness :
    (cursorExec
        ⟨[("_id", ⟨"_id", true, false,
            [(some (Value.str "1"), [[("_id", Value.str "1"), ("f", Value.num 2)]]),
             (some (Value.str "2"), [[("_id", Value.str "2"), ("f", Value.num 1)]])]⟩)],
          [], [], false⟩
        [] ⟨none, none, some [("f", 1)]⟩ 0).2 =
      (cursorExec
        ⟨[("_id", ⟨"_id", true, false,
            [(some (Value.str "2"), [[("_id", Value.str "2"), ("f", Value.num 1)]]),
             (some (Value.str "1"), [[("_id", Value.str "1"), ("f", Value.num 2)]])]⟩)],
          [], [], false⟩
        [] ⟨none, none, some [("f", 1)]⟩ 0).2 :=
  cursor_sort_then_skip_limit.2 [] none none [("f", 1)] 0
    ⟨[("_id", ⟨"_id", true, false,
        [(some (Value.str "1"), [[("_id", Value.str "1"), ("f", Value.num 2)]]),
         (some (Value.str "2"), [[("_id", Value.str "2"), ("f", Value.num 1)]])]⟩)],
      [], [], false⟩
    ⟨[("_id", ⟨"_id", true, false,
        [(some (Value.str "2"), [[("_id", Value.str "2"), ("f", Value.num 1)]]),
         (some (Value.str "1"), [[("_id", Value.str "1"), ("f", Value.num 2)]])]⟩)],
      [], [], false⟩
    rfl rfl (by decide) (by decide)

/-! ### C6: TTL expiry of candidates -/

theorem mem_treeGetAll (t : Tree) (x : Doc) : x ∈ treeGetAll t ↔ ∃ e ∈ t, x ∈ e.2 := by
  simp [treeGetAll]

theorem erodes_refl (t : Tree) : Erodes t t :=
  ⟨fun e he => ⟨e, he, rfl, List.Sublist.refl _⟩, List.Sublist.refl _⟩

theorem erodes_trans {t1 t2 t3 : Tree} (h12 : Erodes t1 t2) (h23 : Erodes t2 t3) :
    Erodes t1 t3 := by
  refine ⟨fun e he => ?_, h12.2.trans h23.2⟩
  obtain ⟨e2, he2, hk, hs⟩ := h12.1 e he
  obtain ⟨e3, he3, hk2, hs2⟩ := h23.1 e2 he2
  exact ⟨e3, he3, hk.trans hk2, hs.trans hs2⟩

theorem erodes_treeDelete (t : Tree) (k : Key) (d : Doc) : Erodes (treeDelete t k d) t := by
  induction t with
  | nil => exact erodes_refl []
  | cons e rest ih =>
      obtain ⟨k0, ds⟩ := e
      by_cases hkk : k0 = k
      · simp only [treeDelete, if_pos hkk]
        cases hf : ds.filter (fun d2 => d2 ≠ d) with
        | nil =>
            refine ⟨fun e2 he2 => ⟨e2, List.mem_cons_of_mem _ he2, rfl, List.Sublist.refl _⟩, ?_⟩
            rw [List.map_cons]
            exact List.sublist_cons_self _ _
        | cons x xs =>
            refine ⟨fun e2 he2 => ?_, ?_⟩
            · rcases List.mem_cons.mp he2 with h | h
              · refine ⟨(k0, ds), List.mem_cons_self _ _, by rw [h], ?_⟩
                rw [h]
                exact hf ▸ List.filter_sublist ds
              · exact ⟨e2, List.mem_cons_of_mem _ h, rfl, List.Sublist.refl _⟩
            · rw [List.map_cons, List.map_cons]
      · simp only [treeDelete, if_neg hkk]
        refine ⟨fun e2 he2 => ?_, ?_⟩
        · rcases List.mem_cons.mp he2 with h | h
          · exact ⟨(k0, ds), List.mem_cons_self _ _, by rw [h], by rw [h]⟩
          · obtain ⟨e3, he3, hk3, hs3⟩ := ih.1 e2 h
            exact ⟨e3, List.mem_cons_of_mem _ he3, hk3, hs3⟩
        · rw [List.map_cons, List.map_cons]
          exact ih.2.cons₂ _

theorem erodes_foldl_treeDelete (x : Doc) (ks : List Value) (t : Tree) :
    Erodes (ks.foldl (fun t2 k => treeDelete t2 (some k) x) t) t := by
  induction ks generalizing t with
  | nil => exact erodes_refl t
  | cons k ks ih =>
      rw [List.foldl_cons]
      exact erodes_trans (ih _) (erodes_treeDelete t (some k) x)

theorem removeDoc_erodes (idx : Index) (x : Doc) :
    Erodes (idx.removeDoc x).tree idx.tree ∧
    (idx.removeDoc x).fieldName = idx.fieldName ∧
    (idx.removeDoc x).sparse = idx.sparse ∧
    (idx.removeDoc x).unique = idx.unique := by
  simp only [Index.removeDoc]
  split
  · exact ⟨erodes_refl _, rfl, rfl, rfl⟩
  · split
    · exact ⟨erodes_foldl_treeDelete x _ _, rfl, rfl, rfl⟩
    · exact ⟨erodes_treeDelete _ _ _, rfl, rfl, rfl⟩

theorem mem_treeGetAll_of_erodes {t t' : Tree} (h : Erodes t t') {x : Doc}
    (hx : x ∈ treeGetAll t) : x ∈ treeGetAll t' := by
  rw [mem_treeGetAll] at hx ⊢
  obtain ⟨e, he, hxe⟩ := hx
  obtain ⟨e2, he2, _, hs⟩ := h.1 e he
  exact ⟨e2, he2, hs.subset hxe⟩

theorem treeDelete_not_mem (t : Tree) (k : Key) (d : Doc)
    (hnd : TreeNoDup t) (hk : ∀ e ∈ t, d ∈ e.2 → e.1 = k) :
    d ∉ treeGetAll (treeDelete t k d) := by
  induction t with
  | nil => simp [treeDelete, treeGetAll]
  | cons e rest ih =>
      obtain ⟨k0, ds⟩ := e
      rw [TreeNoDup, List.map_cons, List.nodup_cons] at hnd
      by_cases hkk : k0 = k
      · subst hkk
        have hrest : ∀ e2 ∈ rest, d ∉ e2.2 := by
          intro e2 he2 hde2
          have hk2 := hk e2 (List.mem_cons_of_mem _ he2) hde2
          exact hnd.1 (hk2 ▸ List.mem_map.mpr ⟨e2, he2, rfl⟩)
        simp only [treeDelete, if_pos rfl]
        cases hf : ds.filter (fun d2 => d2 ≠ d) with
        | nil =>
            rw [mem_treeGetAll]
            rintro ⟨e2, he2, hde2⟩
            exact hrest e2 he2 hde2
        | cons x xs =>
            rw [mem_treeGetAll]
            rintro ⟨e2, he2, hde2⟩
            rcases List.mem_cons.mp he2 with h | h
            · rw [h] at hde2
              have : d ∈ ds.filter (fun d2 => d2 ≠ d) := hf ▸ hde2
              simp at this
            · exact hrest e2 h hde2
      · simp only [treeDelete, if_neg hkk]
        rw [mem_treeGetAll]
        rintro ⟨e2, he2, hde2⟩
        rcases List.mem_cons.mp he2 with h | h
        · rw [h] at hde2
          exact hkk (hk (k0, ds) (List.mem_cons_self _ _) hde2)
        · have := ih hnd.2 (fun e3 he3 => hk e3 (List.mem_cons_of_mem _ he3))
          rw [mem_treeGetAll] at this
          exact this ⟨e2, h, hde2⟩

theorem lookup_map_value {κ α β : Type} [DecidableEq κ] (l : List (κ × α)) (f : α → β)
    (k : κ) : (l.map (fun p => (p.1, f p.2))).lookup k = (l.lookup k).map f := by
  induction l with
  | nil => rfl
  | cons p rest ih =>
      obtain ⟨k0, v0⟩ := p
      by_cases h : k = k0
      · subst h
        simp [List.lookup]
      · simp [List.lookup, beq_false_of_ne h, ih]

theorem lookup_removeDoc_map (l : List (String × Index)) (x : Doc) (k : String) :
    (l.map (fun p => (p.1, p.2.removeDoc x))).lookup k =
      (l.lookup k).map (fun i => i.removeDoc x) := by
  induction l with
  | nil => rfl
  | cons p rest ih =>
      obtain ⟨k0, v0⟩ := p
      by_cases h : k = k0
      · subst h
        simp [List.lookup]
      · simp [List.lookup, beq_false_of_ne h, ih]

theorem getAllData_removeFromIndexes_subset (db : Datastore) (x y : Doc)
    (h : y ∈ (db.removeFromIndexes x).getAllData) : y ∈ db.getAllData := by
  simp only [Datastore.removeFromIndexes, Datastore.getAllData] at h ⊢
  rw [lookup_removeDoc_map] at h
  cases hlk : db.indexes.lookup "_id" with
  | none => rw [hlk] at h; simp at h
  | some idx =>
      rw [hlk] at h
      simp only [Option.map_some'] at h
      exact mem_treeGetAll_of_erodes (removeDoc_erodes idx x).1 h

theorem idWF_removeFromIndexes (db : Datastore) (x : Doc) (h : IdIndexWF db) :
    IdIndexWF (db.removeFromIndexes x) := by
  obtain ⟨idx, hlk, hfn, hsp, hnd, hlen, hkeys⟩ := h
  obtain ⟨her, hfn2, hsp2, _⟩ := removeDoc_erodes idx x
  refine ⟨idx.removeDoc x, ?_, hfn2.trans hfn, hsp2.trans hsp, ?_, ?_, ?_⟩
  · show (db.indexes.map (fun p => (p.1, p.2.removeDoc x))).lookup "_id" = _
    rw [lookup_removeDoc_map, hlk]
    rfl
  · exact List.Nodup.sublist her.2 hnd
  · intro e he
    obtain ⟨e2, he2, _, hs⟩ := her.1 e he
    exact le_trans hs.length_le (hlen e2 he2)
  · intro e he d hd
    obtain ⟨e2, he2, hk2, hs⟩ := her.1 e he
    have := hkeys e2 he2 d (hs.subset hd)
    exact ⟨hk2.trans this.1, this.2⟩

theorem removeLoop_getAllData_subset (q : Query) (multi : Bool) :
    ∀ (cands : List Doc) (db : Datastore) (tombs : List LogEntry) (n : Nat) (y : Doc),
      y ∈ ((removeLoop q multi db tombs n cands).1).getAllData → y ∈ db.getAllData := by
  intro cands
  induction cands with
  | nil => intro db tombs n y h; exact h
  | cons d ds ih =>
      intro db tombs n y h
      rw [removeLoop] at h
      by_cases hc : matchQuery d q = true ∧ (multi = true ∨ n = 0)
      · rw [if_pos hc] at h
        exact getAllData_removeFromIndexes_subset db d y (ih _ _ _ _ h)
      · rw [if_neg hc] at h
        exact ih _ _ _ _ h

theorem removeLoop_idWF (q : Query) (multi : Bool) :
    ∀ (cands : List Doc) (db : Datastore) (tombs : List LogEntry) (n : Nat),
      IdIndexWF db → IdIndexWF ((removeLoop q multi db tombs n cands).1) := by
  intro cands
  induction cands with
  | nil => intro db tombs n h; exact h
  | cons d ds ih =>
      intro db tombs n h
      rw [removeLoop]
      by_cases hc : matchQuery d q = true ∧ (multi = true ∨ n = 0)
      · rw [if_pos hc]
        exact ih _ _ _ (idWF_removeFromIndexes db d h)
      · rw [if_neg hc]
        exact ih _ _ _ h

theorem removeModel_getAllData_subset (db : Datastore) (q : Query) (multi : Bool) (y : Doc)
    (h : y ∈ ((db.removeModel q multi).1).getAllData) : y ∈ db.getAllData := by
  simp only [Datastore.removeModel] at h
  rcases hr : removeLoop q multi db [] 0 (db.getCandidatesStep1 q) with ⟨db2, tombs, n⟩
  rw [hr] at h
  have h2 := removeLoop_getAllData_subset q multi (db.getCandidatesStep1 q) db [] 0 y
  rw [hr] at h2
  exact h2 h

theorem removeModel_idWF (db : Datastore) (q : Query) (multi : Bool)
    (h : IdIndexWF db) : IdIndexWF ((db.removeModel q multi).1) := by
  simp only [Datastore.removeModel]
  rcases hr : removeLoop q multi db [] 0 (db.getCandidatesStep1 q) with ⟨db2, tombs, n⟩
  have h2 := removeLoop_idWF q multi (db.getCandidatesStep1 q) db [] 0 h
  rw [hr] at h2
  exact h2

theorem keyOkB_facts (k : Option Value) (h : keyOkB k = true) :
    ∃ v, k = some v ∧ isScalarUsable (QueryVal.scalar v) = true ∧
      valueMatches (some v) (QueryVal.scalar v) = true ∧
      (∀ idx : Index, idx.getMatchingVal v = idx.getMatchingOne v) ∧
      (∀ (idx : Index) (x : Doc), getDotValue x idx.fieldName = some v →
        idx.removeDoc x = { idx with tree := treeDelete idx.tree (some v) x }) := by
  cases k with
  | none => exact absurd h (by simp [keyOkB])
  | some v =>
      cases v with
      | arr l => exact absurd h (by simp [keyOkB])
      | null =>
          exact ⟨.null, rfl, rfl, by simp [valueMatches], fun idx => rfl,
            fun idx x hx => by simp [Index.removeDoc, hx]⟩
      | boolean b =>
          exact ⟨.boolean b, rfl, rfl, by simp [valueMatches], fun idx => rfl,
            fun idx x hx => by simp [Index.removeDoc, hx]⟩
      | num n =>
          exact ⟨.num n, rfl, rfl, by simp [valueMatches], fun idx => rfl,
            fun idx x hx => by simp [Index.removeDoc, hx]⟩
      | str s =>
          exact ⟨.str s, rfl, rfl, by simp [valueMatches], fun idx => rfl,
            fun idx x hx => by simp [Index.removeDoc, hx]⟩
      | date t =>
          exact ⟨.date t, rfl, rfl, by simp [valueMatches], fun idx => rfl,
            fun idx x hx => by simp [Index.removeDoc, hx]⟩

theorem isStale_iff (ttl : List (String × Int)) (now : Int) (d : Doc) :
    isStale ttl now d = true ↔
      ∃ p ∈ ttl, ∃ t : Int, d.lookup p.1 = some (Value.date t) ∧ now > t + p.2 * 1000 := by
  unfold isStale
  rw [List.any_eq_true]
  constructor
  · rintro ⟨p, hp, hm⟩
    refine ⟨p, hp, ?_⟩
    cases hl : d.lookup p.1 with
    | none => rw [hl] at hm; simp at hm
    | some v =>
        cases v with
        | null => rw [hl] at hm; simp at hm
        | boolean b => rw [hl] at hm; simp at hm
        | num n => rw [hl] at hm; simp at hm
        | str s => rw [hl] at hm; simp at hm
        | date t => rw [hl] at hm; exact ⟨t, rfl, by simpa using hm⟩
        | arr l => rw [hl] at hm; simp at hm
  · rintro ⟨p, hp, t, hl, ht⟩
    refine ⟨p, hp, ?_⟩
    rw [hl]
    simpa using ht

theorem treeSearch_nodup_eq (t : Tree) (k : Key) (ds : List Doc)
    (hnd : TreeNoDup t) (hm : (k, ds) ∈ t) : treeSearch t k = ds := by
  induction t with
  | nil => simp at hm
  | cons p rest ih =>
      obtain ⟨k0, ds0⟩ := p
      rw [TreeNoDup, List.map_cons, List.nodup_cons] at hnd
      rcases List.mem_cons.mp hm with h | h
      · injection h with h1 h2
        subst h1
        subst h2
        simp [treeSearch, List.lookup]
      · have hk : k ≠ k0 := by
          intro hh
          subst hh
          exact hnd.1 (List.mem_map.mpr ⟨(k, ds), h, rfl⟩)
        simp only [treeSearch, List.lookup, beq_false_of_ne hk]
        exact ih hnd.2 h

theorem removeModel_kills (db : Datastore) (d : Doc) (hwf : IdIndexWF db) :
    d ∉ ((db.removeModel (idQuery (getDotValue d "_id")) false).1).getAllData := by
  by_cases hmem : d ∈ db.getAllData
  · obtain ⟨idx, hlk, hfn, hsp, hnd, hlen, hkeys⟩ := hwf
    have hmem2 : d ∈ treeGetAll idx.tree := by
      unfold Datastore.getAllData at hmem
      rw [hlk] at hmem
      exact hmem
    obtain ⟨e, he, hde⟩ := (mem_treeGetAll _ _).mp hmem2
    obtain ⟨hekey, hok⟩ := hkeys e he d hde
    obtain ⟨v, hv, hscal, hvm, hmv, hrd⟩ := keyOkB_facts _ hok
    have hekv : e.1 = some v := hekey.trans hv
    have he2 : e.2 = [d] := by
      have hl := hlen e he
      cases h2 : e.2 with
      | nil => rw [h2] at hde; simp at hde
      | cons x xs =>
          cases xs with
          | nil =>
              rw [h2, List.mem_singleton] at hde
              rw [hde]
          | cons y ys =>
              rw [h2] at hl
              simp at hl
    have hlook : treeSearch idx.tree (some v) = [d] := by
      have hmm : (e.1, e.2) ∈ idx.tree := by rw [Prod.mk.eta]; exact he
      rw [hekv, he2] at hmm
      exact treeSearch_nodup_eq _ _ _ hnd hmm
    have hquery : idQuery (getDotValue d "_id") = [("_id", QueryVal.scalar v)] := by
      rw [hv]; rfl
    have hidmem : "_id" ∈ db.indexNames :=
      List.mem_map.mpr ⟨("_id", idx), mem_of_lookup_eq_some _ _ _ hlk, rfl⟩
    have hcontains : db.indexNames.contains "_id" = true :=
      List.elem_eq_true_of_mem hidmem
    have hfu : firstUsable [("_id", QueryVal.scalar v)] db.indexNames isScalarUsable =
        some "_id" := by
      unfold firstUsable
      simp [hscal, hcontains, hidmem]
    have hstep : db.getCandidatesStep1 [("_id", QueryVal.scalar v)] = [d] := by
      simp only [Datastore.getCandidatesStep1, hfu]
      simp only [List.lookup, beq_self_eq_true]
      simp only [Datastore.getIndex, hlk]
      rw [hmv]
      rw [Index.getMatchingOne, hlook]
    rw [hquery]
    simp only [Datastore.removeModel, hstep]
    rw [removeLoop, if_pos ⟨(by simp [matchQuery, hv, hvm]), Or.inr rfl⟩, removeLoop]
    show d ∉ (Datastore.getAllData _)
    simp only [Datastore.removeFromIndexes, Datastore.getAllData]
    rw [lookup_removeDoc_map, hlk]
    simp only [Option.map_some']
    have hrw := hrd idx d (by rw [hfn]; exact hv)
    rw [hrw]
    exact treeDelete_not_mem idx.tree (some v) d hnd
      (fun e2 he2 hde2 => ((hkeys e2 he2 d hde2).1).trans hv)
  · intro hc
    exact hmem (removeModel_getAllData_subset _ _ _ _ hc)

theorem foldRemove_getAllData_subset :
    ∀ (ids : List (Option Value)) (s : Datastore) (y : Doc),
      y ∈ ((ids.foldl (fun s2 idv => (s2.removeModel (idQuery idv) false).1) s).getAllData) →
        y ∈ s.getAllData := by
  intro ids
  induction ids with
  | nil => intro s y h; exact h
  | cons i is ih =>
      intro s y h
      rw [List.foldl_cons] at h
      exact removeModel_getAllData_subset _ _ _ _ (ih _ _ h)

theorem foldRemove_idWF :
    ∀ (ids : List (Option Value)) (s : Datastore), IdIndexWF s →
      IdIndexWF (ids.foldl (fun s2 idv => (s2.removeModel (idQuery idv) false).1) s) := by
  intro ids
  induction ids with
  | nil => intro s h; exact h
  | cons i is ih =>
      intro s h
      rw [List.foldl_cons]
      exact ih _ (removeModel_idWF _ _ _ h)

theorem foldRemove_kills (d : Doc) :
    ∀ (ids : List (Option Value)) (s : Datastore), IdIndexWF s →
      getDotValue d "_id" ∈ ids →
      d ∉ ((ids.foldl (fun s2 idv => (s2.removeModel (idQuery idv) false).1) s).getAllData) := by
  intro ids
  induction ids with
  | nil => intro s _ h; simp at h
  | cons i is ih =>
      intro s hwf hmem
      rw [List.foldl_cons]
      rcases List.mem_cons.mp hmem with h | h
      · intro hc
        have h2 := foldRemove_getAllData_subset is _ d hc
        rw [← h] at h2
        exact removeModel_kills s d hwf h2
      · exact ih _ (removeModel_idWF _ _ _ hwf) h

/-- C6: candidate retrieval and TTL expiry.  (1) A retrieval with expiry
suppressed (`dontExpireStaleDocs = true`, as for remove) returns the STEP-1
candidates with the store untouched.  (2) A normal retrieval returns exactly
the STEP-1 candidates that are not stale — a candidate is excluded iff some
TTL-registered field holds a date whose time plus `expireAfterSeconds`
seconds is strictly before now.  (3) Every stale candidate that is a stored
document is removed from the store (asynchrony is flattened into the
returned state), given the `_id`-index invariant every live store
maintains. -/
theorem ttl_expiry :
    (∀ (db : Datastore) (q : Query) (now : Int),
        db.getCandidates q true now = (db, db.getCandidatesStep1 q)) ∧
    (∀ (db : Datastore) (q : Query) (now : Int) (d : Doc),
        d ∈ (db.getCandidates q false now).2 ↔
          d ∈ db.getCandidatesStep1 q ∧
            ¬ ∃ p ∈ db.ttlIndexes, ∃ t : Int,
                d.lookup p.1 = some (Value.date t) ∧ now > t + p.2 * 1000) ∧
    (∀ (db : Datastore) (q : Query) (now : Int) (d : Doc),
        IdIndexWF db → d ∈ db.getCandidatesStep1 q → d ∈ db.getAllData →
        (∃ p ∈ db.ttlIndexes, ∃ t : Int,
          d.lookup p.1 = some (Value.date t) ∧ now > t + p.2 * 1000) →
        d ∉ ((db.getCandidates q false now).1).getAllData) := by
  refine ⟨fun db q now => rfl, fun db q now d => ?_, fun db q now d hwf hstep hall hex => ?_⟩
  · show d ∈ (db.getCandidatesStep1 q).filter
        (fun d2 => ¬ isStale db.ttlIndexes now d2) ↔ _
    rw [List.mem_filter]
    simp only [decide_eq_true_eq]
    exact and_congr_right (fun _ => not_congr (isStale_iff _ _ _))
  · have hstale : isStale db.ttlIndexes now d = true := (isStale_iff _ _ _).mpr hex
    show d ∉ Datastore.getAllData
        (List.foldl (fun s idv => (s.removeModel (idQuery idv) false).1) db
          (List.map (fun d2 => getDotValue d2 "_id")
            (List.filter (fun d2 => isStale db.ttlIndexes now d2)
              (db.getCandidatesStep1 q))))
    exact foldRemove_kills d _ db hwf
      (List.mem_map.mpr ⟨d, List.mem_filter.mpr ⟨hstep, hstale⟩, rfl⟩)

/-- C6 witness: a store with one document whose TTL-registered `expireAt`
date lies more than `expireAfterSeconds` in the past; retrieval excludes it
and removes it from the store. -/
theorem ttl_expiry_witness :
    (IdIndexWF
        ⟨[("_id", ⟨"_id", true, false,
            [(some (Value.str "1"),
               [[("_id", Value.str "1"), ("expireAt", Value.date 0)]])]⟩)],
          [("expireAt", 1)], [], false⟩ ∧
      ([("_id", Value.str "1"), ("expireAt", Value.date 0)] : Doc) ∈
        Datastore.getCandidatesStep1
          ⟨[("_id", ⟨"_id", true, false,
              [(some (Value.str "1"),
                 [[("_id", Value.str "1"), ("expireAt", Value.date 0)]])]⟩)],
            [("expireAt", 1)], [], false⟩ [] ∧
      ([("_id", Value.str "1"), ("expireAt", Value.date 0)] : Doc) ∈
        Datastore.getAllData
          ⟨[("_id", ⟨"_id", true, false,
              [(some (Value.str "1"),
                 [[("_id", Value.str "1"), ("expireAt", Value.date 0)]])]⟩)],
            [("expireAt", 1)], [], false⟩) ∧
    ([("_id", Value.str "1"), ("expireAt", Value.date 0)] : Doc) ∉
      ((Datastore.getCandidates
          ⟨[("_id", ⟨"_id", true, false,
              [(some (Value.str "1"),
                 [[("_id", Value.str "1"), ("expireAt", Value.date 0)]])]⟩)],
            [("expireAt", 1)], [], false⟩ [] false 5000).1).getAllData := by
  refine ⟨⟨⟨⟨"_id", true, false,
      [(some (Value.str "1"),
         [[("_id", Value.str "1"), ("expireAt", Value.date 0)]])]⟩,
      rfl, rfl, rfl, by unfold TreeNoDup; decide, by decide, by decide⟩, by decide, by decide⟩, ?_⟩
  exact ttl_expiry.2.2 _ [] 5000 _
    ⟨⟨"_id", true, false,
      [(some (Value.str "1"),
         [[("_id", Value.str "1"), ("expireAt", Value.date 0)]])]⟩,
      rfl, rfl, rfl, by unfold TreeNoDup; decide, by decide, by decide⟩
    (by decide) (by decide)
    ⟨("expireAt", 1), by decide, 0, rfl, by decide⟩

/-! ### C9: ensureIndex failure modes -/

theorem treeInsert_keys (unique : Bool) (t : Tree) (k : Key) (d : Doc) (t2 : Tree)
    (h : treeInsert unique t k d = (t2, none)) :
    (∀ k2 ∈ t.map Prod.fst, k2 ∈ t2.map Prod.fst) ∧ k ∈ t2.map Prod.fst := by
  induction t generalizing t2 with
  | nil =>
      rw [treeInsert] at h
      injection h with h1 _
      subst h1
      simp
  | cons p rest ih =>
      obtain ⟨k0, ds⟩ := p
      rw [treeInsert] at h
      by_cases hk : k0 = k
      · rw [if_pos hk] at h
        cases hu : unique with
        | true => rw [hu] at h; simp at h
        | false =>
            rw [hu] at h
            simp only [if_neg Bool.false_ne_true] at h
            injection h with h1 _
            subst h1
            subst hk
            simp
      · rw [if_neg hk] at h
        rcases hrec : treeInsert unique rest k d with ⟨rest2, e⟩
        rw [hrec] at h
        injection h with h1 h2
        subst h1
        subst h2
        obtain ⟨hmono, hnew⟩ := ih rest2 hrec
        refine ⟨?_, by simp [hnew]⟩
        intro k2 hk2
        rw [List.map_cons, List.mem_cons] at hk2 ⊢
        rcases hk2 with h | h
        · exact Or.inl h
        · exact Or.inr (hmono k2 h)

theorem treeInsert_unique_dup (t : Tree) (k : Key) (d : Doc)
    (hk : k ∈ t.map Prod.fst) : (treeInsert true t k d).2 = some (.uniqueViolated k) := by
  induction t with
  | nil => simp at hk
  | cons p rest ih =>
      obtain ⟨k0, ds⟩ := p
      rw [treeInsert]
      by_cases hkk : k0 = k
      · rw [if_pos hkk]
        simp
      · rw [if_neg hkk]
        rw [List.map_cons, List.mem_cons] at hk
        rcases hk with h | h
        · exact absurd h.symm hkk
        · rcases hrec : treeInsert true rest k d with ⟨rest2, e⟩
          have := ih h
          rw [hrec] at this
          simpa [hrec] using this

theorem insertDoc_scalar (idx : Index) (d : Doc) (hsp : idx.sparse = false)
    (hk : keyOkB (getDotValue d idx.fieldName) = true ∨ getDotValue d idx.fieldName = none)
    (t2 : Tree) (e : Option DbError)
    (h : treeInsert idx.unique idx.tree (getDotValue d idx.fieldName) d = (t2, e)) :
    idx.insertDoc d = ({ idx with tree := t2 }, e) := by
  rcases hl : getDotValue d idx.fieldName with _ | v
  · rw [hl] at h
    simp [Index.insertDoc, hl, hsp, h]
  · rw [hl] at h hk
    cases v with
    | arr l =>
        rcases hk with hk | hk
        · simp [keyOkB] at hk
        · simp at hk
    | null => simp [Index.insertDoc, hl, hsp, h]
    | boolean b => simp [Index.insertDoc, hl, hsp, h]
    | num n => simp [Index.insertDoc, hl, hsp, h]
    | str s => simp [Index.insertDoc, hl, hsp, h]
    | date t => simp [Index.insertDoc, hl, hsp, h]

theorem insertKeysGo_keys (unique : Bool) (d : Doc) :
    ∀ (ks : List Value) (t : Tree) (app : List Value) (t2 : Tree),
      insertKeysGo unique d t app ks = (t2, none) →
      ∀ k2 ∈ t.map Prod.fst, k2 ∈ t2.map Prod.fst := by
  intro ks
  induction ks with
  | nil =>
      intro t app t2 h
      rw [insertKeysGo] at h
      injection h with h1 _
      subst h1
      exact fun k2 hk2 => hk2
  | cons k ks ih =>
      intro t app t2 h
      rw [insertKeysGo] at h
      rcases hti : treeInsert unique t (some k) d with ⟨t3, e3⟩
      rw [hti] at h
      cases e3 with
      | none =>
          intro k2 hk2
          exact ih t3 _ t2 h k2 ((treeInsert_keys unique t (some k) d t3 hti).1 k2 hk2)
      | some e => simp at h

theorem insertDoc_mono (idx idx2 : Index) (d : Doc)
    (h : idx.insertDoc d = (idx2, none)) :
    idx2.fieldName = idx.fieldName ∧ idx2.unique = idx.unique ∧ idx2.sparse = idx.sparse ∧
    ∀ k2 ∈ idx.tree.map Prod.fst, k2 ∈ idx2.tree.map Prod.fst := by
  rw [Index.insertDoc] at h
  by_cases hskip : getDotValue d idx.fieldName = none ∧ idx.sparse = true
  · rw [if_pos hskip] at h
    injection h with h1 _
    subst h1
    exact ⟨rfl, rfl, rfl, fun k2 hk2 => hk2⟩
  · rw [if_neg hskip] at h
    rcases hl : getDotValue d idx.fieldName with _ | v
    · rw [hl] at h
      dsimp only at h
      rcases hti : treeInsert idx.unique idx.tree none d with ⟨t2, e2⟩
      rw [hti] at h
      injection h with h1 h2
      subst h1
      cases e2 with
      | none => exact ⟨rfl, rfl, rfl, (treeInsert_keys _ _ _ _ _ hti).1⟩
      | some e => simp at h2
    · rw [hl] at h
      cases v with
      | arr l =>
          dsimp only at h
          rcases hkg : insertKeysGo idx.unique d idx.tree [] (uniqBy projectForUnique l) with
            ⟨t2, e2⟩
          rw [hkg] at h
          cases e2 with
          | none =>
              injection h with h1 _
              subst h1
              exact ⟨rfl, rfl, rfl, insertKeysGo_keys _ _ _ _ _ _ hkg⟩
          | some e =>
              obtain ⟨e3, app⟩ := e
              simp at h
      | null =>
          dsimp only at h
          rcases hti : treeInsert idx.unique idx.tree (some .null) d with ⟨t2, e2⟩
          rw [hti] at h
          injection h with h1 h2
          subst h1
          cases e2 with
          | none => exact ⟨rfl, rfl, rfl, (treeInsert_keys _ _ _ _ _ hti).1⟩
          | some e => simp at h2
      | boolean b =>
          dsimp only at h
          rcases hti : treeInsert idx.unique idx.tree (some (.boolean b)) d with ⟨t2, e2⟩
          rw [hti] at h
          injection h with h1 h2
          subst h1
          cases e2 with
          | none => exact ⟨rfl, rfl, rfl, (treeInsert_keys _ _ _ _ _ hti).1⟩
          | some e => simp at h2
      | num n =>
          dsimp only at h
          rcases hti : treeInsert idx.unique idx.tree (some (.num n)) d with ⟨t2, e2⟩
          rw [hti] at h
          injection h with h1 h2
          subst h1
          cases e2 with
          | none => exact ⟨rfl, rfl, rfl, (treeInsert_keys _ _ _ _ _ hti).1⟩
          | some e => simp at h2
      | str s =>
          dsimp only at h
          rcases hti : treeInsert idx.unique idx.tree (some (.str s)) d with ⟨t2, e2⟩
          rw [hti] at h
          injection h with h1 h2
          subst h1
          cases e2 with
          | none => exact ⟨rfl, rfl, rfl, (treeInsert_keys _ _ _ _ _ hti).1⟩
          | some e => simp at h2
      | date t =>
          dsimp only at h
          rcases hti : treeInsert idx.unique idx.tree (some (.date t)) d with ⟨t2, e2⟩
          rw [hti] at h
          injection h with h1 h2
          subst h1
          cases e2 with
          | none => exact ⟨rfl, rfl, rfl, (treeInsert_keys _ _ _ _ _ hti).1⟩
          | some e => simp at h2

theorem insertDoc_unique_dup (idx : Index) (d : Doc)
    (hu : idx.unique = true) (hsp : idx.sparse = false)
    (hk : keyOkB (getDotValue d idx.fieldName) = true ∨ getDotValue d idx.fieldName = none)
    (hmem : getDotValue d idx.fieldName ∈ idx.tree.map Prod.fst) :
    (idx.insertDoc d).2.isSome = true := by
  rcases hti : treeInsert idx.unique idx.tree (getDotValue d idx.fieldName) d with ⟨t2, e2⟩
  rw [insertDoc_scalar idx d hsp hk t2 e2 hti]
  have hdup := treeInsert_unique_dup idx.tree (getDotValue d idx.fieldName) d hmem
  rw [hu] at hti
  rw [hti] at hdup
  simp at hdup ⊢
  simp [hdup]

theorem insertDocsGo_append (xs : List Doc) :
    ∀ (ys : List Doc) (idx : Index) (acc : List Doc) (idx2 : Index),
      insertDocsGo idx acc (xs ++ ys) = (idx2, none) →
      ∃ idxm accm, insertDocsGo idx acc xs = (idxm, none) ∧
        insertDocsGo idxm accm ys = (idx2, none) := by
  induction xs with
  | nil =>
      intro ys idx acc idx2 h
      exact ⟨idx, acc, rfl, h⟩
  | cons d xs ih =>
      intro ys idx acc idx2 h
      rw [List.cons_append, insertDocsGo] at h
      rw [insertDocsGo]
      rcases hid : idx.insertDoc d with ⟨idx3, e3⟩
      rw [hid] at h
      cases e3 with
      | none => exact ih ys idx3 (acc ++ [d]) idx2 h
      | some e => simp at h

theorem insertDocsGo_mono (ds : List Doc) :
    ∀ (idx : Index) (acc : List Doc) (idx2 : Index),
      insertDocsGo idx acc ds = (idx2, none) →
      idx2.fieldName = idx.fieldName ∧ idx2.unique = idx.unique ∧ idx2.sparse = idx.sparse ∧
      ∀ k2 ∈ idx.tree.map Prod.fst, k2 ∈ idx2.tree.map Prod.fst := by
  induction ds with
  | nil =>
      intro idx acc idx2 h
      rw [insertDocsGo] at h
      injection h with h1 _
      subst h1
      exact ⟨rfl, rfl, rfl, fun k2 hk2 => hk2⟩
  | cons d ds ih =>
      intro idx acc idx2 h
      rw [insertDocsGo] at h
      rcases hid : idx.insertDoc d with ⟨idx3, e3⟩
      rw [hid] at h
      cases e3 with
      | none =>
          obtain ⟨hf3, hu3, hs3, hm3⟩ := insertDoc_mono idx idx3 d hid
          obtain ⟨hf2, hu2, hs2, hm2⟩ := ih idx3 (acc ++ [d]) idx2 h
          exact ⟨hf2.trans hf3, hu2.trans hu3, hs2.trans hs3,
            fun k2 hk2 => hm2 k2 (hm3 k2 hk2)⟩
      | some e => simp at h

theorem insertDocsGo_cons (idx : Index) (acc : List Doc) (d : Doc) (ds : List Doc)
    (idx2 : Index) (h : insertDocsGo idx acc (d :: ds) = (idx2, none)) :
    ∃ idx3, idx.insertDoc d = (idx3, none) ∧
      insertDocsGo idx3 (acc ++ [d]) ds = (idx2, none) := by
  rw [insertDocsGo] at h
  rcases hid : idx.insertDoc d with ⟨idx3, e3⟩
  rw [hid] at h
  cases e3 with
  | none => exact ⟨idx3, rfl, h⟩
  | some e => simp at h

theorem insertList_dup_fails (idx : Index) (l1 : List Doc) (d1 : Doc) (l2 : List Doc)
    (d2 : Doc) (l3 : List Doc)
    (hu : idx.unique = true) (hsp : idx.sparse = false)
    (heq : getDotValue d1 idx.fieldName = getDotValue d2 idx.fieldName)
    (hok : keyOkB (getDotValue d1 idx.fieldName) = true ∨
      getDotValue d1 idx.fieldName = none) :
    (idx.insertList (l1 ++ (d1 :: (l2 ++ (d2 :: l3))))).2.isSome = true := by
  rw [Index.insertList]
  rcases hgo : insertDocsGo idx [] (l1 ++ (d1 :: (l2 ++ (d2 :: l3)))) with ⟨idx2, e2⟩
  cases e2 with
  | some e => obtain ⟨e3, app⟩ := e; simp
  | none =>
      exfalso
      obtain ⟨idxA, accA, hA, hA2⟩ := insertDocsGo_append l1 (d1 :: l2 ++ d2 :: l3) idx [] idx2 hgo
      obtain ⟨hfA, huA, hsA, _⟩ := insertDocsGo_mono l1 idx [] idxA hA
      obtain ⟨idxB, hB, hB2⟩ := insertDocsGo_cons idxA accA d1 (l2 ++ d2 :: l3) idx2 hA2
      obtain ⟨hfB, huB, hsB, _⟩ := insertDoc_mono idxA idxB d1 hB
      have hkeyB : getDotValue d1 idx.fieldName ∈ idxB.tree.map Prod.fst := by
        have hkA : getDotValue d1 idxA.fieldName = getDotValue d1 idx.fieldName := by
          rw [hfA]
        have hokA : keyOkB (getDotValue d1 idxA.fieldName) = true ∨
            getDotValue d1 idxA.fieldName = none := by rw [hkA]; exact hok
        rcases hti : treeInsert idxA.unique idxA.tree (getDotValue d1 idxA.fieldName) d1
          with ⟨tB, eB⟩
        have hBeq := insertDoc_scalar idxA d1 (hsA.trans hsp) hokA tB eB hti
        rw [hB] at hBeq
        injection hBeq with hB1 hB2x
        have htr := treeInsert_keys idxA.unique idxA.tree (getDotValue d1 idxA.fieldName)
          d1 tB (by rw [hti, ← hB2x])
        have : idxB.tree = tB := by rw [hB1]
        rw [this, ← hkA]
        exact htr.2
      obtain ⟨idxC, accC, hC, hC2⟩ := insertDocsGo_append l2 (d2 :: l3) idxB (accA ++ [d1]) idx2 hB2
      obtain ⟨hfC, huC, hsC, hmC⟩ := insertDocsGo_mono l2 idxB _ idxC hC
      obtain ⟨idxD, hD, _⟩ := insertDocsGo_cons idxC accC d2 l3 idx2 hC2
      have hkeyC : getDotValue d2 idxC.fieldName ∈ idxC.tree.map Prod.fst := by
        rw [hfC, hfB, hfA, ← heq]
        exact hmC _ hkeyB
      have hokC : keyOkB (getDotValue d2 idxC.fieldName) = true ∨
          getDotValue d2 idxC.fieldName = none := by
        rw [hfC, hfB, hfA, ← heq]
        exact hok
      have := insertDoc_unique_dup idxC d2
        ((huC.trans huB).trans (huA.trans hu)) ((hsC.trans hsB).trans (hsA.trans hsp))
        hokC hkeyC
      rw [hD] at this
      simp at this

theorem ensureIndex_err_indexes (db : Datastore) (opts : IndexOptions) (db2 : Datastore)
    (e : DbError) (h : db.ensureIndex opts = (db2, some e)) : db2.indexes = db.indexes := by
  rw [Datastore.ensureIndex] at h
  cases hfn : opts.fieldName with
  | none =>
      rw [hfn] at h
      injection h with h1 _
      rw [← h1]
  | some fn =>
      rw [hfn] at h
      dsimp only at h
      by_cases hemp : fn = ""
      · rw [if_pos hemp] at h
        injection h with h1 _
        rw [← h1]
      · rw [if_neg hemp] at h
        by_cases hex : (db.indexes.lookup fn).isSome = true
        · rw [if_pos hex] at h
          injection h with _ h2
          cases h2
        · rw [if_neg hex] at h
          rcases hins : (Index.mkIndex fn opts.unique opts.sparse).insertList db.getAllData
            with ⟨idx3, e3⟩
          rw [hins] at h
          cases e3 with
          | none =>
              injection h with _ h2
              cases h2
          | some e4 =>
              injection h with h1 _
              rw [← h1]
              exact eraseAssoc_setAssoc_of_lookup_none db.indexes fn _
                (Option.not_isSome_iff_eq_none.mp hex)

/-- C9: ensureIndex failure modes.  (1)/(2) A call without a field name
(absent or empty, both falsy) fails with the missing-field-name error and
leaves the store untouched.  (3) Any failing call leaves the `indexes`
mapping exactly as it was — in particular the violated new index is deleted
again.  (4) Creating a unique index on a field where two stored documents
hold an equal scalar (or equally missing) value fails, and `indexes` is
unchanged. -/
theorem ensureIndex_failures :
    (∀ (db : Datastore) (opts : IndexOptions), opts.fieldName = none →
        db.ensureIndex opts = (db, some DbError.missingFieldName)) ∧
    (∀ (db : Datastore) (opts : IndexOptions), opts.fieldName = some "" →
        db.ensureIndex opts = (db, some DbError.missingFieldName)) ∧
    (∀ (db : Datastore) (opts : IndexOptions) (db2 : Datastore) (e : DbError),
        db.ensureIndex opts = (db2, some e) → db2.indexes = db.indexes) ∧
    (∀ (db : Datastore) (opts : IndexOptions) (fn : String) (l1 : List Doc) (d1 : Doc)
        (l2 : List Doc) (d2 : Doc) (l3 : List Doc),
        opts.fieldName = some fn → fn ≠ "" → db.indexes.lookup fn = none →
        opts.unique = true → opts.sparse = false →
        db.getAllData = l1 ++ (d1 :: (l2 ++ (d2 :: l3))) →
        getDotValue d1 fn = getDotValue d2 fn →
        (keyOkB (getDotValue d1 fn) = true ∨ getDotValue d1 fn = none) →
        (db.ensureIndex opts).2.isSome = true ∧
          (db.ensureIndex opts).1.indexes = db.indexes) := by
  refine ⟨?_, ?_, ?_, ?_⟩
  · intro db opts h
    rw [Datastore.ensureIndex, h]
  · intro db opts h
    rw [Datastore.ensureIndex, h]
    dsimp only
    rw [if_pos rfl]
  · exact ensureIndex_err_indexes
  · intro db opts fn l1 d1 l2 d2 l3 hfn hemp hlk hu hsp hdata heq hok
    have hnex : ¬ ((db.indexes.lookup fn).isSome = true) := by
      rw [hlk]
      simp
    have hfail := insertList_dup_fails (Index.mkIndex fn opts.unique opts.sparse)
      l1 d1 l2 d2 l3 hu hsp heq hok
    rw [← hdata] at hfail
    rcases hins : (Index.mkIndex fn opts.unique opts.sparse).insertList db.getAllData
      with ⟨idx3, e3⟩
    rw [hins] at hfail
    cases e3 with
    | none => simp at hfail
    | some e4 =>
        constructor
        · rw [Datastore.ensureIndex, hfn]
          dsimp only
          rw [if_neg hemp, if_neg hnex, hins]
          rfl
        · rw [Datastore.ensureIndex, hfn]
          dsimp only
          rw [if_neg hemp, if_neg hnex, hins]
          exact eraseAssoc_setAssoc_of_lookup_none db.indexes fn _ hlk

/-- C9 witness: `ensureIndex` with a unique index on `line` over a store
holding two documents with equal `line` values fails and leaves `indexes`
unchanged. -/
theorem ensureIndex_failures_witness :
    (Datastore.getAllData
        ⟨[("_id", ⟨"_id", true, false,
            [(some (Value.str "1"), [[("_id", Value.str "1"), ("line", Value.num 1)]]),
             (some (Value.str "2"), [[("_id", Value.str "2"), ("line", Value.num 1)]])]⟩)],
          [], [], false⟩ =
        [] ++ ([("_id", Value.str "1"), ("line", Value.num 1)] ::
          ([] ++ ([("_id", Value.str "2"), ("line", Value.num 1)] :: []))) ∧
      getDotValue [("_id", Value.str "1"), ("line", Value.num 1)] "line" =
        getDotValue [("_id", Value.str "2"), ("line", Value.num 1)] "line") ∧
    (Datastore.ensureIndex
        ⟨[("_id", ⟨"_id", true, false,
            [(some (Value.str "1"), [[("_id", Value.str "1"), ("line", Value.num 1)]]),
             (some (Value.str "2"), [[("_id", Value.str "2"), ("line", Value.num 1)]])]⟩)],
          [], [], false⟩ ⟨some "line", true, false, none⟩).2.isSome = true ∧
      (Datastore.ensureIndex
        ⟨[("_id", ⟨"_id", true, false,
            [(some (Value.str "1"), [[("_id", Value.str "1"), ("line", Value.num 1)]]),
             (some (Value.str "2"), [[("_id", Value.str "2"), ("line", Value.num 1)]])]⟩)],
          [], [], false⟩ ⟨some "line", true, false, none⟩).1.indexes =
        (⟨[("_id", ⟨"_id", true, false,
            [(some (Value.str "1"), [[("_id", Value.str "1"), ("line", Value.num 1)]]),
             (some (Value.str "2"), [[("_id", Value.str "2"), ("line", Value.num 1)]])]⟩)],
          [], [], false⟩ : Datastore).indexes := by
  refine ⟨⟨by decide, by decide⟩, ?_⟩
  exact ensureIndex_failures.2.2.2 _ ⟨some "line", true, false, none⟩ "line"
    [] [("_id", Value.str "1"), ("line", Value.num 1)]
    [] [("_id", Value.str "2"), ("line", Value.num 1)] []
    rfl (by decide) (by decide) rfl rfl (by decide) (by decide) (Or.inl (by decide))

/-! ### C4: upsert -/

theorem treeInsert_unique_fresh (t : Tree) (k : Key) (d : Doc) (t2 : Tree)
    (h : treeInsert true t k d = (t2, none)) : t2 = t ++ [(k, [d])] := by
  induction t generalizing t2 with
  | nil =>
      rw [treeInsert] at h
      injection h with h1 _
      rw [← h1]
      rfl
  | cons p rest ih =>
      obtain ⟨k0, ds⟩ := p
      rw [treeInsert] at h
      by_cases hkk : k0 = k
      · rw [if_pos hkk] at h
        simp at h
      · rw [if_neg hkk] at h
        rcases hrec : treeInsert true rest k d with ⟨rest2, e2⟩
        rw [hrec] at h
        injection h with h1 h2
        subst h2
        rw [← h1, ih rest2 hrec]
        rfl

theorem addToIndexesGo_success (d : Doc) :
    ∀ (l : List (String × Index)) (acc res : List (String × Index)),
      addToIndexesGo d acc l = (res, none) →
      res = acc ++ l.map (fun p => (p.1, (p.2.insertDoc d).1)) ∧
      ∀ p ∈ l, (p.2.insertDoc d).2 = none := by
  intro l
  induction l with
  | nil =>
      intro acc res h
      rw [addToIndexesGo] at h
      injection h with h1 _
      subst h1
      simp
  | cons p rest ih =>
      intro acc res h
      obtain ⟨f, idx⟩ := p
      rw [addToIndexesGo] at h
      rcases hid : idx.insertDoc d with ⟨idx2, e2⟩
      rw [hid] at h
      cases e2 with
      | none =>
          obtain ⟨hres, hall⟩ := ih (acc ++ [(f, idx2)]) res h
          constructor
          · rw [hres, List.map_cons, List.append_assoc]
            simp [hid]
          · intro p2 hp2
            rcases List.mem_cons.mp hp2 with h2 | h2
            · rw [h2]
              simp [hid]
            · exact hall p2 h2
      | some e => simp at h

theorem lookup_insertDoc_map (l : List (String × Index)) (d : Doc) (k : String) :
    (l.map (fun p => (p.1, (p.2.insertDoc d).1))).lookup k =
      (l.lookup k).map (fun i => (i.insertDoc d).1) := by
  induction l with
  | nil => rfl
  | cons p rest ih =>
      obtain ⟨k0, v0⟩ := p
      by_cases h : k = k0
      · subst h
        simp [List.lookup]
      · simp [List.lookup, beq_false_of_ne h, ih]

theorem treeGetAll_append (t1 t2 : Tree) :
    treeGetAll (t1 ++ t2) = treeGetAll t1 ++ treeGetAll t2 := by
  simp [treeGetAll]

theorem getAllData_eq (db : Datastore) (idx : Index)
    (h : db.indexes.lookup "_id" = some idx) : db.getAllData = treeGetAll idx.tree := by
  unfold Datastore.getAllData
  rw [h]
  rfl

theorem insertModel_success_getAllData (db1 : Datastore) (freshId : Value) (now : Int)
    (tbi : Doc) (db2 : Datastore) (nd : Doc)
    (hins : db1.insertModel freshId now tbi = (db2, .ok nd))
    (idx0 : Index) (hid : db1.indexes.lookup "_id" = some idx0)
    (hq : idx0.unique = true) (hfn0 : idx0.fieldName = "_id") (hsp0 : idx0.sparse = false)
    (hidok : keyOkB (getDotValue nd "_id") = true ∨ getDotValue nd "_id" = none) :
    nd = (db1.prepareDocumentForInsertion freshId now tbi).1 ∧
    db2.getAllData = db1.getAllData ++ [nd] := by
  rw [Datastore.insertModel] at hins
  rcases hprep : db1.prepareDocumentForInsertion freshId now tbi with ⟨prep, echk⟩
  rw [hprep] at hins
  cases echk with
  | some e => simp at hins
  | none =>
      dsimp only at hins
      rcases hadd : db1.addToIndexes prep with ⟨dbA, eadd⟩
      rw [hadd] at hins
      cases eadd with
      | some e => simp at hins
      | none =>
          injection hins with h1 h2
          injection h2 with h2
          subst h2
          constructor
          · rfl
          · rw [← h1]
            have hlog : Datastore.getAllData { dbA with
                committedLog := dbA.committedLog ++ [LogEntry.docLine prep] } =
                dbA.getAllData := rfl
            rw [hlog]
            rw [Datastore.addToIndexes] at hadd
            rcases hgo : addToIndexesGo prep [] db1.indexes with ⟨idxs, ego⟩
            rw [hgo] at hadd
            injection hadd with hA1 hA2
            subst hA2
            obtain ⟨hres, hall⟩ := addToIndexesGo_success prep db1.indexes [] idxs hgo
            have hsucc : (idx0.insertDoc prep).2 = none :=
              hall ("_id", idx0) (mem_of_lookup_eq_some _ _ _ hid)
            rcases hti : treeInsert idx0.unique idx0.tree (getDotValue prep idx0.fieldName)
              prep with ⟨tN, eN⟩
            have hsc := insertDoc_scalar idx0 prep hsp0 (by rw [hfn0]; exact hidok) tN eN hti
            have heN : eN = none := by
              rw [hsc] at hsucc
              exact hsucc
            subst heN
            rw [hq] at hti
            have htN := treeInsert_unique_fresh idx0.tree _ prep tN hti
            rw [← hA1, hres]
            simp only [List.nil_append]
            have hlk2 : (({ db1 with
                indexes := db1.indexes.map (fun p => (p.1, (p.2.insertDoc prep).1)) } :
                  Datastore)).indexes.lookup "_id" = some ((idx0.insertDoc prep).1) := by
              show (db1.indexes.map (fun p => (p.1, (p.2.insertDoc prep).1))).lookup "_id" = _
              rw [lookup_insertDoc_map, hid]
              rfl
            rw [getAllData_eq _ _ hlk2, getAllData_eq db1 idx0 hid, hsc]
            show treeGetAll tN = treeGetAll idx0.tree ++ [prep]
            rw [htN, treeGetAll_append]
            simp [treeGetAll]

/-- C4 counterexample: an upsert whose query matches nothing but whose
synthesized document violates a unique constraint inserts nothing and
reports a failure, contradicting the claim's unconditional "exactly one new
document is inserted". -/
theorem upsert_insert_failure_counterexample :
    (cursorExec
        ⟨[("_id", ⟨"_id", true, false,
            [(some (Value.str "1"), [[("_id", Value.str "1"), ("a", Value.num 1)]])]⟩),
          ("a", ⟨"a", true, false,
            [(some (Value.num 1), [[("_id", Value.str "1"), ("a", Value.num 1)]])]⟩)],
          [], [], false⟩
        [("b", QueryVal.scalar (Value.num 2))] ⟨some 1, none, none⟩ 0).2 = [] ∧
    Datastore.updateModel
        ⟨[("_id", ⟨"_id", true, false,
            [(some (Value.str "1"), [[("_id", Value.str "1"), ("a", Value.num 1)]])]⟩),
          ("a", ⟨"a", true, false,
            [(some (Value.num 1), [[("_id", Value.str "1"), ("a", Value.num 1)]])]⟩)],
          [], [], false⟩
        [("b", QueryVal.scalar (Value.num 2))] [UpdateKV.plain "a" (Value.num 1)]
        false true (Value.str "2") 0 =
      (⟨[("_id", ⟨"_id", true, false,
            [(some (Value.str "1"), [[("_id", Value.str "1"), ("a", Value.num 1)]])]⟩),
          ("a", ⟨"a", true, false,
            [(some (Value.num 1), [[("_id", Value.str "1"), ("a", Value.num 1)]])]⟩)],
          [], [], false⟩,
        UpdateResult.failed (DbError.uniqueViolated (some (Value.num 1)))) := by
  constructor
  · decide
  · decide

/-- C4 (amended): an upsert whose limit-1 probe finds no match synthesizes
the document to insert — the update query itself (as a document) when the
update query passes the object check (no operators), otherwise the update
operators applied to the query stripped of operator keys — inserts it, and
reports `(1, newDoc, upsert)`; the stored set grows by exactly that one
prepared document (prepared = `_id`/timestamps added).  This holds only when
the insert itself succeeds: a constraint violation makes the call fail with
nothing inserted. -/
theorem upsert_inserts_one :
    (∀ (db db1 : Datastore) (q : Query) (uq : UpdateQuery) (multi : Bool)
        (freshId : Value) (now : Int) (db2 : Datastore) (nd : Doc) (idx0 : Index),
      cursorExec db q ⟨some 1, none, none⟩ now = (db1, []) →
      checkUpdateQuery uq = none →
      db1.insertModel freshId now (updateQueryAsDoc uq) = (db2, .ok nd) →
      db1.indexes.lookup "_id" = some idx0 → idx0.unique = true →
      idx0.fieldName = "_id" → idx0.sparse = false →
      (keyOkB (getDotValue nd "_id") = true ∨ getDotValue nd "_id" = none) →
      db.updateModel q uq multi true freshId now = (db2, .upserted 1 nd) ∧
        nd = (db1.prepareDocumentForInsertion freshId now (updateQueryAsDoc uq)).1 ∧
        db2.getAllData = db1.getAllData ++ [nd]) ∧
    (∀ (db db1 : Datastore) (q : Query) (uq : UpdateQuery) (multi : Bool)
        (freshId : Value) (now : Int) (db2 : Datastore) (nd tbi : Doc) (idx0 : Index)
        (e0 : DbError),
      cursorExec db q ⟨some 1, none, none⟩ now = (db1, []) →
      checkUpdateQuery uq = some e0 →
      modifyDoc (stripQuery q) uq = .ok tbi →
      db1.insertModel freshId now tbi = (db2, .ok nd) →
      db1.indexes.lookup "_id" = some idx0 → idx0.unique = true →
      idx0.fieldName = "_id" → idx0.sparse = false →
      (keyOkB (getDotValue nd "_id") = true ∨ getDotValue nd "_id" = none) →
      db.updateModel q uq multi true freshId now = (db2, .upserted 1 nd) ∧
        nd = (db1.prepareDocumentForInsertion freshId now tbi).1 ∧
        db2.getAllData = db1.getAllData ++ [nd]) := by
  constructor
  · intro db db1 q uq multi freshId now db2 nd idx0 hcur hchk hins hid hq hfn0 hsp0 hidok
    obtain ⟨hnd, hgrow⟩ := insertModel_success_getAllData db1 freshId now
      (updateQueryAsDoc uq) db2 nd hins idx0 hid hq hfn0 hsp0 hidok
    refine ⟨?_, hnd, hgrow⟩
    simp only [Datastore.updateModel, hcur]
    norm_num
    rw [hchk]
    dsimp only
    rw [hins]
  · intro db db1 q uq multi freshId now db2 nd tbi idx0 e0 hcur hchk hmod hins hid hq
      hfn0 hsp0 hidok
    obtain ⟨hnd, hgrow⟩ := insertModel_success_getAllData db1 freshId now
      tbi db2 nd hins idx0 hid hq hfn0 hsp0 hidok
    refine ⟨?_, hnd, hgrow⟩
    simp only [Datastore.updateModel, hcur]
    norm_num
    rw [hchk]
    dsimp only
    rw [hmod]
    dsimp only
    rw [hins]

/-- C4 witness: an upsert into an empty store with update query
`\x7b x: 7 \x7d` inserts exactly the one document `\x7b x: 7, _id \x7d` and
reports it as an upsert. -/
theorem upsert_inserts_one_witness :
    Datastore.updateModel ⟨[("_id", ⟨"_id", true, false, []⟩)], [], [], false⟩
        [] [UpdateKV.plain "x" (Value.num 7)] false true (Value.str "1") 0 =
      (⟨[("_id", ⟨"_id", true, false,
          [(some (Value.str "1"), [[("x", Value.num 7), ("_id", Value.str "1")]])]⟩)],
          [], [LogEntry.docLine [("x", Value.num 7), ("_id", Value.str "1")]], false⟩,
        UpdateResult.upserted 1 [("x", Value.num 7), ("_id", Value.str "1")]) ∧
    Datastore.getAllData
        (⟨[("_id", ⟨"_id", true, false,
          [(some (Value.str "1"), [[("x", Value.num 7), ("_id", Value.str "1")]])]⟩)],
          [], [LogEntry.docLine [("x", Value.num 7), ("_id", Value.str "1")]], false⟩) =
      Datastore.getAllData ⟨[("_id", ⟨"_id", true, false, []⟩)], [], [], false⟩ ++
        [[("x", Value.num 7), ("_id", Value.str "1")]] := by
  have h := upsert_inserts_one.1 ⟨[("_id", ⟨"_id", true, false, []⟩)], [], [], false⟩
    ⟨[("_id", ⟨"_id", true, false, []⟩)], [], [], false⟩
    [] [UpdateKV.plain "x" (Value.num 7)] false (Value.str "1") 0
    ⟨[("_id", ⟨"_id", true, false,
        [(some (Value.str "1"), [[("x", Value.num 7), ("_id", Value.str "1")]])]⟩)],
      [], [LogEntry.docLine [("x", Value.num 7), ("_id", Value.str "1")]], false⟩
    [("x", Value.num 7), ("_id", Value.str "1")]
    ⟨"_id", true, false, []⟩
    (by decide) rfl rfl rfl rfl rfl rfl (Or.inl (by decide))
  exact ⟨h.1, h.2.2⟩

/-! ### C1: rollback transactionality -/

theorem treeInsert_err_exact (u : Bool) (t : Tree) (k : Key) (d : Doc) (t2 : Tree)
    (e : DbError) (h : treeInsert u t k d = (t2, some e)) : t2 = t := by
  induction t generalizing t2 with
  | nil =>
      rw [treeInsert] at h
      simp at h
  | cons p rest ih =>
      obtain ⟨k0, ds⟩ := p
      rw [treeInsert] at h
      by_cases hkk : k0 = k
      · rw [if_pos hkk] at h
        cases hu : u with
        | true =>
            rw [hu] at h
            simp only [if_pos rfl] at h
            injection h with h1 _
            rw [← h1]
        | false =>
            rw [hu] at h
            simp at h
      · rw [if_neg hkk] at h
        rcases hrec : treeInsert u rest k d with ⟨rest2, e2⟩
        rw [hrec] at h
        injection h with h1 h2
        rw [← h1, ih rest2 (by rw [hrec, h2])]

theorem treeInsert_false_ok (t : Tree) (k : Key) (d : Doc) :
    (treeInsert false t k d).2 = none := by
  induction t with
  | nil => rfl
  | cons p rest ih =>
      obtain ⟨k0, ds⟩ := p
      rw [treeInsert]
      by_cases hkk : k0 = k
      · rw [if_pos hkk]
        simp
      · rw [if_neg hkk]
        rcases hrec : treeInsert false rest k d with ⟨rest2, e2⟩
        rw [hrec] at ih
        simpa [hrec] using ih

theorem insertKeysGo_false_ok (d : Doc) :
    ∀ (ks : List Value) (t : Tree) (app : List Value),
      (insertKeysGo false d t app ks).2 = none := by
  intro ks
  induction ks with
  | nil => intro t app; rfl
  | cons k ks ih =>
      intro t app
      rw [insertKeysGo]
      rcases hti : treeInsert false t (some k) d with ⟨t2, e2⟩
      have := treeInsert_false_ok t (some k) d
      rw [hti] at this
      dsimp only at this
      subst this
      exact ih t2 (app ++ [k])

theorem insertDoc_false_ok (idx : Index) (d : Doc) (hu : idx.unique = false) :
    (idx.insertDoc d).2 = none := by
  rw [Index.insertDoc]
  by_cases hskip : getDotValue d idx.fieldName = none ∧ idx.sparse = true
  · rw [if_pos hskip]
  · rw [if_neg hskip]
    rcases hl : getDotValue d idx.fieldName with _ | v
    · dsimp only
      rcases hti : treeInsert idx.unique idx.tree none d with ⟨t2, e2⟩
      have := treeInsert_false_ok idx.tree none d
      rw [← hu, hti] at this
      dsimp only at this
      subst this
      simp [hti]
    · cases v with
      | arr l =>
          dsimp only
          rcases hkg : insertKeysGo idx.unique d idx.tree [] (uniqBy projectForUnique l)
            with ⟨t2, e2⟩
          have := insertKeysGo_false_ok d (uniqBy projectForUnique l) idx.tree []
          rw [← hu, hkg] at this
          dsimp only at this
          subst this
          simp [hkg]
      | null =>
          dsimp only
          rcases hti : treeInsert idx.unique idx.tree (some .null) d with ⟨t2, e2⟩
          have := treeInsert_false_ok idx.tree (some .null) d
          rw [← hu, hti] at this
          dsimp only at this
          subst this
          simp [hti]
      | boolean b =>
          dsimp only
          rcases hti : treeInsert idx.unique idx.tree (some (.boolean b)) d with ⟨t2, e2⟩
          have := treeInsert_false_ok idx.tree (some (.boolean b)) d
          rw [← hu, hti] at this
          dsimp only at this
          subst this
          simp [hti]
      | num n =>
          dsimp only
          rcases hti : treeInsert idx.unique idx.tree (some (.num n)) d with ⟨t2, e2⟩
          have := treeInsert_false_ok idx.tree (some (.num n)) d
          rw [← hu, hti] at this
          dsimp only at this
          subst this
          simp [hti]
      | str s =>
          dsimp only
          rcases hti : treeInsert idx.unique idx.tree (some (.str s)) d with ⟨t2, e2⟩
          have := treeInsert_false_ok idx.tree (some (.str s)) d
          rw [← hu, hti] at this
          dsimp only at this
          subst this
          simp [hti]
      | date tt =>
          dsimp only
          rcases hti : treeInsert idx.unique idx.tree (some (.date tt)) d with ⟨t2, e2⟩
          have := treeInsert_false_ok idx.tree (some (.date tt)) d
          rw [← hu, hti] at this
          dsimp only at this
          subst this
          simp [hti]

theorem treeInsert_true_fresh_key (t : Tree) (k : Key) (d : Doc) (t2 : Tree)
    (h : treeInsert true t k d = (t2, none)) : k ∉ t.map Prod.fst := by
  intro hk
  have := treeInsert_unique_dup t k d hk
  rw [h] at this
  simp at this

theorem treeDelete_appended (t : Tree) (k : Key) (d : Doc) (r : Tree)
    (hk : k ∉ t.map Prod.fst) : treeDelete (t ++ (k, [d]) :: r) k d = t ++ r := by
  induction t with
  | nil =>
      rw [List.nil_append, treeDelete, if_pos rfl]
      simp
  | cons p rest ih =>
      obtain ⟨k0, ds⟩ := p
      rw [List.map_cons, List.mem_cons] at hk
      push_neg at hk
      rw [List.cons_append, treeDelete, if_neg (fun hc => hk.1 hc.symm)]
      rw [ih hk.2]
      rfl

theorem insertKeysGo_true_success (d : Doc) :
    ∀ (ks : List Value) (t : Tree) (app : List Value) (t2 : Tree),
      insertKeysGo true d t app ks = (t2, none) →
      t2 = t ++ ks.map (fun k => ((some k : Key), [d])) ∧
      (∀ k ∈ ks, (some k : Key) ∉ t.map Prod.fst) ∧ ks.Nodup := by
  intro ks
  induction ks with
  | nil =>
      intro t app t2 h
      rw [insertKeysGo] at h
      injection h with h1 _
      subst h1
      simp
  | cons k ks ih =>
      intro t app t2 h
      rw [insertKeysGo] at h
      rcases hti : treeInsert true t (some k) d with ⟨t3, e3⟩
      rw [hti] at h
      cases e3 with
      | some e => simp at h
      | none =>
          obtain ⟨h2, hfresh, hnd⟩ := ih t3 (app ++ [k]) t2 h
          have ht3 := treeInsert_unique_fresh t (some k) d t3 hti
          have hkf := treeInsert_true_fresh_key t (some k) d t3 hti
          subst ht3
          refine ⟨?_, ?_, ?_⟩
          · rw [h2, List.append_assoc]
            rfl
          · intro k2 hk2
            rcases List.mem_cons.mp hk2 with h3 | h3
            · rw [h3]
              exact hkf
            · exact fun hc => hfresh k2 h3
                (by rw [List.map_append]; exact List.mem_append_left _ hc)
          · rw [List.nodup_cons]
            refine ⟨fun hc => ?_, hnd⟩
            have := hfresh k hc
            rw [List.map_append] at this
            exact this (List.mem_append_right _ (by simp))

theorem insertKeysGo_true_err (d : Doc) :
    ∀ (ks : List Value) (t : Tree) (app : List Value) (t2 : Tree) (e : DbError)
      (applied : List Value),
      insertKeysGo true d t app ks = (t2, some (e, applied)) →
      ∃ ks2, applied = app ++ ks2 ∧
        t2 = t ++ ks2.map (fun k => ((some k : Key), [d])) ∧
        (∀ k ∈ ks2, (some k : Key) ∉ t.map Prod.fst) ∧ ks2.Nodup := by
  intro ks
  induction ks with
  | nil =>
      intro t app t2 e applied h
      rw [insertKeysGo] at h
      simp at h
  | cons k ks ih =>
      intro t app t2 e applied h
      rw [insertKeysGo] at h
      rcases hti : treeInsert true t (some k) d with ⟨t3, e3⟩
      rw [hti] at h
      cases e3 with
      | some e2 =>
          injection h with h1 h2
          injection h2 with h2
          injection h2 with h2a h2b
          refine ⟨[], by rw [← h2b]; simp, ?_, by simp, by simp⟩
          rw [← h1, treeInsert_err_exact true t (some k) d t3 e2 (by rw [hti, h2a])]
          simp
      | none =>
          obtain ⟨ks2, happ, h2, hfresh, hnd⟩ := ih t3 (app ++ [k]) t2 e applied h
          have ht3 := treeInsert_unique_fresh t (some k) d t3 hti
          have hkf := treeInsert_true_fresh_key t (some k) d t3 hti
          subst ht3
          refine ⟨k :: ks2, by rw [happ, List.append_assoc]; rfl, ?_, ?_, ?_⟩
          · rw [h2, List.append_assoc]
            rfl
          · intro k2 hk2
            rcases List.mem_cons.mp hk2 with h3 | h3
            · rw [h3]
              exact hkf
            · exact fun hc => hfresh k2 h3
                (by rw [List.map_append]; exact List.mem_append_left _ hc)
          · rw [List.nodup_cons]
            refine ⟨fun hc => ?_, hnd⟩
            have := hfresh k hc
            rw [List.map_append] at this
            exact this (List.mem_append_right _ (by simp))

theorem block_foldl_delete (d : Doc) :
    ∀ (ks : List Key) (t0 r : Tree),
      (∀ k ∈ ks, k ∉ t0.map Prod.fst) → ks.Nodup →
      ks.foldl (fun t k => treeDelete t k d) (t0 ++ ks.map (fun k => (k, [d])) ++ r) =
        t0 ++ r := by
  intro ks
  induction ks with
  | nil =>
      intro t0 r _ _
      simp
  | cons k ks ih =>
      intro t0 r hfresh hnd
      rw [List.nodup_cons] at hnd
      rw [List.map_cons, List.foldl_cons]
      have hstep : treeDelete (t0 ++ ((k, [d]) :: ks.map (fun k2 => (k2, [d]))) ++ r) k d =
          t0 ++ (ks.map (fun k2 => (k2, [d])) ++ r) := by
        have := treeDelete_appended t0 k d (ks.map (fun k2 => (k2, [d])) ++ r)
          (hfresh k (List.mem_cons_self _ _))
        rw [← this]
        simp
      rw [hstep]
      have := ih t0 r (fun k2 hk2 => hfresh k2 (List.mem_cons_of_mem _ hk2)) hnd.2
      rw [List.append_assoc] at this
      exact this

theorem docKeys_tree_irrel (idx : Index) (d : Doc) (t : Tree) :
    Index.docKeys { idx with tree := t } d = idx.docKeys d := rfl

theorem removeDoc_eq_foldl (idx : Index) (d : Doc) :
    idx.removeDoc d =
      { idx with tree := (idx.docKeys d).foldl (fun t k => treeDelete t k d) idx.tree } := by
  rw [Index.removeDoc, Index.docKeys]
  by_cases hskip : getDotValue d idx.fieldName = none ∧ idx.sparse = true
  · rw [if_pos hskip, if_pos hskip]
    rfl
  · rw [if_neg hskip, if_neg hskip]
    rcases hl : getDotValue d idx.fieldName with _ | v
    · rfl
    · cases v with
      | arr l =>
          dsimp only
          rw [List.foldl_map]
      | null => rfl
      | boolean b => rfl
      | num n => rfl
      | str s => rfl
      | date t => rfl

theorem insertDoc_true_success (idx : Index) (d : Doc) (idx2 : Index)
    (hu : idx.unique = true) (h : idx.insertDoc d = (idx2, none)) :
    idx2 = { idx with tree := idx.tree ++ (idx.docKeys d).map (fun k => (k, [d])) } ∧
    (∀ k ∈ idx.docKeys d, k ∉ idx.tree.map Prod.fst) ∧ (idx.docKeys d).Nodup := by
  rw [Index.insertDoc] at h
  rw [Index.docKeys]
  by_cases hskip : getDotValue d idx.fieldName = none ∧ idx.sparse = true
  · rw [if_pos hskip] at h ⊢
    injection h with h1 _
    subst h1
    refine ⟨by simp, by simp, by simp⟩
  · rw [if_neg hskip] at h ⊢
    rcases hl : getDotValue d idx.fieldName with _ | v
    · rw [hl] at h
      dsimp only at h ⊢
      rcases hti : treeInsert idx.unique idx.tree none d with ⟨t2, e2⟩
      rw [hti] at h
      injection h with h1 h2
      subst h1
      cases e2 with
      | some e => simp at h2
      | none =>
          rw [hu] at hti
          refine ⟨?_, ?_, by simp⟩
          · rw [treeInsert_unique_fresh idx.tree none d t2 hti]
            rfl
          · intro k hk
            rw [List.mem_singleton] at hk
            subst hk
            exact treeInsert_true_fresh_key idx.tree none d t2 hti
    · cases v with
      | arr l =>
          rw [hl] at h
          dsimp only at h ⊢
          rcases hkg : insertKeysGo idx.unique d idx.tree [] (uniqBy projectForUnique l)
            with ⟨t2, e2⟩
          rw [hkg] at h
          cases e2 with
          | some e =>
              obtain ⟨e3, app⟩ := e
              simp at h
          | none =>
              injection h with h1 _
              subst h1
              rw [hu] at hkg
              obtain ⟨h2, hfresh, hnd⟩ :=
                insertKeysGo_true_success d (uniqBy projectForUnique l) idx.tree [] t2 hkg
              refine ⟨?_, ?_, ?_⟩
              · rw [h2, List.map_map]
                rfl
              · intro k hk
                rw [List.mem_map] at hk
                obtain ⟨v2, hv2, hkv⟩ := hk
                subst hkv
                exact hfresh v2 hv2
              · exact hnd.map (fun a b => by simp)
      | null =>
          rw [hl] at h
          dsimp only at h ⊢
          rcases hti : treeInsert idx.unique idx.tree (some .null) d with ⟨t2, e2⟩
          rw [hti] at h
          injection h with h1 h2
          subst h1
          cases e2 with
          | some e => simp at h2
          | none =>
              rw [hu] at hti
              refine ⟨?_, ?_, by simp⟩
              · rw [treeInsert_unique_fresh idx.tree _ d t2 hti]
                rfl
              · intro k hk
                rw [List.mem_singleton] at hk
                subst hk
                exact treeInsert_true_fresh_key idx.tree _ d t2 hti
      | boolean b =>
          rw [hl] at h
          dsimp only at h ⊢
          rcases hti : treeInsert idx.unique idx.tree (some (.boolean b)) d with ⟨t2, e2⟩
          rw [hti] at h
          injection h with h1 h2
          subst h1
          cases e2 with
          | some e => simp at h2
          | none =>
              rw [hu] at hti
              refine ⟨?_, ?_, by simp⟩
              · rw [treeInsert_unique_fresh idx.tree _ d t2 hti]
                rfl
              · intro k hk
                rw [List.mem_singleton] at hk
                subst hk
                exact treeInsert_true_fresh_key idx.tree _ d t2 hti
      | num n =>
          rw [hl] at h
          dsimp only at h ⊢
          rcases hti : treeInsert idx.unique idx.tree (some (.num n)) d with ⟨t2, e2⟩
          rw [hti] at h
          injection h with h1 h2
          subst h1
          cases e2 with
          | some e => simp at h2
          | none =>
              rw [hu] at hti
              refine ⟨?_, ?_, by simp⟩
              · rw [treeInsert_unique_fresh idx.tree _ d t2 hti]
                rfl
              · intro k hk
                rw [List.mem_singleton] at hk
                subst hk
                exact treeInsert_true_fresh_key idx.tree _ d t2 hti
      | str s =>
          rw [hl] at h
          dsimp only at h ⊢
          rcases hti : treeInsert idx.unique idx.tree (some (.str s)) d with ⟨t2, e2⟩
          rw [hti] at h
          injection h with h1 h2
          subst h1
          cases e2 with
          | some e => simp at h2
          | none =>
              rw [hu] at hti
              refine ⟨?_, ?_, by simp⟩
              · rw [treeInsert_unique_fresh idx.tree _ d t2 hti]
                rfl
              · intro k hk
                rw [List.mem_singleton] at hk
                subst hk
                exact treeInsert_true_fresh_key idx.tree _ d t2 hti
      | date tt =>
          rw [hl] at h
          dsimp only at h ⊢
          rcases hti : treeInsert idx.unique idx.tree (some (.date tt)) d with ⟨t2, e2⟩
          rw [hti] at h
          injection h with h1 h2
          subst h1
          cases e2 with
          | some e => simp at h2
          | none =>
              rw [hu] at hti
              refine ⟨?_, ?_, by simp⟩
              · rw [treeInsert_unique_fresh idx.tree _ d t2 hti]
                rfl
              · intro k hk
                rw [List.mem_singleton] at hk
                subst hk
                exact treeInsert_true_fresh_key idx.tree _ d t2 hti

theorem insertDoc_err_exact (idx : Index) (d : Doc) (idx2 : Index) (e : DbError)
    (h : idx.insertDoc d = (idx2, some e)) : idx2 = idx := by
  cases hu : idx.unique with
  | false =>
      have := insertDoc_false_ok idx d hu
      rw [h] at this
      simp at this
  | true =>
      rw [Index.insertDoc] at h
      by_cases hskip : getDotValue d idx.fieldName = none ∧ idx.sparse = true
      · rw [if_pos hskip] at h
        simp at h
      · rw [if_neg hskip] at h
        rcases hl : getDotValue d idx.fieldName with _ | v
        · rw [hl] at h
          dsimp only at h
          rcases hti : treeInsert idx.unique idx.tree none d with ⟨t2, e2⟩
          rw [hti] at h
          injection h with h1 h2
          subst h1
          rw [hu] at hti
          rw [treeInsert_err_exact true idx.tree none d t2 e
            (by rw [hti, show e2 = some e from h2])]
        · cases v with
          | arr l =>
              rw [hl] at h
              dsimp only at h
              rcases hkg : insertKeysGo idx.unique d idx.tree [] (uniqBy projectForUnique l)
                with ⟨t2, e2⟩
              rw [hkg] at h
              cases e2 with
              | none => simp at h
              | some e2p =>
                  obtain ⟨e3, applied⟩ := e2p
                  injection h with h1 _
                  subst h1
                  rw [hu] at hkg
                  obtain ⟨ks2, happ, h2, hfresh, hnd⟩ :=
                    insertKeysGo_true_err d (uniqBy projectForUnique l) idx.tree [] t2
                      e3 applied hkg
                  rw [List.nil_append] at happ
                  rw [happ]
                  suffices hfold :
                      ks2.foldl (fun t k => treeDelete t (some k) d) t2 = idx.tree by
                    rw [hfold]
                  have hb := block_foldl_delete d (ks2.map some) idx.tree []
                    (by
                      intro k hk
                      rw [List.mem_map] at hk
                      obtain ⟨v2, hv2, hkv⟩ := hk
                      subst hkv
                      exact hfresh v2 hv2)
                    (hnd.map (Option.some_injective _))
                  rw [List.append_nil, List.append_nil] at hb
                  simp only [List.foldl_map, List.map_map, Function.comp_def] at hb
                  rw [← h2] at hb
                  exact hb
          | null =>
              rw [hl] at h
              dsimp only at h
              rcases hti : treeInsert idx.unique idx.tree (some .null) d with ⟨t2, e2⟩
              rw [hti] at h
              injection h with h1 h2
              subst h1
              rw [hu] at hti
              rw [treeInsert_err_exact true idx.tree _ d t2 e
                (by rw [hti, show e2 = some e from h2])]
          | boolean b =>
              rw [hl] at h
              dsimp only at h
              rcases hti : treeInsert idx.unique idx.tree (some (.boolean b)) d with ⟨t2, e2⟩
              rw [hti] at h
              injection h with h1 h2
              subst h1
              rw [hu] at hti
              rw [treeInsert_err_exact true idx.tree _ d t2 e
                (by rw [hti, show e2 = some e from h2])]
          | num n =>
              rw [hl] at h
              dsimp only at h
              rcases hti : treeInsert idx.unique idx.tree (some (.num n)) d with ⟨t2, e2⟩
              rw [hti] at h
              injection h with h1 h2
              subst h1
              rw [hu] at hti
              rw [treeInsert_err_exact true idx.tree _ d t2 e
                (by rw [hti, show e2 = some e from h2])]
          | str s =>
              rw [hl] at h
              dsimp only at h
              rcases hti : treeInsert idx.unique idx.tree (some (.str s)) d with ⟨t2, e2⟩
              rw [hti] at h
              injection h with h1 h2
              subst h1
              rw [hu] at hti
              rw [treeInsert_err_exact true idx.tree _ d t2 e
                (by rw [hti, show e2 = some e from h2])]
          | date tt =>
              rw [hl] at h
              dsimp only at h
              rcases hti : treeInsert idx.unique idx.tree (some (.date tt)) d with ⟨t2, e2⟩
              rw [hti] at h
              injection h with h1 h2
              subst h1
              rw [hu] at hti
              rw [treeInsert_err_exact true idx.tree _ d t2 e
                (by rw [hti, show e2 = some e from h2])]

theorem treeInsert_fresh_delete (u : Bool) (t : Tree) (k : Key) (d : Doc) (t2 : Tree)
    (h : treeInsert u t k d = (t2, none)) (hfresh : ∀ e ∈ t, d ∉ e.2)
    (hne : ∀ e ∈ t, e.2 ≠ []) : treeDelete t2 k d = t := by
  induction t generalizing t2 with
  | nil =>
      rw [treeInsert] at h
      injection h with h1 _
      subst h1
      rw [treeDelete, if_pos rfl]
      simp
  | cons p rest ih =>
      obtain ⟨k0, ds⟩ := p
      rw [treeInsert] at h
      by_cases hkk : k0 = k
      · rw [if_pos hkk] at h
        cases hu : u with
        | true =>
            rw [hu] at h
            simp at h
        | false =>
            rw [hu] at h
            simp only [if_neg Bool.false_ne_true] at h
            injection h with h1 _
            subst h1
            rw [treeDelete, if_pos hkk]
            have hfd : d ∉ ds := hfresh (k0, ds) (List.mem_cons_self _ _)
            have hflt : (ds ++ [d]).filter (fun d2 => d2 ≠ d) = ds := by
              rw [List.filter_append]
              have h1 : ds.filter (fun d2 => d2 ≠ d) = ds :=
                List.filter_eq_self.mpr (fun x hx => by
                  simp only [decide_eq_true_eq]
                  intro hc
                  exact hfd (hc ▸ hx))
              have h2 : ([d] : List Doc).filter (fun d2 => d2 ≠ d) = [] := by simp
              rw [h1, h2, List.append_nil]
            rw [hflt]
            have hdsne : ds ≠ [] := hne (k0, ds) (List.mem_cons_self _ _)
            cases ds with
            | nil => exact absurd rfl hdsne
            | cons x xs => rfl
      · rw [if_neg hkk] at h
        rcases hrec : treeInsert u rest k d with ⟨rest2, e2⟩
        rw [hrec] at h
        injection h with h1 h2
        subst h1
        rw [treeDelete, if_neg hkk]
        rw [ih rest2 (by rw [hrec, h2])
          (fun e2 he2 => hfresh e2 (List.mem_cons_of_mem _ he2))
          (fun e2 he2 => hne e2 (List.mem_cons_of_mem _ he2))]

theorem insertDoc_scalar2 (idx : Index) (d : Doc)
    (hk : keyOkB (getDotValue d idx.fieldName) = true)
    (t2 : Tree) (e : Option DbError)
    (h : treeInsert idx.unique idx.tree (getDotValue d idx.fieldName) d = (t2, e)) :
    idx.insertDoc d = ({ idx with tree := t2 }, e) := by
  rcases hl : getDotValue d idx.fieldName with _ | v
  · rw [hl] at hk
    simp [keyOkB] at hk
  · rw [hl] at h
    cases v with
    | arr l =>
        rw [hl] at hk
        simp [keyOkB] at hk
    | null => simp [Index.insertDoc, hl, h]
    | boolean b => simp [Index.insertDoc, hl, h]
    | num n => simp [Index.insertDoc, hl, h]
    | str s => simp [Index.insertDoc, hl, h]
    | date t => simp [Index.insertDoc, hl, h]

theorem insertDoc_success_remove_exact (idx : Index) (d : Doc) (idx2 : Index)
    (h : idx.insertDoc d = (idx2, none))
    (hcase : idx.unique = true ∨
      (keyOkB (getDotValue d idx.fieldName) = true ∧ DocFresh d idx.tree ∧
        ∀ en ∈ idx.tree, en.2 ≠ [])) :
    idx2.removeDoc d = idx := by
  rcases hcase with hu | ⟨hk, hfresh, hne⟩
  · obtain ⟨hstruct, hfr, hnd⟩ := insertDoc_true_success idx d idx2 hu h
    subst hstruct
    have hb := block_foldl_delete d (idx.docKeys d) idx.tree [] hfr hnd
    rw [List.append_nil, List.append_nil] at hb
    rw [removeDoc_eq_foldl]
    show Index.mk idx.fieldName idx.unique idx.sparse
        (List.foldl (fun t k => treeDelete t k d)
          (idx.tree ++ List.map (fun k => (k, [d])) (idx.docKeys d)) (idx.docKeys d)) = idx
    rw [hb]
  · rcases hti : treeInsert idx.unique idx.tree (getDotValue d idx.fieldName) d
      with ⟨t2, e2⟩
    have hsc := insertDoc_scalar2 idx d hk t2 e2 hti
    rw [h] at hsc
    injection hsc with h1 h2
    subst h1
    obtain ⟨v, hv, _, _, _, hrd⟩ := keyOkB_facts _ hk
    rw [hrd { idx with tree := t2 } d (by show getDotValue d idx.fieldName = some v; exact hv)]
    show ({ idx with
      tree := treeDelete t2 (some v) d } : Index) = idx
    rw [← hv]
    rw [treeInsert_fresh_delete idx.unique idx.tree _ d t2
      (by rw [hti, ← h2]) hfresh hne]

theorem keys_block (f : List Key) (d : Doc) :
    ((f.map (fun k => (k, [d]))).map Prod.fst) = f := by
  rw [List.map_map, show (Prod.fst ∘ fun k => ((k : Key), [d])) = id from rfl, List.map_id]

theorem keys_blocks (f : Doc → List Key) :
    ∀ ds2 : List Doc,
      ((ds2.flatMap (fun d2 => (f d2).map (fun k => (k, [d2])))).map Prod.fst) =
        ds2.flatMap f := by
  intro ds2
  induction ds2 with
  | nil => rfl
  | cons d rest ih =>
      rw [List.flatMap_cons, List.flatMap_cons, List.map_append, ih, keys_block]

theorem removeDocs_blocks (idx : Index) :
    ∀ ds2 : List Doc,
      ((ds2.flatMap (fun d2 => (idx.docKeys d2).map (fun k => (k, [d2])))).map
        Prod.fst).Nodup →
      (∀ k ∈ (ds2.flatMap (fun d2 => (idx.docKeys d2).map (fun k => (k, [d2])))).map
        Prod.fst, k ∉ idx.tree.map Prod.fst) →
      ds2.foldl (fun i d2 => i.removeDoc d2)
        { idx with
          tree := idx.tree ++
            ds2.flatMap (fun d2 => (idx.docKeys d2).map (fun k => (k, [d2]))) } = idx := by
  intro ds2
  induction ds2 with
  | nil =>
      intro _ _
      rw [List.flatMap_nil, List.append_nil]
      rfl
  | cons d rest ih =>
      intro hnd hfresh
      rw [keys_blocks] at hnd hfresh
      rw [List.flatMap_cons] at hnd hfresh ⊢
      rw [List.nodup_append] at hnd
      rw [List.foldl_cons]
      have hstep : Index.removeDoc
          { idx with
            tree := idx.tree ++ ((idx.docKeys d).map (fun k => (k, [d])) ++
              rest.flatMap (fun d2 => (idx.docKeys d2).map (fun k => (k, [d2])))) } d =
          { idx with
            tree := idx.tree ++
              rest.flatMap (fun d2 => (idx.docKeys d2).map (fun k => (k, [d2]))) } := by
        rw [removeDoc_eq_foldl]
        have hb := block_foldl_delete d (idx.docKeys d) idx.tree
          (rest.flatMap (fun d2 => (idx.docKeys d2).map (fun k => (k, [d2]))))
          (fun k hk => hfresh k (List.mem_append_left _ hk)) hnd.1
        show Index.mk idx.fieldName idx.unique idx.sparse
            ((idx.docKeys d).foldl (fun t k => treeDelete t k d)
              (idx.tree ++ ((idx.docKeys d).map (fun k => (k, [d])) ++
                rest.flatMap (fun d2 => (idx.docKeys d2).map (fun k => (k, [d2])))))) = _
        rw [← List.append_assoc, hb]
      rw [hstep]
      exact ih
        (by rw [keys_blocks]; exact hnd.2.1)
        (by rw [keys_blocks]; exact fun k hk => hfresh k (List.mem_append_right _ hk))

theorem insertDocsGo_false_ok :
    ∀ (ds : List Doc) (idx : Index) (acc : List Doc), idx.unique = false →
      (insertDocsGo idx acc ds).2 = none := by
  intro ds
  induction ds with
  | nil => intro idx acc _; rfl
  | cons d ds ih =>
      intro idx acc hu
      rw [insertDocsGo]
      rcases hid : idx.insertDoc d with ⟨idx2, e2⟩
      cases e2 with
      | some e =>
          have := insertDoc_false_ok idx d hu
          rw [hid] at this
          simp at this
      | none =>
          have hu2 : idx2.unique = false := by
            rw [(insertDoc_mono idx idx2 d hid).2.1, hu]
          exact ih idx2 (acc ++ [d]) hu2

theorem insertDocsGo_true_err :
    ∀ (ds : List Doc) (idx : Index) (acc : List Doc) (idxF : Index) (e : DbError)
      (applied : List Doc), idx.unique = true →
      insertDocsGo idx acc ds = (idxF, some (e, applied)) →
      ∃ ds2, applied = acc ++ ds2 ∧
        idxF = { idx with
          tree := idx.tree ++
            ds2.flatMap (fun d2 => (idx.docKeys d2).map (fun k => (k, [d2]))) } ∧
        ((ds2.flatMap (fun d2 => (idx.docKeys d2).map (fun k => (k, [d2])))).map
          Prod.fst).Nodup ∧
        (∀ k ∈ (ds2.flatMap (fun d2 => (idx.docKeys d2).map (fun k => (k, [d2])))).map
          Prod.fst, k ∉ idx.tree.map Prod.fst) := by
  intro ds
  induction ds with
  | nil =>
      intro idx acc idxF e applied _ h
      rw [insertDocsGo] at h
      simp at h
  | cons d ds ih =>
      intro idx acc idxF e applied hu h
      rw [insertDocsGo] at h
      rcases hid : idx.insertDoc d with ⟨idx2, e2⟩
      rw [hid] at h
      cases e2 with
      | some e0 =>
          injection h with h1 h2
          injection h2 with h2
          injection h2 with h2a h2b
          refine ⟨[], by rw [← h2b]; simp, ?_, by simp, by simp⟩
          rw [← h1, insertDoc_err_exact idx d idx2 e0 hid, List.flatMap_nil,
            List.append_nil]
      | none =>
          obtain ⟨hstruct, hfr_d, hnd_d⟩ := insertDoc_true_success idx d idx2 hu hid
          subst hstruct
          dsimp only at h
          obtain ⟨ds2, happ, hF, hnd2, hfresh2⟩ :=
            ih { idx with tree := idx.tree ++ List.map (fun k => (k, [d])) (idx.docKeys d) }
              (acc ++ [d]) idxF e applied hu h
          rw [keys_blocks] at hnd2 hfresh2
          refine ⟨d :: ds2, by rw [happ, List.append_assoc]; rfl, ?_, ?_, ?_⟩
          · rw [hF]
            show Index.mk idx.fieldName idx.unique idx.sparse
                ((idx.tree ++ (idx.docKeys d).map (fun k => (k, [d]))) ++
                  ds2.flatMap (fun d2 => (idx.docKeys d2).map (fun k => (k, [d2])))) =
              Index.mk idx.fieldName idx.unique idx.sparse
                (idx.tree ++ (d :: ds2).flatMap
                  (fun d2 => (idx.docKeys d2).map (fun k => (k, [d2]))))
            rw [List.flatMap_cons, List.append_assoc]
          · rw [keys_blocks, List.flatMap_cons, List.nodup_append]
            refine ⟨hnd_d, hnd2, ?_⟩
            intro a ha hc
            have h5 := hfresh2 a hc
            dsimp only at h5
            rw [List.map_append, keys_block] at h5
            exact h5 (List.mem_append_right _ ha)
          · rw [keys_blocks, List.flatMap_cons]
            intro k hk
            rcases List.mem_append.mp hk with h3 | h3
            · exact hfr_d k h3
            · have h5 := hfresh2 k h3
              dsimp only at h5
              rw [List.map_append, keys_block] at h5
              exact fun hc => h5 (List.mem_append_left _ hc)

theorem insertList_err_exact (idx : Index) (ds : List Doc) (idx2 : Index) (e : DbError)
    (h : idx.insertList ds = (idx2, some e)) : idx2 = idx := by
  cases hu : idx.unique with
  | false =>
      rw [Index.insertList] at h
      rcases hgo : insertDocsGo idx [] ds with ⟨idxF, eF⟩
      have := insertDocsGo_false_ok ds idx [] hu
      rw [hgo] at this h
      dsimp only at this
      subst this
      simp at h
  | true =>
      rw [Index.insertList] at h
      rcases hgo : insertDocsGo idx [] ds with ⟨idxF, eF⟩
      rw [hgo] at h
      cases eF with
      | none => simp at h
      | some ep =>
          obtain ⟨e0, applied⟩ := ep
          injection h with h1 _
          obtain ⟨ds2, happ, hF, hnd2, hfresh2⟩ :=
            insertDocsGo_true_err ds idx [] idxF e0 applied hu hgo
          rw [List.nil_append] at happ
          rw [← h1, happ, hF]
          exact removeDocs_blocks idx ds2 hnd2 hfresh2

theorem addToIndexesGo_err (d : Doc) :
    ∀ (l acc res : List (String × Index)) (e : DbError),
      addToIndexesGo d acc l = (res, some e) →
      (∀ p ∈ l, p.2.unique = true ∨ (keyOkB (getDotValue d p.2.fieldName) = true ∧
        DocFresh d p.2.tree ∧ ∀ en ∈ p.2.tree, en.2 ≠ [])) →
      res = acc.map (fun p => (p.1, p.2.removeDoc d)) ++ l := by
  intro l
  induction l with
  | nil =>
      intro acc res e h _
      rw [addToIndexesGo] at h
      simp at h
  | cons p rest ih =>
      intro acc res e h hyp
      obtain ⟨f, idx⟩ := p
      rw [addToIndexesGo] at h
      rcases hid : idx.insertDoc d with ⟨idx2, e2⟩
      rw [hid] at h
      cases e2 with
      | some e0 =>
          injection h with h1 h2
          rw [← h1, insertDoc_err_exact idx d idx2 e0 hid]
      | none =>
          have := ih (acc ++ [(f, idx2)]) res e h
            (fun p2 hp2 => hyp p2 (List.mem_cons_of_mem _ hp2))
          rw [this, List.map_append]
          simp only [List.map_cons, List.map_nil]
          rw [insertDoc_success_remove_exact idx d idx2 hid
            (hyp (f, idx) (List.mem_cons_self _ _))]
          simp

theorem addToIndexes_err_exact (db : Datastore) (d : Doc) (db2 : Datastore) (e : DbError)
    (h : db.addToIndexes d = (db2, some e))
    (hyp : ∀ p ∈ db.indexes, p.2.unique = true ∨
      (keyOkB (getDotValue d p.2.fieldName) = true ∧
        DocFresh d p.2.tree ∧ ∀ en ∈ p.2.tree, en.2 ≠ [])) :
    db2 = db := by
  rw [Datastore.addToIndexes] at h
  rcases hgo : addToIndexesGo d [] db.indexes with ⟨idxs, ego⟩
  rw [hgo] at h
  injection h with h1 h2
  have := addToIndexesGo_err d db.indexes [] idxs e (by rw [hgo, ← h2]) hyp
  rw [List.map_nil, List.nil_append] at this
  subst this
  rw [← h1]

theorem treeSearch_not_mem (t : Tree) (k : Key) (h : k ∉ t.map Prod.fst) :
    treeSearch t k = [] := by
  induction t with
  | nil => rfl
  | cons p rest ih =>
      obtain ⟨k0, ds⟩ := p
      rw [List.map_cons, List.mem_cons] at h
      push_neg at h
      rw [treeSearch, List.lookup, beq_false_of_ne h.1]
      exact ih h.2

theorem treeSearch_cons_self (k : Key) (ds : List Doc) (rest : Tree) :
    treeSearch ((k, ds) :: rest) k = ds := by
  rw [treeSearch, List.lookup, beq_self_eq_true]

theorem treeSearch_cons_ne (k0 k2 : Key) (ds : List Doc) (rest : Tree) (h : k2 ≠ k0) :
    treeSearch ((k0, ds) :: rest) k2 = treeSearch rest k2 := by
  rw [treeSearch, List.lookup, beq_false_of_ne h]
  rfl

theorem treeSearch_treeDelete_ne (t : Tree) (k : Key) (d : Doc) (k2 : Key) (h : k2 ≠ k) :
    treeSearch (treeDelete t k d) k2 = treeSearch t k2 := by
  induction t with
  | nil => rfl
  | cons p rest ih =>
      obtain ⟨k0, ds⟩ := p
      by_cases hkk : k0 = k
      · subst hkk
        rw [treeDelete, if_pos rfl]
        cases hf : ds.filter (fun d2 => d2 ≠ d) with
        | nil => rw [treeSearch_cons_ne _ _ _ _ h]
        | cons x xs =>
            rw [treeSearch_cons_ne _ _ _ _ h, treeSearch_cons_ne _ _ _ _ h]
      · rw [treeDelete, if_neg hkk]
        by_cases hk2 : k2 = k0
        · subst hk2
          rw [treeSearch_cons_self, treeSearch_cons_self]
        · rw [treeSearch_cons_ne _ _ _ _ hk2, treeSearch_cons_ne _ _ _ _ hk2]
          exact ih

theorem treeSearch_treeDelete_self (t : Tree) (k : Key) (d : Doc) (hnd : TreeNoDup t) :
    treeSearch (treeDelete t k d) k = (treeSearch t k).filter (fun d2 => d2 ≠ d) := by
  induction t with
  | nil => rfl
  | cons p rest ih =>
      obtain ⟨k0, ds⟩ := p
      rw [TreeNoDup, List.map_cons, List.nodup_cons] at hnd
      by_cases hkk : k0 = k
      · subst hkk
        rw [treeDelete, if_pos rfl, treeSearch_cons_self]
        cases hf : ds.filter (fun d2 => d2 ≠ d) with
        | nil =>
            rw [treeSearch_not_mem rest k0 hnd.1]
        | cons x xs =>
            rw [treeSearch_cons_self]
      · rw [treeDelete, if_neg hkk, treeSearch_cons_ne _ _ _ _ (fun hc => hkk hc.symm),
          treeSearch_cons_ne _ _ _ _ (fun hc => hkk hc.symm)]
        exact ih hnd.2

theorem treeSearch_treeInsert (u : Bool) (t : Tree) (k : Key) (d : Doc) (t2 : Tree)
    (h : treeInsert u t k d = (t2, none)) :
    treeSearch t2 k = treeSearch t k ++ [d] ∧
    ∀ k2, k2 ≠ k → treeSearch t2 k2 = treeSearch t k2 := by
  induction t generalizing t2 with
  | nil =>
      rw [treeInsert] at h
      injection h with h1 _
      subst h1
      constructor
      · rw [treeSearch_cons_self]
        rfl
      · intro k2 hk2
        rw [treeSearch_cons_ne _ _ _ _ hk2]
  | cons p rest ih =>
      obtain ⟨k0, ds⟩ := p
      rw [treeInsert] at h
      by_cases hkk : k0 = k
      · subst hkk
        rw [if_pos rfl] at h
        cases hu : u with
        | true =>
            rw [hu] at h
            simp at h
        | false =>
            rw [hu] at h
            simp only [if_neg Bool.false_ne_true] at h
            injection h with h1 _
            subst h1
            constructor
            · rw [treeSearch_cons_self, treeSearch_cons_self]
            · intro k2 hk2
              rw [treeSearch_cons_ne _ _ _ _ hk2, treeSearch_cons_ne _ _ _ _ hk2]
      · rw [if_neg hkk] at h
        rcases hrec : treeInsert u rest k d with ⟨rest2, e2⟩
        rw [hrec] at h
        injection h with h1 h2
        subst h1
        obtain ⟨ih1, ih2⟩ := ih rest2 (by rw [hrec, h2])
        constructor
        · rw [treeSearch_cons_ne _ _ _ _ (fun hc => hkk hc.symm),
            treeSearch_cons_ne _ _ _ _ (fun hc => hkk hc.symm)]
          exact ih1
        · intro k2 hk2
          by_cases hk0 : k2 = k0
          · subst hk0
            rw [treeSearch_cons_self, treeSearch_cons_self]
          · rw [treeSearch_cons_ne _ _ _ _ hk0, treeSearch_cons_ne _ _ _ _ hk0]
            exact ih2 k2 hk2

theorem filter_ne_append_perm (l : List Doc) (a : Doc) (hm : a ∈ l) (hc : l.count a ≤ 1) :
    (l.filter (fun d2 => d2 ≠ a) ++ [a]).Perm l := by
  induction l with
  | nil => simp at hm
  | cons x xs ih =>
      by_cases hx : x = a
      · subst hx
        rw [List.count_cons_self] at hc
        have hnot : x ∉ xs := by
          rw [← List.count_eq_zero]
          omega
        have hflt : (x :: xs).filter (fun d2 => d2 ≠ x) = xs := by
          rw [List.filter_cons_of_neg (by simp)]
          exact List.filter_eq_self.mpr (fun y hy => by
            simp only [decide_eq_true_eq]
            intro hcch
            exact hnot (hcch ▸ hy))
        rw [hflt]
        exact List.perm_append_singleton x xs
      · rcases List.mem_cons.mp hm with h1 | h1
        · exact absurd h1.symm hx
        · rw [List.count_cons_of_ne (fun hcc => hx hcc.symm)] at hc
          rw [List.filter_cons_of_pos (by simp [hx])]
          rw [List.cons_append]
          exact (ih h1 hc).cons x

theorem updateDoc_restore_perm (idx : Index) (old new2 : Doc) (idx2 idx3 : Index)
    (e : DbError)
    (hnd : TreeNoDup idx.tree)
    (hko : keyOkB (getDotValue old idx.fieldName) = true)
    (hmem : old ∈ treeSearch idx.tree (getDotValue old idx.fieldName))
    (hcount : (treeSearch idx.tree (getDotValue old idx.fieldName)).count old ≤ 1)
    (h1 : (idx.removeDoc old).insertDoc new2 = (idx2, some e))
    (h2 : idx2.insertDoc old = (idx3, none)) :
    idx.updateDoc old new2 = (idx3, some e) ∧
    ∀ k, (treeSearch idx3.tree k).Perm (treeSearch idx.tree k) := by
  constructor
  · show (match (idx.removeDoc old).insertDoc new2 with
      | (idx2, none) => (idx2, none)
      | (idx2, some e) =>
          match idx2.insertDoc old with
          | (idx3, none) => (idx3, some e)
          | (idx3, some e2) => (idx3, some e2)) = (idx3, some e)
    rw [h1]
    dsimp only
    rw [h2]
  · have hx2 : idx2 = idx.removeDoc old := insertDoc_err_exact _ new2 idx2 e h1
    obtain ⟨v, hv, _, _, _, hrd⟩ := keyOkB_facts _ hko
    have hrm : idx.removeDoc old = { idx with tree := treeDelete idx.tree (some v) old } :=
      hrd idx old hv
    rw [hrm] at hx2
    subst hx2
    rcases hti : treeInsert idx.unique (treeDelete idx.tree (some v) old) (some v) old
      with ⟨t3, e3⟩
    have hins := insertDoc_scalar2
      { idx with tree := treeDelete idx.tree (some v) old } old
      (by show keyOkB (getDotValue old idx.fieldName) = true; exact hko) t3 e3
      (by show treeInsert idx.unique (treeDelete idx.tree (some v) old)
            (getDotValue old idx.fieldName) old = (t3, e3)
          rw [hv, hti])
    rw [h2] at hins
    injection hins with hi1 hi2
    have he3 : e3 = none := hi2.symm
    subst he3
    have hsearch := treeSearch_treeInsert idx.unique
      (treeDelete idx.tree (some v) old) (some v) old t3 hti
    intro k
    by_cases hk : k = some v
    · subst hk
      rw [hi1]
      show (treeSearch t3 (some v)).Perm _
      rw [hsearch.1, treeSearch_treeDelete_self idx.tree (some v) old hnd]
      rw [hv] at hmem hcount
      exact filter_ne_append_perm _ old hmem hcount
    · rw [hi1]
      show (treeSearch t3 k).Perm _
      rw [hsearch.2 k hk, treeSearch_treeDelete_ne idx.tree (some v) old k hk]

/-- C1 counterexample: a cross-index update that fails on a unique index is
rolled back, but the revert re-inserts the old document at the END of its
key's document list in a non-unique index.  The observable content of that
index (the list `getMatching` returns for the key) is NOT identical before
and after the failed call — only its multiset of documents is preserved. -/
theorem index_rollback_counterexample :
    (Datastore.updateIndexes
        ⟨[("f", ⟨"f", false, false,
            [(some (Value.num 1),
               [[("_id", Value.str "1"), ("f", Value.num 1), ("g", Value.num 5)],
                [("_id", Value.str "2"), ("f", Value.num 1), ("g", Value.num 2)]])]⟩),
          ("g", ⟨"g", true, false,
            [(some (Value.num 5),
               [[("_id", Value.str "1"), ("f", Value.num 1), ("g", Value.num 5)]]),
             (some (Value.num 2),
               [[("_id", Value.str "2"), ("f", Value.num 1), ("g", Value.num 2)]])]⟩)],
          [], [], false⟩
        [⟨[("_id", Value.str "1"), ("f", Value.num 1), ("g", Value.num 5)],
          [("_id", Value.str "1"), ("f", Value.num 1), ("g", Value.num 2)]⟩]).2.isSome =
      true ∧
    treeSearch ((Datastore.updateIndexes
        ⟨[("f", ⟨"f", false, false,
            [(some (Value.num 1),
               [[("_id", Value.str "1"), ("f", Value.num 1), ("g", Value.num 5)],
                [("_id", Value.str "2"), ("f", Value.num 1), ("g", Value.num 2)]])]⟩),
          ("g", ⟨"g", true, false,
            [(some (Value.num 5),
               [[("_id", Value.str "1"), ("f", Value.num 1), ("g", Value.num 5)]]),
             (some (Value.num 2),
               [[("_id", Value.str "2"), ("f", Value.num 1), ("g", Value.num 2)]])]⟩)],
          [], [], false⟩
        [⟨[("_id", Value.str "1"), ("f", Value.num 1), ("g", Value.num 5)],
          [("_id", Value.str "1"), ("f", Value.num 1), ("g", Value.num 2)]⟩]).1.getIndex
          "f").tree (some (Value.num 1)) =
      [[("_id", Value.str "2"), ("f", Value.num 1), ("g", Value.num 2)],
       [("_id", Value.str "1"), ("f", Value.num 1), ("g", Value.num 5)]] ∧
    treeSearch ((Datastore.getIndex
        ⟨[("f", ⟨"f", false, false,
            [(some (Value.num 1),
               [[("_id", Value.str "1"), ("f", Value.num 1), ("g", Value.num 5)],
                [("_id", Value.str "2"), ("f", Value.num 1), ("g", Value.num 2)]])]⟩),
          ("g", ⟨"g", true, false,
            [(some (Value.num 5),
               [[("_id", Value.str "1"), ("f", Value.num 1), ("g", Value.num 5)]]),
             (some (Value.num 2),
               [[("_id", Value.str "2"), ("f", Value.num 1), ("g", Value.num 2)]])]⟩)],
          [], [], false⟩ "f")).tree (some (Value.num 1)) =
      [[("_id", Value.str "1"), ("f", Value.num 1), ("g", Value.num 5)],
       [("_id", Value.str "2"), ("f", Value.num 1), ("g", Value.num 2)]] ∧
    ([[("_id", Value.str "2"), ("f", Value.num 1), ("g", Value.num 2)],
      [("_id", Value.str "1"), ("f", Value.num 1), ("g", Value.num 5)]] : List Doc) ≠
      [[("_id", Value.str "1"), ("f", Value.num 1), ("g", Value.num 5)],
       [("_id", Value.str "2"), ("f", Value.num 1), ("g", Value.num 2)]] ∧
    ([[("_id", Value.str "2"), ("f", Value.num 1), ("g", Value.num 2)],
      [("_id", Value.str "1"), ("f", Value.num 1), ("g", Value.num 5)]] : List Doc).Perm
      [[("_id", Value.str "1"), ("f", Value.num 1), ("g", Value.num 5)],
       [("_id", Value.str "2"), ("f", Value.num 1), ("g", Value.num 2)]] := by
  refine ⟨by decide, by decide, by decide, by decide, ?_⟩
  decide

/-- C1 (amended): all-or-nothing holds exactly for the insert paths — a
failed `tree.insert`, `Index.insert` (single document, including
array-valued keys), `Index.insertMultipleDocs`, or `Datastore.addToIndexes`
(under per-index invariants: unique, or a scalar key with the new document
absent and no empty key entry) leaves the index/store state identical.  For
the update path, a failed `Index.update(oldDoc, newDoc)` whose internal
restore succeeds preserves the observable per-key content only as a
multiset: the restore re-appends the old document, so the order within a
key's document list may change (see the counterexample for the cross-index
`updateIndexes` case). -/
theorem index_rollback :
    (∀ (u : Bool) (t : Tree) (k : Key) (d : Doc) (t2 : Tree) (e : DbError),
        treeInsert u t k d = (t2, some e) → t2 = t) ∧
    (∀ (idx : Index) (d : Doc) (idx2 : Index) (e : DbError),
        idx.insertDoc d = (idx2, some e) → idx2 = idx) ∧
    (∀ (idx : Index) (ds : List Doc) (idx2 : Index) (e : DbError),
        idx.insertList ds = (idx2, some e) → idx2 = idx) ∧
    (∀ (db : Datastore) (d : Doc) (db2 : Datastore) (e : DbError),
        db.addToIndexes d = (db2, some e) →
        (∀ p ∈ db.indexes, p.2.unique = true ∨
          (keyOkB (getDotValue d p.2.fieldName) = true ∧
            DocFresh d p.2.tree ∧ ∀ en ∈ p.2.tree, en.2 ≠ [])) →
        db2 = db) ∧
    (∀ (idx : Index) (old new2 : Doc) (idx2 idx3 : Index) (e : DbError),
        TreeNoDup idx.tree →
        keyOkB (getDotValue old idx.fieldName) = true →
        old ∈ treeSearch idx.tree (getDotValue old idx.fieldName) →
        (treeSearch idx.tree (getDotValue old idx.fieldName)).count old ≤ 1 →
        (idx.removeDoc old).insertDoc new2 = (idx2, some e) →
        idx2.insertDoc old = (idx3, none) →
        idx.updateDoc old new2 = (idx3, some e) ∧
        ∀ k, (treeSearch idx3.tree k).Perm (treeSearch idx.tree k)) :=
  ⟨treeInsert_err_exact, insertDoc_err_exact, insertList_err_exact,
    addToIndexes_err_exact, updateDoc_restore_perm⟩

/-- C1 witness: a failed unique-index update (old document removed, new one
colliding, restore succeeding) surfaces the error and preserves the per-key
content of the index. -/
theorem index_rollback_witness :
    (TreeNoDup (⟨"g", true, false,
        [(some (Value.num 5), [[("_id", Value.str "1"), ("g", Value.num 5)]]),
         (some (Value.num 2), [[("_id", Value.str "2"), ("g", Value.num 2)]])]⟩ :
        Index).tree ∧
      ((⟨"g", true, false,
        [(some (Value.num 5), [[("_id", Value.str "1"), ("g", Value.num 5)]]),
         (some (Value.num 2), [[("_id", Value.str "2"), ("g", Value.num 2)]])]⟩ :
        Index).removeDoc [("_id", Value.str "1"), ("g", Value.num 5)]).insertDoc
          [("_id", Value.str "1"), ("g", Value.num 2)] =
        (⟨"g", true, false,
          [(some (Value.num 2), [[("_id", Value.str "2"), ("g", Value.num 2)]])]⟩,
          some (DbError.uniqueViolated (some (Value.num 2))))) ∧
    Index.updateDoc
        ⟨"g", true, false,
          [(some (Value.num 5), [[("_id", Value.str "1"), ("g", Value.num 5)]]),
           (some (Value.num 2), [[("_id", Value.str "2"), ("g", Value.num 2)]])]⟩
        [("_id", Value.str "1"), ("g", Value.num 5)]
        [("_id", Value.str "1"), ("g", Value.num 2)] =
      (⟨"g", true, false,
        [(some (Value.num 2), [[("_id", Value.str "2"), ("g", Value.num 2)]]),
         (some (Value.num 5), [[("_id", Value.str "1"), ("g", Value.num 5)]])]⟩,
        some (DbError.uniqueViolated (some (Value.num 2)))) ∧
    (treeSearch
        (⟨"g", true, false,
          [(some (Value.num 2), [[("_id", Value.str "2"), ("g", Value.num 2)]]),
           (some (Value.num 5), [[("_id", Value.str "1"), ("g", Value.num 5)]])]⟩ :
          Index).tree (some (Value.num 5))).Perm
      (treeSearch
        (⟨"g", true, false,
          [(some (Value.num 5), [[("_id", Value.str "1"), ("g", Value.num 5)]]),
           (some (Value.num 2), [[("_id", Value.str "2"), ("g", Value.num 2)]])]⟩ :
          Index).tree (some (Value.num 5))) := by
  have h := index_rollback.2.2.2.2
    ⟨"g", true, false,
      [(some (Value.num 5), [[("_id", Value.str "1"), ("g", Value.num 5)]]),
       (some (Value.num 2), [[("_id", Value.str "2"), ("g", Value.num 2)]])]⟩
    [("_id", Value.str "1"), ("g", Value.num 5)]
    [("_id", Value.str "1"), ("g", Value.num 2)]
    ⟨"g", true, false, [(some (Value.num 2), [[("_id", Value.str "2"), ("g", Value.num 2)]])]⟩
    ⟨"g", true, false,
      [(some (Value.num 2), [[("_id", Value.str "2"), ("g", Value.num 2)]]),
       (some (Value.num 5), [[("_id", Value.str "1"), ("g", Value.num 5)]])]⟩
    (DbError.uniqueViolated (some (Value.num 2)))
    (by unfold TreeNoDup; decide) (by decide) (by decide) (by decide)
    (by decide) (by decide)
  exact ⟨⟨by unfold TreeNoDup; decide, by decide⟩, h.1, h.2 (some (Value.num 5))⟩

end Nedb
